import Mathlib

/-!
# mpileup: read filter, sample grouper, file cache, region driver and text formatter of `bam_plcmd.c`

A shallow embedding of the functions of `bam_plcmd.c` that carry the pileup
driver: `mplp_func` (the per-file read filter), `group_smpl` (the sample
grouper), `mpileup` (file, header and index acquisition through the optional
file cache, the depth cap handed to the engine, the position loop, the text
formatter and the release of the resources), `printw` and `pileup_seq` (the
writers of the text format), `parse_format_flag`, and the option handling and
region loop of `bam_mpileup`.

Conventions of the embedding.
* C `int` values are `Int`; bit masks and the unsigned record fields
  (`core.flag`, `core.qual`, base qualities) are `Nat`; where a 32-bit operation
  can wrap, the wrap is written out (`wrap32`).
* A C array reached through a pointer is either a `List` (read-only inputs) or
  an index map `Nat → α` (arrays that the code writes in place); text is a list
  of character codes.
* `exit(1)` is the `none` of an `Option` or of a returned status, or the error
  of an `Except`, with a final `exit` event in the trace; a write past the end
  of a fixed-size buffer is `none` as well.
* Routines that live outside this file (`bam_cap_mapQ`, `bam_prob_realn_core`,
  `bam_smpl_rg2smid`, the sample table, the storage layer, the pileup engine and
  the sequence tables of htslib, the constants of `bam2bcf.h`) are parameters.
-/

namespace Mpileup

/-! ## Constants -/

/-- The record is one read of a pair (`BAM_FPAIRED`). -/
def BAM_FPAIRED : Nat := 1
/-- The pair is properly aligned (`BAM_FPROPER_PAIR`). -/
def BAM_FPROPER_PAIR : Nat := 2
/-- The record is unmapped (`BAM_FUNMAP`). -/
def BAM_FUNMAP : Nat := 4

/-- Flag bit `MPLP_BCF`, `1`. -/
def MPLP_BCF : Nat := 1
/-- Flag bit `MPLP_NO_ORPHAN`, `1<<3`. -/
def MPLP_NO_ORPHAN : Nat := 1 <<< 3
/-- Flag bit `MPLP_REALN`, `1<<4`. -/
def MPLP_REALN : Nat := 1 <<< 4
/-- Flag bit `MPLP_REDO_BAQ`, `1<<6`. -/
def MPLP_REDO_BAQ : Nat := 1 <<< 6
/-- Flag bit `MPLP_ILLUMINA13`, `1<<7`. -/
def MPLP_ILLUMINA13 : Nat := 1 <<< 7
/-- Flag bit `MPLP_IGNORE_RG`, `1<<8`. -/
def MPLP_IGNORE_RG : Nat := 1 <<< 8
/-- Flag bit `MPLP_SMART_OVERLAPS`, `1<<12`. -/
def MPLP_SMART_OVERLAPS : Nat := 1 <<< 12

/-! ## Records, streams and configuration -/

/-- The fields of `bam1_core_t` that the driver reads or writes. -/
structure bam1_core_t where
  tid : Int
  pos : Int
  flag : Nat
  qual : Nat
  l_qseq : Int
deriving DecidableEq, Repr

/-- An alignment record: the core, the base qualities (`bam_get_qual`), the
value of the `RG` auxiliary tag (`bam_aux_get(b, "RG")`, `none` when the tag is
absent) and the end coordinate that `bam_endpos` derives from the CIGAR. -/
structure bam1_t where
  core : bam1_core_t
  qual : List Nat
  rg : Option String
  endpos : Int
deriving DecidableEq, Repr

/-- End coordinate of a record (htslib `bam_endpos`). -/
def bam_endpos (b : bam1_t) : Int := b.endpos

/-- A finite stream of records as a reader delivers it: each record comes with
the non-negative status of the read that produced it; once the records are used
up every further read returns the negative status `-(eof + 1)`. -/
structure RecStream where
  recs : List (Nat × bam1_t)
  eof : Nat
deriving DecidableEq, Repr

/-- The negative status a stream returns once it is exhausted. -/
def RecStream.endStatus (s : RecStream) : Int := Int.negSucc s.eof

/-- An open alignment file (`samFile`): its name and what sequential reads
(`sam_read1`) will still deliver. -/
structure samFile where
  fname : String
  stream : RecStream
deriving DecidableEq, Repr

/-- A parsed header (`bam_hdr_t`): its text and the reference names. -/
structure bam_hdr_t where
  text : String
  target_name : List String
deriving DecidableEq, Repr

/-- A loaded index (`hts_idx_t`), identified by the file it belongs to. -/
structure hts_idx_t where
  fname : String
deriving DecidableEq, Repr

/-- A region iterator (`hts_itr_t`): the resolved region and what
`sam_itr_next` will still deliver. -/
structure hts_itr_t where
  tid : Int
  beg : Int
  endp : Int
  stream : RecStream
deriving DecidableEq, Repr

/-- One slot of the file cache (`mplp_filecache_t`); a null pointer is `none`. -/
structure mplp_filecache_t where
  fp : Option samFile
  h : Option bam_hdr_t
  idx : Option hts_idx_t
deriving DecidableEq, Repr

/-- The run configuration (`mplp_conf_t`), restricted to the fields used here.
`bed` is the loaded interval set seen through `bed_overlap(bed, chr, beg, end)`;
`rghash` is the set of excluded read groups; `fai` tells whether a reference
index is loaded; `filecache` is the slot array, indexed by file number. -/
structure mplp_conf_t where
  min_mq : Int
  flag : Nat
  min_baseQ : Int
  capQ_thres : Int
  max_depth : Int
  max_indel_depth : Int
  rflag_require : Nat
  rflag_filter : Nat
  bamcachesizemb : Int
  reg : Option String
  fai : Bool
  bed : Option (String → Int → Int → Int)
  rghash : Option (List String)
  filecache : Option (Nat → mplp_filecache_t)

/-- Per-file state of the read filter (`mplp_aux_t`). -/
structure mplp_aux_t where
  fp : samFile
  iter : Option hts_itr_t
  h : bam_hdr_t
  ref_id : Int
  ref : Option String
  conf : mplp_conf_t

/-- The quality routines of `bam_md.c` that `mplp_func` calls.
`bam_prob_realn_core b ref flag` gives the recomputed base qualities of `b`;
`bam_cap_mapQ b ref thres` gives the adjusted mapping quality. -/
structure External where
  bam_prob_realn_core : bam1_t → String → Int → List Nat
  bam_cap_mapQ : bam1_t → String → Int → Int

/-! ## The read filter `mplp_func` -/

/-- Name of reference `tid` in a header (`h->target_name[tid]`). -/
def bam_hdr_t.name (h : bam_hdr_t) (tid : Int) : String :=
  h.target_name.getD tid.toNat ""

/-- Stage 1: `b->core.tid < 0 || (b->core.flag & BAM_FUNMAP)`. -/
def skip_unmapped (b : bam1_t) : Bool :=
  decide (b.core.tid < 0) || (b.core.flag &&& BAM_FUNMAP != 0)

/-- Stage 2: `conf->rflag_require && !(conf->rflag_require & b->core.flag)`. -/
def skip_require (conf : mplp_conf_t) (b : bam1_t) : Bool :=
  conf.rflag_require != 0 && (conf.rflag_require &&& b.core.flag == 0)

/-- Stage 3: `conf->rflag_filter && conf->rflag_filter & b->core.flag`. -/
def skip_filter (conf : mplp_conf_t) (b : bam1_t) : Bool :=
  conf.rflag_filter != 0 && (conf.rflag_filter &&& b.core.flag != 0)

/-- Stage 4: with an interval set, `skip = !bed_overlap(bed, name, pos, endpos)`. -/
def skip_bed (ma : mplp_aux_t) (b : bam1_t) : Bool :=
  match ma.conf.bed with
  | some overlap => overlap (ma.h.name b.core.tid) b.core.pos (bam_endpos b) == 0
  | none => false

/-- Stage 5: with an exclusion set, skip a record whose `RG` tag is in it. -/
def skip_rg (conf : mplp_conf_t) (b : bam1_t) : Bool :=
  match conf.rghash with
  | some excluded =>
    (match b.rg with
     | some rg => excluded.contains rg
     | none => false)
  | none => false

/-- Stages 1 to 5 in source order; each one that fires is a `continue`. -/
def skip_early (ma : mplp_aux_t) (b : bam1_t) : Bool :=
  skip_unmapped b || skip_require ma.conf b || skip_filter ma.conf b ||
    skip_bed ma b || skip_rg ma.conf b

/-- Stage 6 body: `qual[i] = qual[i] > 31 ? qual[i] - 31 : 0` for
`i < l_qseq`. -/
def illumina13 (b : bam1_t) : bam1_t :=
  let n := b.core.l_qseq.toNat
  let head := (b.qual.take n).map (fun q => if q > 31 then q - 31 else 0)
  { b with qual := head ++ b.qual.drop n }

/-- Stage 6: the rescaling runs when `conf->flag & MPLP_ILLUMINA13`. -/
def stage_illumina13 (conf : mplp_conf_t) (b : bam1_t) : bam1_t :=
  if conf.flag &&& MPLP_ILLUMINA13 != 0 then illumina13 b else b

/-- The reference of the record when there is one:
`has_ref = (ma->ref && ma->ref_id == b->core.tid)`. -/
def has_ref (ma : mplp_aux_t) (b : bam1_t) : Option String :=
  match ma.ref with
  | some r => if ma.ref_id = b.core.tid then some r else none
  | none => none

/-- Stage 7: `if (has_ref && (flag & MPLP_REALN)) bam_prob_realn_core(b, ref,
(flag & MPLP_REDO_BAQ) ? 7 : 3)`; the routine rewrites the base qualities. -/
def stage_realn (ext : External) (ma : mplp_aux_t) (b : bam1_t) : bam1_t :=
  match has_ref ma b with
  | some r =>
    if ma.conf.flag &&& MPLP_REALN != 0 then
      let baq : Int := if ma.conf.flag &&& MPLP_REDO_BAQ != 0 then 7 else 3
      { b with qual := ext.bam_prob_realn_core b r baq }
    else b
  | none => b

/-- Stage 8: with a reference (`r`, taken before stage 7) and
`capQ_thres > 10`, `q = bam_cap_mapQ(b, ref, capQ_thres)`; `q < 0` sets `skip`,
otherwise `if (b->core.qual > q) b->core.qual = q`. Gives `(skip, b)`. -/
def stage_capQ (ext : External) (conf : mplp_conf_t) (r : Option String) (b : bam1_t) :
    Bool × bam1_t :=
  match r with
  | some ref =>
    if conf.capQ_thres > 10 then
      let q := ext.bam_cap_mapQ b ref conf.capQ_thres
      if q < 0 then (true, b)
      else if (b.core.qual : Int) > q then (false, { b with core := { b.core with qual := q.toNat } })
      else (false, b)
    else (false, b)
  | none => (false, b)

/-- Stage 9 test: `b->core.qual < conf->min_mq`. -/
def skip_min_mq (conf : mplp_conf_t) (b : bam1_t) : Bool :=
  decide ((b.core.qual : Int) < conf.min_mq)

/-- Stage 10 test: `(flag & MPLP_NO_ORPHAN) && (b->core.flag & BAM_FPAIRED) &&
!(b->core.flag & BAM_FPROPER_PAIR)`. -/
def skip_orphan (conf : mplp_conf_t) (b : bam1_t) : Bool :=
  (conf.flag &&& MPLP_NO_ORPHAN != 0) && (b.core.flag &&& BAM_FPAIRED != 0) &&
    (b.core.flag &&& BAM_FPROPER_PAIR == 0)

/-- Stages 9 and 10 on top of the `skip` left by stage 8:
`if (qual < min_mq) skip = 1; else if (orphan) skip = 1;`. -/
def stage_final (conf : mplp_conf_t) (skip : Bool) (b : bam1_t) : Bool :=
  if skip_min_mq conf b then true
  else if skip_orphan conf b then true
  else skip

/-- Stages 6 to 8 applied to a record that passed stages 1 to 5: the `skip`
left by stage 8 and the record as mutated. -/
def mplp_transform (ext : External) (ma : mplp_aux_t) (b : bam1_t) : Bool × bam1_t :=
  let b6 := stage_illumina13 ma.conf b
  stage_capQ ext ma.conf (has_ref ma b6) (stage_realn ext ma b6)

/-- One pass through the body of the `do ... while (skip)` loop of `mplp_func`
for a record just read: the value of `skip` at the loop test and the record as
the pass leaves it. -/
def mplp_body (ext : External) (ma : mplp_aux_t) (b : bam1_t) : Bool × bam1_t :=
  if skip_early ma b then (true, b)
  else
    let t := mplp_transform ext ma b
    (stage_final ma.conf t.1 t.2, t.2)

/-- The loop of `mplp_func` over the records the reader still holds: `b` is the
caller's record buffer, `end_status` the negative status of an exhausted
reader. Gives the returned status, the buffer and the unread records. -/
def mplp_loop (ext : External) (ma : mplp_aux_t) (end_status : Int) :
    bam1_t → List (Nat × bam1_t) → Int × bam1_t × List (Nat × bam1_t)
  | b, [] => (end_status, b, [])
  | _, (ret, r) :: rest =>
    if (mplp_body ext ma r).1 then mplp_loop ext ma end_status (mplp_body ext ma r).2 rest
    else ((ret : Int), (mplp_body ext ma r).2, rest)

/-- The stream `mplp_func` reads: the iterator when there is one
(`sam_itr_next`), the file itself otherwise (`sam_read1`). -/
def mplp_aux_t.source (ma : mplp_aux_t) : RecStream :=
  match ma.iter with
  | some it => it.stream
  | none => ma.fp.stream

/-- The filter state once the reader has been advanced to `rest`. -/
def mplp_aux_t.advance (ma : mplp_aux_t) (rest : List (Nat × bam1_t)) : mplp_aux_t :=
  match ma.iter with
  | some it => { ma with iter := some { it with stream := { it.stream with recs := rest } } }
  | none => { ma with fp := { ma.fp with stream := { ma.fp.stream with recs := rest } } }

/-- The read filter `mplp_func(data, b)`: the returned status, the record
buffer `b` and the filter state after the call. -/
def mplp_func (ext : External) (ma : mplp_aux_t) (b : bam1_t) : Int × bam1_t × mplp_aux_t :=
  let r := mplp_loop ext ma ma.source.endStatus b ma.source.recs
  (r.1, r.2.1, ma.advance r.2.2)

/-! ## The sample grouper `group_smpl` -/

/-- One entry of a pileup column (`bam_pileup1_t`). -/
structure bam_pileup1_t where
  b : bam1_t
  qpos : Int
  indel : Int
  is_del : Bool
  is_head : Bool
  is_tail : Bool
  is_refskip : Bool
deriving DecidableEq, Repr

/-- The sample table (`bam_sample_t`) as `group_smpl` sees it: the number of
samples `n` and the lookup `bam_smpl_rg2smid(sm, fn, rg, buf)` of `sample.c`,
which gives the sample id recorded for file `fn` and read group `rg` (for the
file alone when `rg` is null) and `-1` when nothing is recorded. -/
structure bam_sample_t where
  n : Nat
  rg2smid : String → Option String → Int

/-- The per-sample buckets (`mplp_pileup_t`): `n` samples, the fill counts
`n_plp`, the capacities `m_plp` and the entry arrays `plp`, the arrays being
index maps (a cell never written holds whatever the map gives). -/
structure mplp_pileup_t where
  n : Nat
  n_plp : Nat → Nat
  m_plp : Nat → Nat
  plp : Nat → Nat → bam_pileup1_t

/-- The entries of bucket `s` that are in use: `plp[s][0 .. n_plp[s])`. -/
def mplp_pileup_t.bucket (m : mplp_pileup_t) (s : Nat) : List bam_pileup1_t :=
  (List.range (m.n_plp s)).map (m.plp s)

/-- The sample id `group_smpl` computes for entry `p` of file `fn`:
`q = ignore_rg ? 0 : bam_aux_get(p->b, "RG"); id = -1;
if (q) id = rg2smid(fn, q+1); if (id < 0) id = rg2smid(fn, 0);`. -/
def group_smpl_id (sm : bam_sample_t) (ignore_rg : Bool) (fn : String)
    (p : bam_pileup1_t) : Int :=
  let q : Option String := if ignore_rg then none else p.b.rg
  let id : Int :=
    match q with
    | some rg => sm.rg2smid fn (some rg)
    | none => -1
  if id < 0 then sm.rg2smid fn none else id

/-- Appending `p` to bucket `id`: when the bucket is full its capacity becomes
`m_plp[id] ? m_plp[id] << 1 : 8` (the `realloc` keeps the entries), then
`plp[id][n_plp[id]++] = *p`. -/
def group_smpl_push (m : mplp_pileup_t) (id : Nat) (p : bam_pileup1_t) : mplp_pileup_t :=
  let cap : Nat :=
    if m.n_plp id = m.m_plp id then (if m.m_plp id != 0 then m.m_plp id <<< 1 else 8)
    else m.m_plp id
  { m with
    m_plp := Function.update m.m_plp id cap
    plp := Function.update m.plp id (Function.update (m.plp id) (m.n_plp id) p)
    n_plp := Function.update m.n_plp id (m.n_plp id + 1) }

/-- The inner loop of `group_smpl` over the entries of one file's column;
`none` is the `exit(1)` taken when `id < 0 || id >= m->n`. -/
def group_smpl_col (sm : bam_sample_t) (ignore_rg : Bool) (fn : String) :
    mplp_pileup_t → List bam_pileup1_t → Option mplp_pileup_t
  | m, [] => some m
  | m, p :: ps =>
    if group_smpl_id sm ignore_rg fn p < 0 ∨ group_smpl_id sm ignore_rg fn p ≥ (m.n : Int) then none
    else group_smpl_col sm ignore_rg fn
      (group_smpl_push m (group_smpl_id sm ignore_rg fn p).toNat p) ps

/-- The outer loop of `group_smpl` over the files, in the order given. -/
def group_smpl_files (sm : bam_sample_t) (ignore_rg : Bool) :
    mplp_pileup_t → List (String × List bam_pileup1_t) → Option mplp_pileup_t
  | m, [] => some m
  | m, c :: cs =>
    match group_smpl_col sm ignore_rg c.1 m c.2 with
    | some m1 => group_smpl_files sm ignore_rg m1 cs
    | none => none

/-- The `memset(m->n_plp, 0, m->n * sizeof(int))` that opens `group_smpl`. -/
def group_smpl_clear (m : mplp_pileup_t) : mplp_pileup_t :=
  { m with n_plp := fun s => if s < m.n then 0 else m.n_plp s }

/-- The sample grouper `group_smpl(m, sm, buf, n, fn, n_plp, plp, ignore_rg)`.
The arguments `n`, `fn`, `n_plp`, `plp` are the list `cols`: its `i`-th item is
the name `fn[i]` with the `n_plp[i]` entries at `plp[i]`. `none` is `exit(1)`. -/
def group_smpl (m : mplp_pileup_t) (sm : bam_sample_t)
    (cols : List (String × List bam_pileup1_t)) (ignore_rg : Bool) : Option mplp_pileup_t :=
  group_smpl_files sm ignore_rg (group_smpl_clear m) cols

/-- The buckets `mpileup` starts from: `calloc`ed counts and capacities, no
entry array yet (`filler` is what an unwritten cell reads as). -/
def gplp_init (n : Nat) (filler : bam_pileup1_t) : mplp_pileup_t :=
  { n := n, n_plp := fun _ => 0, m_plp := fun _ => 0, plp := fun _ _ => filler }

/-- All entries of a column set in visiting order, each with its file name. -/
def entries (cols : List (String × List bam_pileup1_t)) : List (String × bam_pileup1_t) :=
  cols.flatMap (fun c => c.2.map (fun p => (c.1, p)))

/-- The resolved sample id as the specification words it: the ReadGroupMap
lookup of (file name, tag) when a tag is present and read-group resolution is
enabled, the file's default sample id otherwise. -/
def spec_resolved_id (sm : bam_sample_t) (ignore_rg : Bool) (fn : String)
    (p : bam_pileup1_t) : Int :=
  match p.b.rg with
  | some rg => if ignore_rg then sm.rg2smid fn none else sm.rg2smid fn (some rg)
  | none => sm.rg2smid fn none

/-- The resolved sample id with the fallback: the lookup of (file name, tag)
when a tag is present, read-group resolution is enabled and the lookup finds an
entry (a non-negative id); the file's default sample id otherwise. -/
def fallback_resolved_id (sm : bam_sample_t) (ignore_rg : Bool) (fn : String)
    (p : bam_pileup1_t) : Int :=
  match p.b.rg with
  | some rg =>
    if ignore_rg then sm.rg2smid fn none
    else if 0 ≤ sm.rg2smid fn (some rg) then sm.rg2smid fn (some rg)
    else sm.rg2smid fn none
  | none => sm.rg2smid fn none

/-! ## The depth cap of `mpileup` -/

/-- The value `mpileup` passes to `bam_mplp_set_maxcnt` for `sm->n = n`
samples: `max_depth = conf->max_depth; if (max_depth * sm->n < 8000) max_depth =
8000 / sm->n;` (C division truncates). -/
def mpileup_max_depth (conf : mplp_conf_t) (n : Int) : Int :=
  if conf.max_depth * n < 8000 then Int.tdiv 8000 n else conf.max_depth

/-- Modelled from the spec: the depth capping of the pileup engine (htslib
`bam_plp`, not in this file). Of the records of one file that are active at a
position, only the first `maxcnt` in arrival order are retained in the column;
the rest are dropped without an error. -/
def engine_column {α : Type} (maxcnt : Int) (active : List α) : List α :=
  active.take maxcnt.toNat

/-! ## The prologue of `mpileup`: files, headers, indices and the cache -/

/-- The storage layer behind the reader (htslib): what each call answers;
`none` is a null pointer. -/
structure Storage where
  sam_open : String → Option samFile
  sam_hdr_read : samFile → Option bam_hdr_t
  bam_index_load : String → Option hts_idx_t
  sam_itr_querys : hts_idx_t → bam_hdr_t → String → Option hts_itr_t

/-- The calls of `mpileup` that touch storage or release a resource, and the
`exit(1)` that ends a run. The string is the file concerned. -/
inductive Event where
  | sam_open (fn : String)
  | bgzf_set_cache_size (fn : String) (mb : Int)
  | sam_hdr_read (fn : String)
  | bam_index_load (fn : String)
  | hts_idx_destroy (fn : String)
  | bam_hdr_destroy (fn : String)
  | sam_close (fn : String)
  | exit
deriving DecidableEq, Repr

/-- Cache slot `i` when a cache is in use (`conf->filecache[i]`). -/
def mplp_conf_t.slot (conf : mplp_conf_t) (i : Nat) : Option mplp_filecache_t :=
  conf.filecache.map (fun c => c i)

/-- The assignment `conf->filecache[i].fp = fp`. -/
def mplp_conf_t.set_fp (conf : mplp_conf_t) (i : Nat) (fp : samFile) : mplp_conf_t :=
  { conf with filecache :=
      conf.filecache.map (fun c => Function.update c i { c i with fp := some fp }) }

/-- The assignment `conf->filecache[i].h = h`. -/
def mplp_conf_t.set_h (conf : mplp_conf_t) (i : Nat) (h : bam_hdr_t) : mplp_conf_t :=
  { conf with filecache :=
      conf.filecache.map (fun c => Function.update c i { c i with h := some h }) }

/-- The assignment `conf->filecache[i].idx = idx` (`idx` may be null). -/
def mplp_conf_t.set_idx (conf : mplp_conf_t) (i : Nat) (idx : Option hts_idx_t) : mplp_conf_t :=
  { conf with filecache :=
      conf.filecache.map (fun c => Function.update c i { c i with idx := idx }) }

/-- What the prologue has built so far: the configuration (whose cache the
prologue fills), `data[0 .. i)`, the header `h` of the first file, the headers
`h_tmp` of the files in order (what `bam_smpl_add` and `bcf_call_add_rg` are
given), the region of the first file and the trace of events. -/
structure Prologue where
  conf : mplp_conf_t
  data : List mplp_aux_t
  h : Option bam_hdr_t
  hdrs : List bam_hdr_t
  tid0 : Int
  beg0 : Int
  end0 : Int
  trace : List Event

/-- The run stops here: the state with `exit` appended to its trace. -/
def Prologue.exit {α : Type} (s : Prologue) : Except Prologue α :=
  .error { s with trace := s.trace ++ [Event.exit] }

/-- The handle of file `i`: taken from the cache when
`conf->filecache && conf->filecache[i].fp != 0`, else opened with `sam_open`
(`exit(1)` on failure) and stored in the cache only under
`conf->filecache && conf->bamcachesizemb`. -/
def mpileup_fp (st : Storage) (n i : Nat) (fn : String) (s : Prologue) :
    Except Prologue (samFile × Prologue) :=
  match (s.conf.slot i).bind (fun c => c.fp) with
  | some fp => .ok (fp, s)
  | none =>
    let s1 := { s with trace := s.trace ++ [Event.sam_open fn] }
    match st.sam_open fn with
    | none => Prologue.exit s1
    | some fp =>
      if s.conf.filecache.isSome && s.conf.bamcachesizemb != 0 then
        .ok (fp, { s1 with conf := s.conf.set_fp i fp
                           trace := s1.trace ++ [Event.bgzf_set_cache_size fn s.conf.bamcachesizemb] })
      else if n = 1 then
        .ok (fp, { s1 with trace := s1.trace ++ [Event.bgzf_set_cache_size fn s.conf.bamcachesizemb] })
      else .ok (fp, s1)

/-- The header of file `i`: taken from the cache when
`conf->filecache && conf->filecache[i].h != 0`, else read with `sam_hdr_read`
(`exit(1)` on failure) and stored under `conf->filecache`. -/
def mpileup_hdr (st : Storage) (i : Nat) (fn : String) (fp : samFile) (s : Prologue) :
    Except Prologue (bam_hdr_t × Prologue) :=
  match (s.conf.slot i).bind (fun c => c.h) with
  | some h => .ok (h, s)
  | none =>
    let s1 := { s with trace := s.trace ++ [Event.sam_hdr_read fn] }
    match st.sam_hdr_read fp with
    | none => Prologue.exit s1
    | some h => .ok (h, { s1 with conf := s.conf.set_h i h })

/-- The index of file `i` (only with a region): taken from the cache when
`conf->filecache && conf->filecache[i].idx != 0`, else loaded with
`bam_index_load` and stored under `conf->filecache`; `exit(1)` when null. -/
def mpileup_idx (st : Storage) (i : Nat) (fn : String) (s : Prologue) :
    Except Prologue (hts_idx_t × Prologue) :=
  match (s.conf.slot i).bind (fun c => c.idx) with
  | some idx => .ok (idx, s)
  | none =>
    let s1 := { s with trace := s.trace ++ [Event.bam_index_load fn]
                       conf := s.conf.set_idx i (st.bam_index_load fn) }
    match st.bam_index_load fn with
    | none => Prologue.exit s1
    | some idx => .ok (idx, s1)

/-- The region part of one round of the prologue loop (`if (conf->reg)`): the
iterator of file `i`, `exit(1)` when the index is missing or the region does not
resolve; for the first file the region is kept in `tid0`, `beg0`, `end0`;
without a cache the index is destroyed. -/
def mpileup_region (st : Storage) (i : Nat) (fn : String) (h : bam_hdr_t) (s : Prologue) :
    Except Prologue (Option hts_itr_t × Prologue) :=
  match s.conf.reg with
  | none => .ok (none, s)
  | some reg =>
    match mpileup_idx st i fn s with
    | .error e => .error e
    | .ok (idx, s1) =>
      match st.sam_itr_querys idx h reg with
      | none => Prologue.exit s1
      | some it =>
        let s2 := if i = 0 then { s1 with tid0 := it.tid, beg0 := it.beg, end0 := it.endp } else s1
        let s3 := if s2.conf.filecache.isSome then s2
                  else { s2 with trace := s2.trace ++ [Event.hts_idx_destroy fn] }
        .ok (some it, s3)

/-- One round of the loop `for (i = 0; i < n; ++i)` that opens the prologue of
`mpileup` (handle, header, `data[i]`, iterator, bookkeeping of `h`). The calls
`bam_smpl_add` and `bcf_call_add_rg` build the sample table from `h_tmp`, which
is kept in `hdrs` for them. -/
def mpileup_file (st : Storage) (n i : Nat) (fn : String) (s : Prologue) :
    Except Prologue Prologue :=
  match mpileup_fp st n i fn s with
  | .error e => .error e
  | .ok (fp, s1) =>
    match mpileup_hdr st i fn fp s1 with
    | .error e => .error e
    | .ok (h_tmp, s2) =>
      let h := if i = 0 then h_tmp else s2.h.getD h_tmp
      match mpileup_region st i fn h s2 with
      | .error e => .error e
      | .ok (it, s3) =>
        let aux : mplp_aux_t :=
          { fp := fp, iter := it, h := h, ref_id := 0, ref := none, conf := s3.conf }
        let s4 := { s3 with data := s3.data ++ [aux], hdrs := s3.hdrs ++ [h_tmp] }
        if i = 0 then .ok { s4 with h := some h_tmp }
        else if s4.conf.filecache.isSome then .ok s4
        else .ok { s4 with trace := s4.trace ++ [Event.bam_hdr_destroy fn] }

/-- The loop of the prologue over the files `fn[i ..]`. -/
def mpileup_files (st : Storage) (n : Nat) : Nat → List String → Prologue →
    Except Prologue Prologue
  | _, [], s => .ok s
  | i, f :: fs, s =>
    match mpileup_file st n i f s with
    | .error e => .error e
    | .ok s1 => mpileup_files st n (i + 1) fs s1

/-- The prologue of `mpileup(conf, n, fn)`: `exit(1)` when `n == 0`, else the
loop over the files starting from `tid0 = -1, beg0 = 0, end0 = 1u<<29`. The
result carries the configuration with the cache as the call leaves it. -/
def mpileup_prologue (st : Storage) (conf : mplp_conf_t) (fn : List String) :
    Except Prologue Prologue :=
  let s0 : Prologue :=
    { conf := conf, data := [], h := none, hdrs := [], tid0 := -1, beg0 := 0, end0 := 2 ^ 29,
      trace := [] }
  if fn.length = 0 then Prologue.exit s0
  else mpileup_files st fn.length 0 fn s0

/-- The configuration after a call of the prologue, whether it returned or
stopped the run. -/
def Prologue.final : Except Prologue Prologue → Prologue
  | .ok s => s
  | .error s => s

/-- The number of `sam_open` calls on file `fn` in a trace. -/
def count_open (fn : String) (tr : List Event) : Nat :=
  (tr.filter (fun e => e == Event.sam_open fn)).length

/-! ## Reading the verdict of the filter -/

/-- A record passes every stage of the filter: none of the rejecting stages
1, 2, 3, 4, 5 fires on the record as read, and none of 8, 9, 10 fires on the
record as stages 6 to 8 leave it. -/
def passes_all (ext : External) (ma : mplp_aux_t) (b : bam1_t) : Bool :=
  !skip_unmapped b && !skip_require ma.conf b && !skip_filter ma.conf b &&
    !skip_bed ma b && !skip_rg ma.conf b && !(mplp_transform ext ma b).1 &&
    !skip_min_mq ma.conf (mplp_transform ext ma b).2 &&
    !skip_orphan ma.conf (mplp_transform ext ma b).2

/-! ## Sample inputs -/

/-- Quality routines that leave the qualities as they are. -/
def ext0 : External :=
  { bam_prob_realn_core := fun b _ _ => b.qual
    bam_cap_mapQ := fun b _ _ => b.core.qual }

/-- A configuration with every filter and every transform switched off. -/
def conf0 : mplp_conf_t :=
  { min_mq := 0, flag := 0, min_baseQ := 13, capQ_thres := 0, max_depth := 250,
    max_indel_depth := 250, rflag_require := 0, rflag_filter := 0, bamcachesizemb := 0,
    reg := none, fai := false, bed := none, rghash := none, filecache := none }

/-- A mapped record on reference 0 with the given flag and mapping quality. -/
def rec0 (flag qual : Nat) : bam1_t :=
  { core := { tid := 0, pos := 100, flag := flag, qual := qual, l_qseq := 2 },
    qual := [40, 20], rg := none, endpos := 102 }

/-- A one-reference header. -/
def hdr0 : bam_hdr_t := { text := "", target_name := ["chr1"] }

/-- A filter reading the records `recs` sequentially from `a.bam`. -/
def aux0 (conf : mplp_conf_t) (recs : List (Nat × bam1_t)) : mplp_aux_t :=
  { fp := { fname := "a.bam", stream := { recs := recs, eof := 0 } }, iter := none,
    h := hdr0, ref_id := 0, ref := none, conf := conf }

/-- The configuration `bam_mpileup` starts from: `flag = MPLP_NO_ORPHAN |
MPLP_REALN | MPLP_SMART_OVERLAPS`, `rflag_filter = BAM_FUNMAP | BAM_FSECONDARY |
BAM_FQCFAIL | BAM_FDUP`, `min_baseQ = 13`, depths `250`. -/
def conf_default : mplp_conf_t :=
  { conf0 with flag := MPLP_NO_ORPHAN ||| MPLP_REALN ||| MPLP_SMART_OVERLAPS,
               rflag_filter := 4 ||| 256 ||| 512 ||| 1024 }

/-- The starting configuration with required flags `65` (paired and first of
pair), as `--rf 65` sets them. -/
def conf_require65 : mplp_conf_t := { conf_default with rflag_require := 65 }

/-- The configuration `conf0` with forbidden flags `1024` (duplicate). -/
def conf_filter1024 : mplp_conf_t := { conf0 with rflag_filter := 1024 }

/-- The configuration `conf0` with a mapping-quality floor of `20`. -/
def conf_min_mq20 : mplp_conf_t := { conf0 with min_mq := 20 }

/-- The configuration `conf0` with mapping-quality capping at `50`. -/
def conf_capQ50 : mplp_conf_t := { conf0 with capQ_thres := 50 }

/-- Quality routines whose adjusted mapping quality is always `q`. -/
def ext_cap (q : Int) : External := { ext0 with bam_cap_mapQ := fun _ _ _ => q }

/-- A filter over `recs` that holds the sequence of reference 0. -/
def aux_ref (conf : mplp_conf_t) (recs : List (Nat × bam1_t)) : mplp_aux_t :=
  { aux0 conf recs with ref := some "ACGT" }

/-- The buckets in use, sample by sample, of a grouper result. -/
def read_buckets (r : Option mplp_pileup_t) : Option (List (List bam_pileup1_t)) :=
  r.map (fun m => (List.range m.n).map m.bucket)

/-- A column entry for a record tagged with read group `rg` at offset `qpos`. -/
def entry0 (rg : Option String) (qpos : Int) : bam_pileup1_t :=
  { b := { rec0 0 30 with rg := rg }, qpos := qpos, indel := 0, is_del := false,
    is_head := false, is_tail := false, is_refskip := false }

/-- A one-sample table that knows read group `RG1` and a default sample for
every file, and nothing about any other read group. -/
def sm_default : bam_sample_t :=
  { n := 1, rg2smid := fun _ rg =>
      match rg with
      | none => 0
      | some t => if t = "RG1" then 0 else -1 }

/-- A two-sample table for a header with two read groups: `RG1` is sample 0,
`RG2` is sample 1, and no file has a default sample. -/
def sm_two : bam_sample_t :=
  { n := 2, rg2smid := fun _ rg =>
      match rg with
      | none => -1
      | some t => if t = "RG1" then 0 else if t = "RG2" then 1 else -1 }

/-- The configuration `conf0` with `max_depth = 5`. -/
def conf_depth5 : mplp_conf_t := { conf0 with max_depth := 5 }

/-- Storage in which every file opens, has a header and an index, and every
region resolves to an empty iterator on reference 0. -/
def st0 : Storage :=
  { sam_open := fun fn => some { fname := fn, stream := { recs := [], eof := 0 } }
    sam_hdr_read := fun _ => some hdr0
    bam_index_load := fun fn => some { fname := fn }
    sam_itr_querys := fun _ _ _ =>
      some { tid := 0, beg := 0, endp := 10, stream := { recs := [], eof := 0 } } }

/-- Region-list mode as `--MULTIPILEUP` sets it up without `--bamcachesize`: an
empty cache, a region, and `bamcachesizemb = 0`. -/
def conf_cached : mplp_conf_t :=
  { conf0 with reg := some "chr1:1-10", bamcachesizemb := 0,
               filecache := some (fun _ => { fp := none, h := none, idx := none }) }

/-- The first `mpileup` call of the region list on `a.bam`. -/
def run1 : Prologue := Prologue.final (mpileup_prologue st0 conf_cached ["a.bam"])

/-- The second `mpileup` call, for the next region of the list, on the cache
the first call left. -/
def run2 : Prologue :=
  Prologue.final (mpileup_prologue st0 { run1.conf with reg := some "chr1:20-30" } ["a.bam"])

/-! ## Option handling of `bam_mpileup` that reaches the filter -/

/-- The flag word `bam_mpileup` starts from:
`mplp.flag = MPLP_NO_ORPHAN | MPLP_REALN | MPLP_SMART_OVERLAPS`. -/
def mplp_flag_init : Nat := MPLP_NO_ORPHAN ||| MPLP_REALN ||| MPLP_SMART_OVERLAPS

/-- The C update `flag &= ~mask` on a non-negative flag word. -/
def clear_bits (flag mask : Nat) : Nat := flag ^^^ (flag &&& mask)

/-- The statement `if (use_orphan) mplp.flag &= ~MPLP_NO_ORPHAN`, where
`use_orphan` is what option `-A` sets. -/
def apply_use_orphan (flag : Nat) (use_orphan : Bool) : Nat :=
  if use_orphan then clear_bits flag MPLP_NO_ORPHAN else flag

/-! ## Repeated calls of the read filter -/

/-- The replacement stage 6 applies to one base quality. -/
def rescale13 (q : Nat) : Nat := if q > 31 then q - 31 else 0

/-- A record stage 1 lets through: `tid >= 0` and the unmapped flag clear. -/
def is_mapped (b : bam1_t) : Bool :=
  decide (0 ≤ b.core.tid) && (b.core.flag &&& BAM_FUNMAP == 0)

/-- The records that repeated calls of `mplp_func` yield, in the order of the
calls, until a call returns a negative status; `fuel` bounds the number of
calls. -/
def mplp_pull (ext : External) : Nat → mplp_aux_t → bam1_t → List bam1_t
  | 0, _, _ => []
  | k + 1, ma, b =>
    if (mplp_func ext ma b).1 < 0 then []
    else (mplp_func ext ma b).2.1 ::
      mplp_pull ext k (mplp_func ext ma b).2.2 (mplp_func ext ma b).2.1

/-- Modelled from the spec: the column of a position without depth cap and
overlap handling (the engine, htslib `bam_plp`, is not in this file) holds, in
arrival order, all records of the stream whose interval covers the position. -/
def covering (tid pos : Int) (recs : List bam1_t) : List bam1_t :=
  recs.filter (fun b => decide (b.core.tid = tid) && decide (b.core.pos ≤ pos) &&
    decide (pos < bam_endpos b))

/-- The configuration `conf0` with legacy quality encoding switched on. -/
def conf_illumina : mplp_conf_t := { conf0 with flag := MPLP_ILLUMINA13 }


/-! ## The whole of `mpileup` -/

/-- A column set as `bam_mplp_auto` delivers it: reference id, position and,
for each file in order, the `n_plp[i]` entries at `plp[i]`. -/
structure Column where
  tid : Int
  pos : Int
  plp : List (List bam_pileup1_t)
deriving DecidableEq, Repr

/-- The configuration with the cache pointer dropped: what the filter and the
engine can see of it. -/
def mplp_conf_t.no_cache (conf : mplp_conf_t) : mplp_conf_t := { conf with filecache := none }

/-- A filter state with the cache pointer of its configuration dropped. -/
def mplp_aux_t.no_cache (a : mplp_aux_t) : mplp_aux_t := { a with conf := a.conf.no_cache }

/-- The pileup engine of htslib (`bam_mplp_init`, `bam_mplp_init_overlaps`,
`bam_mplp_set_maxcnt`, `bam_mplp_auto` driven until it returns no more columns),
a parameter: from the filters `data`, the depth cap and the overlap switch it
gives the finite sequence of column sets and the code `k` of its last status
`-k` (`0` is normal exhaustion). The reference hand-over of `mpileup` to
`data[i]->ref`, which only feeds the filters, is part of it. -/
structure Engine where
  run : List mplp_aux_t → Int → Bool → List Column × Nat

/-- What `mpileup` hands to its output: the BCF/VCF header, the grouped buckets
of a position given to the calling backend and written with `bcf_write1`, or the
columns of a position given to the text formatter. -/
inductive Output where
  | bcf_header (n_samples : Nat)
  | bcf_record (tid pos : Int) (buckets : List (List bam_pileup1_t))
  | text_line (tid pos : Int) (cols : List (List bam_pileup1_t))
deriving DecidableEq, Repr

/-- Reference id and position of an output item; a header has none. -/
def Output.site : Output → Option (Int × Int)
  | .bcf_header _ => none
  | .bcf_record tid pos _ => some (tid, pos)
  | .text_line tid pos _ => some (tid, pos)

/-- The place of a column: reference id and position. -/
def Column.site (c : Column) : Int × Int := (c.tid, c.pos)

/-- The test `conf->reg && (pos < beg0 || pos >= end0)` that drops a column. -/
def out_of_region (conf : mplp_conf_t) (beg0 end0 : Int) (c : Column) : Bool :=
  conf.reg.isSome && (decide (c.pos < beg0) || decide (c.pos ≥ end0))

/-- The test `conf->bed && tid >= 0 && !bed_overlap(conf->bed,
h->target_name[tid], pos, pos+1)` that drops a column. -/
def out_of_bed (conf : mplp_conf_t) (h : bam_hdr_t) (c : Column) : Bool :=
  match conf.bed with
  | some overlap => decide (c.tid ≥ 0) && (overlap (h.name c.tid) c.pos (c.pos + 1) == 0)
  | none => false

/-- A column passes both tests and reaches the body of the position loop. -/
def column_kept (conf : mplp_conf_t) (h : bam_hdr_t) (beg0 end0 : Int) (c : Column) : Bool :=
  !out_of_region conf beg0 end0 c && !out_of_bed conf h c

/-- The body of the position loop for a column that is kept: with `MPLP_BCF`
the columns are grouped by sample (`group_smpl`, whose `exit(1)` is `none`) and
the buckets go to the caller; otherwise the columns go to the text formatter. -/
def mpileup_column (conf : mplp_conf_t) (sm : bam_sample_t) (fn : List String)
    (gplp : mplp_pileup_t) (c : Column) : Option (mplp_pileup_t × Output) :=
  if conf.flag &&& MPLP_BCF != 0 then
    match group_smpl gplp sm (fn.zip c.plp) (conf.flag &&& MPLP_IGNORE_RG != 0) with
    | none => none
    | some g => some (g, Output.bcf_record c.tid c.pos ((List.range g.n).map g.bucket))
  else some (gplp, Output.text_line c.tid c.pos c.plp)

/-- The loop `while (bam_mplp_auto(...) > 0)` over the columns the engine
delivers: the output items in order and whether the loop ended in `exit(1)`. -/
def mpileup_loop (conf : mplp_conf_t) (sm : bam_sample_t) (fn : List String) (h : bam_hdr_t)
    (beg0 end0 : Int) : mplp_pileup_t → List Column → List Output × Bool
  | _, [] => ([], false)
  | g, c :: cs =>
    if out_of_region conf beg0 end0 c then mpileup_loop conf sm fn h beg0 end0 g cs
    else if out_of_bed conf h c then mpileup_loop conf sm fn h beg0 end0 g cs
    else
      match mpileup_column conf sm fn g c with
      | none => ([], true)
      | some (g1, o) =>
        (o :: (mpileup_loop conf sm fn h beg0 end0 g1 cs).1,
          (mpileup_loop conf sm fn h beg0 end0 g1 cs).2)

/-- The entry a zeroed cell holds: the buckets start from `calloc`ed memory. -/
def zero_entry : bam_pileup1_t :=
  { b := { core := { tid := 0, pos := 0, flag := 0, qual := 0, l_qseq := 0 }, qual := [],
           rg := none, endpos := 0 },
    qpos := 0, indel := 0, is_del := false, is_head := false, is_tail := false,
    is_refskip := false }

/-- The outcome of one call of `mpileup`: the configuration with the cache as
the call leaves it, the trace of storage and release events, the output handed
on, and the returned status (`none` when the call ended the run with
`exit(1)`). -/
structure Run where
  conf : mplp_conf_t
  trace : List Event
  out : List Output
  ret : Option Int

/-- The arguments of the `bam_smpl_add` calls of the prologue: for each file its
name and the header text, or no text under `MPLP_IGNORE_RG`. -/
def smpl_args (conf : mplp_conf_t) (fn : List String) (hdrs : List bam_hdr_t) :
    List (String × Option String) :=
  (fn.zip hdrs).map
    (fun x => (x.1, if conf.flag &&& MPLP_IGNORE_RG != 0 then none else some x.2.text))

/-- The release calls that close `mpileup`: `if (!conf->filecache)
bam_hdr_destroy(h)` and, for each file, `if (!conf->filecache)
sam_close(data[i]->fp)`. -/
def mpileup_cleanup (conf : mplp_conf_t) (fn : List String) : List Event :=
  if conf.filecache.isSome then []
  else Event.bam_hdr_destroy (fn.headD "") :: fn.map Event.sam_close

/-- The sample table after the prologue: `sm` as the `bam_smpl_add` calls built
it, `smpl` being the table `sample.c` builds from their arguments. -/
def mpileup_sm (smpl : List (String × Option String) → bam_sample_t) (fn : List String)
    (s : Prologue) : bam_sample_t :=
  smpl (smpl_args s.conf fn s.hdrs)

/-- The run of the engine in `mpileup`: on the filters `data`, with the cap
`mpileup_max_depth` (`bam_mplp_set_maxcnt`) and with overlap handling when
`conf->flag & MPLP_SMART_OVERLAPS` (`bam_mplp_init_overlaps`). -/
def mpileup_engine (eng : Engine) (smpl : List (String × Option String) → bam_sample_t)
    (fn : List String) (s : Prologue) : List Column × Nat :=
  eng.run (s.data.map mplp_aux_t.no_cache) (mpileup_max_depth s.conf (mpileup_sm smpl fn s).n)
    (s.conf.flag &&& MPLP_SMART_OVERLAPS != 0)

/-- The header `h` of the first file after the prologue. -/
def first_hdr (s : Prologue) : bam_hdr_t :=
  s.h.getD { text := "", target_name := [] }

/-- The position loop of `mpileup` on the columns of the engine, starting from
zeroed buckets. -/
def mpileup_positions (eng : Engine) (smpl : List (String × Option String) → bam_sample_t)
    (fn : List String) (s : Prologue) : List Output × Bool :=
  mpileup_loop s.conf (mpileup_sm smpl fn s) fn (first_hdr s) s.beg0 s.end0
    (gplp_init (mpileup_sm smpl fn s).n zero_entry) (mpileup_engine eng smpl fn s).1

/-- The header output of `mpileup`: written under `MPLP_BCF` only. -/
def mpileup_header (smpl : List (String × Option String) → bam_sample_t) (fn : List String)
    (s : Prologue) : List Output :=
  if s.conf.flag &&& MPLP_BCF != 0 then [Output.bcf_header (mpileup_sm smpl fn s).n] else []

/-- The part of `mpileup` behind the prologue: open the output (`out_ok` tells
whether `bcf_open` or `fopen` succeeds), write the header under `MPLP_BCF`, run
the engine, loop over the columns, release, and return the last status of the
engine. -/
def mpileup_body (eng : Engine) (smpl : List (String × Option String) → bam_sample_t)
    (out_ok : Bool) (fn : List String) (s : Prologue) : Run :=
  if !out_ok then { conf := s.conf, trace := s.trace ++ [Event.exit], out := [], ret := none }
  else if (mpileup_positions eng smpl fn s).2 then
    { conf := s.conf, trace := s.trace ++ [Event.exit],
      out := mpileup_header smpl fn s ++ (mpileup_positions eng smpl fn s).1, ret := none }
  else
    { conf := s.conf, trace := s.trace ++ mpileup_cleanup s.conf fn,
      out := mpileup_header smpl fn s ++ (mpileup_positions eng smpl fn s).1,
      ret := some (-((mpileup_engine eng smpl fn s).2 : Int)) }

/-- The function `mpileup(conf, n, fn)`: the prologue, then the body; a
prologue that ends the run produces no output. -/
def mpileup (st : Storage) (eng : Engine) (smpl : List (String × Option String) → bam_sample_t)
    (out_ok : Bool) (conf : mplp_conf_t) (fn : List String) : Run :=
  match mpileup_prologue st conf fn with
  | .error e => { conf := e.conf, trace := e.trace, out := [], ret := none }
  | .ok s => mpileup_body eng smpl out_ok fn s

/-! ## The region driver of `bam_mpileup` -/

/-- The set-up of region-list mode: `mplp.bed = 0` and `mplp.filecache =
calloc(numbamfiles, ...)`, an array of empty slots. -/
def driver_conf (conf : mplp_conf_t) : mplp_conf_t :=
  { conf with bed := none, filecache := some (fun _ => { fp := none, h := none, idx := none }) }

/-- The assignment `mplp.reg = region_lines[ix]`. -/
def mplp_conf_t.set_reg (conf : mplp_conf_t) (r : String) : mplp_conf_t :=
  { conf with reg := some r }

/-- The loop `for (ix = 0; ix < nbedlines; ix++) { mplp.reg = region_lines[ix];
ret = mpileup(&mplp, n, fn); }` on the region lines `regs`: the calls made, in
order, each with its region; a call that ends the run is the last one. -/
def bam_mpileup_regions (st : Storage) (eng : Engine)
    (smpl : List (String × Option String) → bam_sample_t) (out_ok : Bool)
    (fn : List String) : mplp_conf_t → List String → List (String × Run)
  | _, [] => []
  | conf, r :: rs =>
    match (mpileup st eng smpl out_ok (conf.set_reg r) fn).ret with
    | none => [(r, mpileup st eng smpl out_ok (conf.set_reg r) fn)]
    | some _ =>
      (r, mpileup st eng smpl out_ok (conf.set_reg r) fn) ::
        bam_mpileup_regions st eng smpl out_ok fn
          (mpileup st eng smpl out_ok (conf.set_reg r) fn).conf rs

/-- The value `bam_mpileup` returns in region-list mode after the calls
`calls`: `ret` as the last call assigned it (`ret0` stands for the unset `ret`
when there was no call); `none` when a call ended the run. -/
def bam_mpileup_ret (ret0 : Int) : List (String × Run) → Option Int
  | [] => some ret0
  | [c] => c.2.ret
  | c :: d :: cs =>
    match c.2.ret with
    | none => none
    | some _ => bam_mpileup_ret ret0 (d :: cs)

/-- All output of a sequence of calls, in order. -/
def calls_out (calls : List (String × Run)) : List Output :=
  calls.flatMap (fun c => c.2.out)

/-! ## What the prologue acquires, read off the cache and the storage -/

/-- The cached handle of file `j` (`conf->filecache[j].fp`), if any. -/
def mplp_conf_t.cfp (conf : mplp_conf_t) (j : Nat) : Option samFile :=
  (conf.slot j).bind (fun c => c.fp)

/-- The cached header of file `j` (`conf->filecache[j].h`), if any. -/
def mplp_conf_t.ch (conf : mplp_conf_t) (j : Nat) : Option bam_hdr_t :=
  (conf.slot j).bind (fun c => c.h)

/-- The cached index of file `j` (`conf->filecache[j].idx`), if any. -/
def mplp_conf_t.cidx (conf : mplp_conf_t) (j : Nat) : Option hts_idx_t :=
  (conf.slot j).bind (fun c => c.idx)

/-- The handle file `i` gets: the cached one, else what `sam_open` gives. -/
def acq_fp (st : Storage) (conf : mplp_conf_t) (i : Nat) (f : String) : Option samFile :=
  match conf.cfp i with
  | some fp => some fp
  | none => st.sam_open f

/-- The header file `i` gets: the cached one, else what `sam_hdr_read` gives on
the handle. -/
def acq_hdr (st : Storage) (conf : mplp_conf_t) (i : Nat) (f : String) : Option bam_hdr_t :=
  match conf.ch i with
  | some h => some h
  | none => (acq_fp st conf i f).bind st.sam_hdr_read

/-- The index file `i` gets: the cached one, else what `bam_index_load`
gives. -/
def acq_idx (st : Storage) (conf : mplp_conf_t) (i : Nat) (f : String) : Option hts_idx_t :=
  match conf.cidx i with
  | some x => some x
  | none => st.bam_index_load f

/-- The header `data[i]->h` is set to: `i ? h : h_tmp`. -/
def data_hdr (hprev : Option bam_hdr_t) (i : Nat) (h_tmp : bam_hdr_t) : bam_hdr_t :=
  if i = 0 then h_tmp else hprev.getD h_tmp

/-- The iterator file `i` gets when a region is set: `sam_itr_querys` on the
index and on `data[i]->h`. -/
def acq_iter (st : Storage) (conf : mplp_conf_t) (hprev : Option bam_hdr_t) (i : Nat)
    (f : String) : Option hts_itr_t :=
  match conf.reg, acq_idx st conf i f, acq_hdr st conf i f with
  | some reg, some idx, some h_tmp => st.sam_itr_querys idx (data_hdr hprev i h_tmp) reg
  | _, _, _ => none

/-- File `i` can be acquired: a handle, a header and, when a region is set, an
index on which the region resolves. -/
def file_acquired (st : Storage) (conf : mplp_conf_t) (hprev : Option bam_hdr_t) (i : Nat)
    (f : String) : Bool :=
  (acq_fp st conf i f).isSome && (acq_hdr st conf i f).isSome &&
    (conf.reg.isNone || (acq_iter st conf hprev i f).isSome)

/-- A release of a resource: closing a handle or destroying a header or an
index. -/
def Event.is_release : Event → Bool
  | .sam_close _ => true
  | .bam_hdr_destroy _ => true
  | .hts_idx_destroy _ => true
  | _ => false

/-- The cache agrees with the storage for the files `fn`: a cached handle is
what `sam_open` gives for the file, a cached header what `sam_hdr_read` gives on
that handle, a cached index what `bam_index_load` gives. -/
def cache_consistent (st : Storage) (fn : List String) (conf : mplp_conf_t) : Prop :=
  ∀ (j : Nat) (f : String), fn[j]? = some f →
    (∀ x, conf.cfp j = some x → st.sam_open f = some x) ∧
    (∀ x, conf.ch j = some x → (st.sam_open f).bind st.sam_hdr_read = some x) ∧
    (∀ x, conf.cidx j = some x → st.bam_index_load f = some x)

/-- Two configurations differ at most in the cache and in the region. -/
def same_settings (c1 c2 : mplp_conf_t) : Prop :=
  { c1 with filecache := none, reg := none } = { c2 with filecache := none, reg := none }

/-- What one round of the prologue loop, for file `i` named `f`, keeps between
the state `s` it starts from and the state `s1` it ends in (returning or ending
the run): the settings and the presence of a cache; every cache field, except
that an empty field of slot `i` may now hold what the storage gives for `f`; and
the trace, which grows by events that release nothing when a cache is in
use. -/
structure StepKeeps (st : Storage) (i : Nat) (f : String) (s s1 : Prologue) : Prop where
  settings : s1.conf.no_cache = s.conf.no_cache
  cached : s1.conf.filecache.isSome = s.conf.filecache.isSome
  fp : ∀ j, s1.conf.cfp j = s.conf.cfp j ∨
    (j = i ∧ s.conf.cfp j = none ∧ s1.conf.cfp j = st.sam_open f)
  h : ∀ j, s1.conf.ch j = s.conf.ch j ∨
    (j = i ∧ s.conf.ch j = none ∧ s1.conf.ch j = (acq_fp st s.conf i f).bind st.sam_hdr_read)
  idx : ∀ j, s1.conf.cidx j = s.conf.cidx j ∨
    (j = i ∧ s.conf.cidx j = none ∧ s1.conf.cidx j = st.bam_index_load f)
  trace : ∃ evs, s1.trace = s.trace ++ evs ∧
    (s.conf.filecache.isSome = true → ∀ e ∈ evs, e.is_release = false)

/-- The parts of the prologue state that the acquisition of a handle, a header
or an index leaves alone. -/
structure SameBuild (s s1 : Prologue) : Prop where
  data : s1.data = s.data
  h : s1.h = s.h
  hdrs : s1.hdrs = s.hdrs
  tid0 : s1.tid0 = s.tid0
  beg0 : s1.beg0 = s.beg0
  end0 : s1.end0 = s.end0

/-- The region triple `(tid0, beg0, end0)` after a round for file `i` whose
iterator is `it`: `if (i == 0) tid0 = iter->tid, beg0 = iter->beg, end0 =
iter->end`, which runs only when a region is set. -/
def region_after (i : Nat) (it : Option hts_itr_t) (old : Int × Int × Int) : Int × Int × Int :=
  match it with
  | some x => if i = 0 then (x.tid, x.beg, x.endp) else old
  | none => old

/-- The file a slot belongs to while the prologue loop runs over the files `fs`
from index `i` on: slot `j` belongs to `fs[j - i]`, a slot outside the range to
no file. -/
def slot_file (i : Nat) (fs : List String) (j : Nat) : Option String :=
  if i ≤ j then fs[j - i]? else none

/-- What the prologue loop keeps between the state `s` it starts from and the
state `s1` it ends in, `name` telling which file each slot belongs to: the
settings and the presence of a cache; every cache field, except that an empty
field of a slot may now hold what the storage gives for the file of that slot;
and the trace, which grows by events that release nothing when a cache is in
use. -/
structure LoopKeeps (st : Storage) (name : Nat → Option String) (s s1 : Prologue) : Prop where
  settings : s1.conf.no_cache = s.conf.no_cache
  cached : s1.conf.filecache.isSome = s.conf.filecache.isSome
  fp : ∀ j, s1.conf.cfp j = s.conf.cfp j ∨
    (s.conf.cfp j = none ∧ ∃ f, name j = some f ∧ s1.conf.cfp j = st.sam_open f)
  h : ∀ j, s1.conf.ch j = s.conf.ch j ∨
    (s.conf.ch j = none ∧ ∃ f, name j = some f ∧
      s1.conf.ch j = (acq_fp st s.conf j f).bind st.sam_hdr_read)
  idx : ∀ j, s1.conf.cidx j = s.conf.cidx j ∨
    (s.conf.cidx j = none ∧ ∃ f, name j = some f ∧ s1.conf.cidx j = st.bam_index_load f)
  trace : ∃ evs, s1.trace = s.trace ++ evs ∧
    (s.conf.filecache.isSome = true → ∀ e ∈ evs, e.is_release = false)


/-- The cache of `c2` extends the cache of `c1`: every field that is non-null
in `c1` has the same content in `c2`. -/
def cache_extends (c1 c2 : mplp_conf_t) : Prop :=
  (∀ j x, c1.cfp j = some x → c2.cfp j = some x) ∧
  (∀ j x, c1.ch j = some x → c2.ch j = some x) ∧
  (∀ j x, c1.cidx j = some x → c2.cidx j = some x)


/-- The configuration `bam_mpileup` holds after the loop over the region lines
`regs`: the cache as the last call left it (the configuration it started from
when there was no call). -/
def regions_conf (st : Storage) (eng : Engine)
    (smpl : List (String × Option String) → bam_sample_t) (out_ok : Bool)
    (fn : List String) (conf : mplp_conf_t) (regs : List String) : mplp_conf_t :=
  match (bam_mpileup_regions st eng smpl out_ok fn conf regs).getLast? with
  | some c => c.2.conf
  | none => conf

/-- What a call produced for its region: the region, the output handed on and
the returned status. -/
def call_result (c : String × Run) : String × List Output × Option Int :=
  (c.1, c.2.out, c.2.ret)

/-- Two prologue states agree in everything the rest of `mpileup` reads: the
settings, the filters, the first header, the headers of the files and the
region of the first file. -/
structure SameView (s t : Prologue) : Prop where
  settings : s.conf.no_cache = t.conf.no_cache
  data : s.data.map mplp_aux_t.no_cache = t.data.map mplp_aux_t.no_cache
  h : s.h = t.h
  hdrs : s.hdrs = t.hdrs
  tid0 : s.tid0 = t.tid0
  beg0 : s.beg0 = t.beg0
  end0 : s.end0 = t.end0

/-- An iterator on reference 0 over `[beg, endp)` that holds no record. -/
def itr0 (beg endp : Int) : hts_itr_t :=
  { tid := 0, beg := beg, endp := endp, stream := { recs := [], eof := 0 } }

/-- Region resolution that depends on the region line: `chr1:1-10` resolves to
`[0, 10)`, any other line to `[19, 30)`. -/
def querys_regions (_ : hts_idx_t) (_ : bam_hdr_t) (reg : String) : Option hts_itr_t :=
  if reg = "chr1:1-10" then some (itr0 0 10) else some (itr0 19 30)

/-- Storage as `st0` whose iterators depend on the region line. -/
def st_regions : Storage := { st0 with sam_itr_querys := querys_regions }

/-- An engine that delivers no column and ends with the error status `-1` on
the region starting at `0`, with the status `0` on any other region. -/
def eng_err_first : Engine :=
  { run := fun data _ _ =>
      match data.head?.bind (fun a => a.iter) with
      | some it => if it.beg = 0 then ([], 1) else ([], 0)
      | none => ([], 0) }

/-- A sample table builder that gives the one-sample table for every input. -/
def smpl0 : List (String × Option String) → bam_sample_t := fun _ => sm_default

/-- A column set of one file with one entry at `(tid, pos)`. -/
def col0 (tid pos : Int) : Column :=
  { tid := tid, pos := pos, plp := [[entry0 (some "RG1") 0]] }

/-- An engine that delivers columns at positions 5, 8, 12 and 25 of reference 0
and ends normally. -/
def eng_cols : Engine :=
  { run := fun _ _ _ => ([col0 0 5, col0 0 8, col0 0 12, col0 0 25], 0) }

/-- Opening that fails for `b.bam` and succeeds for every other file. -/
def open_missing (fn : String) : Option samFile :=
  if fn = "b.bam" then none else some { fname := fn, stream := { recs := [], eof := 0 } }

/-- Storage in which `b.bam` cannot be opened and everything else is as in
`st_regions`. -/
def st_missing : Storage := { st_regions with sam_open := open_missing }

/-- Region resolution that fails for the line `chrX:1-5` and otherwise behaves
as `querys_regions`. -/
def querys_partial (idx : hts_idx_t) (h : bam_hdr_t) (reg : String) : Option hts_itr_t :=
  if reg = "chrX:1-5" then none else querys_regions idx h reg

/-- Storage as `st0` on which the region `chrX:1-5` does not resolve. -/
def st_badregion : Storage := { st0 with sam_itr_querys := querys_partial }

/-- Region-list mode as option `-l` sets it up: the starting configuration with
`bamcachesizemb = 50` and an empty cache. -/
def conf_l : mplp_conf_t := driver_conf { conf_default with bamcachesizemb := 50 }

/-- The cache after a first call for the region `chr1:1-10` on `a.bam`. -/
def conf_warm : mplp_conf_t :=
  (mpileup st_regions eng_cols smpl0 true (conf_l.set_reg "chr1:1-10") ["a.bam"]).conf



/-! ## The overlap switch -/

/-- Flag bit `MPLP_VCF`, `1<<1`. -/
def MPLP_VCF : Nat := 1 <<< 1
/-- Flag bit `MPLP_NO_COMP`, `1<<2`. -/
def MPLP_NO_COMP : Nat := 1 <<< 2
/-- Flag bit `MPLP_NO_INDEL`, `1<<5`. -/
def MPLP_NO_INDEL : Nat := 1 <<< 5
/-- Flag bit `MPLP_PRINT_POS`, `1<<9`. -/
def MPLP_PRINT_POS : Nat := 1 <<< 9
/-- Flag bit `MPLP_PRINT_MAPQ`, `1<<10`. -/
def MPLP_PRINT_MAPQ : Nat := 1 <<< 10
/-- Flag bit `MPLP_PER_SAMPLE`, `1<<11`. -/
def MPLP_PER_SAMPLE : Nat := 1 <<< 11

/-- The options of `bam_mpileup` whose `case` touches `mplp.flag` or
`use_orphan`, named by their option character (`six` is `-6`); every other
option is `other`. -/
inductive Opt where
  | x | p | g | v | u | B | I | E | six | R | s | O | A
  | other (c : Nat)
deriving DecidableEq, Repr

/-- The `switch (c)` of `bam_mpileup` as far as it writes `mplp.flag`. -/
def opt_flag (flag : Nat) : Opt → Nat
  | .x => clear_bits flag MPLP_SMART_OVERLAPS
  | .p => flag ||| MPLP_PER_SAMPLE
  | .g => flag ||| MPLP_BCF
  | .v => flag ||| (MPLP_BCF ||| MPLP_VCF)
  | .u => flag ||| (MPLP_NO_COMP ||| MPLP_BCF)
  | .B => clear_bits flag MPLP_REALN
  | .I => flag ||| MPLP_NO_INDEL
  | .E => flag ||| MPLP_REDO_BAQ
  | .six => flag ||| MPLP_ILLUMINA13
  | .R => flag ||| MPLP_IGNORE_RG
  | .s => flag ||| MPLP_PRINT_MAPQ
  | .O => flag ||| MPLP_PRINT_POS
  | .A => flag
  | .other _ => flag

/-- The flag word `bam_mpileup` hands to `mpileup` after the options `opts`, in
command-line order: the `getopt_long` loop from `mplp_flag_init`, then
`if (use_orphan) mplp.flag &= ~MPLP_NO_ORPHAN`. -/
def bam_mpileup_flag (opts : List Opt) : Nat :=
  apply_use_orphan (opts.foldl opt_flag mplp_flag_init) (opts.contains Opt.A)

/-- The base quality of a column entry at its query offset. -/
def entry_qual (p : bam_pileup1_t) : Nat := p.b.qual.getD p.qpos.toNat 0

/-- Modelled from the spec: overlap reconciliation of the pileup engine (htslib
`bam_mplp_init_overlaps`, not in this file). `mate` tells whether two records
are mates. The entries of a column that contribute to its depth: with the
switch off every entry; with it on, of two mates that cover the position only
the one of higher base quality, the other being excluded. -/
def spec_effective (mate : bam1_t → bam1_t → Bool) (overlaps : Bool)
    (col : List bam_pileup1_t) : List bam_pileup1_t :=
  if overlaps then
    col.filter (fun p => !col.any (fun q => mate p.b q.b && decide (entry_qual p < entry_qual q)))
  else col

/-- Record `R1` of the scenario: quality 30, on `chr1` over position 100. -/
def rec_R1 : bam1_t :=
  { core := { tid := 0, pos := 100, flag := 99, qual := 30, l_qseq := 1 },
    qual := [30], rg := none, endpos := 101 }

/-- Record `R2`, the mate of `R1`: quality 10, over the same position. -/
def rec_R2 : bam1_t :=
  { core := { tid := 0, pos := 100, flag := 147, qual := 30, l_qseq := 1 },
    qual := [10], rg := none, endpos := 101 }

/-- The entry of `R1` at position 100 (head flag). -/
def entry_R1 : bam_pileup1_t :=
  { b := rec_R1, qpos := 0, indel := 0, is_del := false, is_head := true, is_tail := false,
    is_refskip := false }

/-- The entry of `R2` at position 100 (tail flag). -/
def entry_R2 : bam_pileup1_t :=
  { b := rec_R2, qpos := 0, indel := 0, is_del := false, is_head := false, is_tail := true,
    is_refskip := false }

/-- The mate relation of the scenario: `R1` and `R2` are mates of each other. -/
def mate_R (a b : bam1_t) : Bool := (a == rec_R1 && b == rec_R2) || (a == rec_R2 && b == rec_R1)

/-- An engine that delivers no column and records nothing but the overlap
switch it was started with, in its status. -/
def eng_switch : Engine := { run := fun _ _ ov => ([], if ov then 1 else 0) }

/-! ## Successive calls of the sample grouper -/

/-- The calls of `group_smpl` that `mpileup` makes on the same buckets, one per
position, each on the column set of its position; `none` when a call ends the
run. -/
def group_smpl_calls (sm : bam_sample_t) (ignore_rg : Bool) :
    mplp_pileup_t → List (List (String × List bam_pileup1_t)) → Option mplp_pileup_t
  | m, [] => some m
  | m, cols :: rest =>
    match group_smpl m sm cols ignore_rg with
    | none => none
    | some m1 => group_smpl_calls sm ignore_rg m1 rest

/-- A legal capacity of a bucket: `0` (never allocated) or `8` doubled some
number of times. -/
def cap_legal (c : Nat) : Prop := c = 0 ∨ ∃ k : Nat, c = 8 * 2 ^ k

/-- The capacity invariant of the buckets: every fill count is within its
capacity and every capacity is legal. -/
def caps_ok (m : mplp_pileup_t) : Prop :=
  ∀ s, m.n_plp s ≤ m.m_plp s ∧ cap_legal (m.m_plp s)

/-- Three positions for the grouper: 9 entries of sample 0, then none, then 17
entries. -/
def calls_9_0_17 : List (List (String × List bam_pileup1_t)) :=
  [[("a.bam", List.replicate 9 (entry0 none 0))], [("a.bam", [])],
    [("a.bam", List.replicate 17 (entry0 none 0))]]

/-- The buckets after the first two of these positions. -/
def gplp_9_0 : mplp_pileup_t :=
  (group_smpl_calls sm_default false (gplp_init 1 zero_entry) (calls_9_0_17.take 2)).getD
    (gplp_init 1 zero_entry)

/-- The buckets after the third position. -/
def gplp_17 : mplp_pileup_t :=
  (group_smpl gplp_9_0 sm_default [("a.bam", List.replicate 17 (entry0 none 0))] false).getD
    gplp_9_0

/-! ## The output tags: `parse_format_flag` -/

/-- The flag values of `bam2bcf.h` (`B2B_FMT_DP`, `B2B_FMT_SP`, `B2B_FMT_DV`,
`B2B_FMT_DP4`, `B2B_FMT_DPR`, `B2B_INFO_DPR`), which this file only names. -/
structure B2B where
  FMT_DP : Nat
  FMT_SP : Nat
  FMT_DV : Nat
  FMT_DP4 : Nat
  FMT_DPR : Nat
  INFO_DPR : Nat

/-- The values the constants have in `bam2bcf.h`. -/
def b2b : B2B := { FMT_DP := 1, FMT_SP := 2, FMT_DV := 4, FMT_DP4 := 8, FMT_DPR := 16, INFO_DPR := 32 }

/-- The bytes of a C string, given as text. -/
def cstr (s : String) : List Nat := s.data.map Char.toNat

/-- The C library `tolower` in the C locale, on a character code. -/
def tolower (c : Nat) : Nat := if 65 ≤ c ∧ c ≤ 90 then c + 32 else c

/-- The C library `toupper` in the C locale, on a character code. -/
def toupper (c : Nat) : Nat := if 97 ≤ c ∧ c ≤ 122 then c - 32 else c

/-- The test `!strcasecmp(a, b)` of the C library: equal up to the case of
ASCII letters. -/
def strcasecmp_eq (a b : List Nat) : Bool := a.map tolower == b.map tolower

/-- The chain of comparisons in the loop of `parse_format_flag` for one tag: the
flag that is or-ed in, `none` for the final `else` that ends the run. -/
def tag_flag (k : B2B) (tag : List Nat) : Option Nat :=
  if strcasecmp_eq tag (cstr "DP") then some k.FMT_DP
  else if strcasecmp_eq tag (cstr "DV") then some k.FMT_DV
  else if strcasecmp_eq tag (cstr "SP") then some k.FMT_SP
  else if strcasecmp_eq tag (cstr "DP4") then some k.FMT_DP4
  else if strcasecmp_eq tag (cstr "DPR") then some k.FMT_DPR
  else if strcasecmp_eq tag (cstr "INFO/DPR") then some k.INFO_DPR
  else none

/-- The loop of `parse_format_flag` over the tags that are left, `flag` being
the value accumulated so far; `none` is `exit(1)`. -/
def parse_format_loop (k : B2B) : Nat → List (List Nat) → Option Nat
  | flag, [] => some flag
  | flag, t :: ts =>
    match tag_flag k t with
    | some f => parse_format_loop k (flag ||| f) ts
    | none => none

/-- The function `parse_format_flag(str)`, on the tags `hts_readlist` splits
`str` into. -/
def parse_format_flag (k : B2B) (tags : List (List Nat)) : Option Nat :=
  parse_format_loop k 0 tags

/-- The flag the specification gives to a tag name, matched without regard to
case: `DP`, `DV`, `SP`, `DP4`, `DPR` and `INFO/DPR`. -/
def spec_tag_flag (k : B2B) (tag : List Nat) : Option Nat :=
  [(cstr "dp", k.FMT_DP), (cstr "dv", k.FMT_DV), (cstr "sp", k.FMT_SP), (cstr "dp4", k.FMT_DP4),
    (cstr "dpr", k.FMT_DPR), (cstr "info/dpr", k.INFO_DPR)].lookup (tag.map tolower)

/-- The bitwise OR of the flags of a list of recognised tags. -/
def spec_tags_or (k : B2B) (tags : List (List Nat)) : Nat :=
  (tags.map (fun t => (spec_tag_flag k t).getD 0)).foldr (fun a b => a ||| b) 0


/-! ## Writing an integer: `printw` -/

/-- The value a C `int` (32 bits, two's complement) holds after an operation
whose mathematical result is `v`. -/
def wrap32 (v : Int) : Int := (v + 2 ^ 31) % 2 ^ 32 - 2 ^ 31

/-- The digit loop of `printw`, `for (l = 0, x = ...; x > 0; x /= 10) buf[l++] =
x%10 + '0'`: `buf` holds the bytes written so far, `room` is the number of
bytes of `buf[16]` still free; `none` is a write past the end of the buffer. -/
def printw_digits : Nat → Int → List Nat → Option (List Nat)
  | 0, x, buf => if x > 0 then none else some buf
  | room + 1, x, buf =>
    if x > 0 then printw_digits room (Int.tdiv x 10) (buf ++ [(Int.tmod x 10).toNat + 48])
    else some buf

/-- The loop `for (x = 0; x < l/2; ++x) { y = buf[x]; buf[x] = buf[l-1-x];
buf[l-1-x] = y; }` on the `l` bytes of `buf`. -/
def printw_swap (buf : List Nat) : List Nat :=
  (List.range (buf.length / 2)).foldl
    (fun b x => (b.set x (b.getD (buf.length - 1 - x) 0)).set (buf.length - 1 - x) (b.getD x 0))
    buf

/-- The function `printw(c, fp)` on a C `int` `c`: the bytes it writes to `fp`;
`none` is a write past the end of `buf[16]`. The negation `-c` is a 32-bit
operation. -/
def printw (c : Int) : Option (List Nat) :=
  if c = 0 then some [48]
  else
    match printw_digits 16 (if c < 0 then wrap32 (-c) else c) [] with
    | none => none
    | some digits =>
      let buf := if c < 0 then digits ++ [45] else digits
      if buf.length < 16 then some (printw_swap buf) else none

/-- The decimal representation as the specification words it: an optional
leading `-` followed by the digits of `|c|` without leading zeros, `0` for
zero. -/
def spec_decimal (c : Int) : List Nat :=
  if c = 0 then [48]
  else (if c < 0 then [45] else []) ++ (Nat.digits 10 c.natAbs).reverse.map (fun d => d + 48)

/-! ## The text formatter -/

/-- Flag bit `BAM_FREVERSE`. -/
def BAM_FREVERSE : Nat := 16

/-- The macro `bam_is_rev(b)`. -/
def bam_is_rev (b : bam1_t) : Bool := b.core.flag &&& BAM_FREVERSE != 0

/-- What the formatter reads of a record and of the tables of htslib beyond the
fields modelled in `bam1_t`: `base b i` is `seq_nt16_str[bam_seqi(bam_get_seq(b),
i)]`, `nt16 c` is `seq_nt16_table[c]`, and `past_qual b i` is the byte found at
`bam_get_qual(b)[i]` when `i` is outside the quality array (the auxiliary data
of the record follow the qualities). -/
structure Seq where
  base : bam1_t → Int → Nat
  nt16 : Nat → Nat
  past_qual : bam1_t → Int → Nat

/-- The read `bam_get_qual(b)[i]`, without a bound check. -/
def bam_get_qual_at (sq : Seq) (b : bam1_t) (i : Int) : Nat :=
  if 0 ≤ i ∧ i < b.qual.length then b.qual.getD i.toNat 0 else sq.past_qual b i

/-- The character after `^` at a read start:
`p->b->core.qual > 93 ? 126 : p->b->core.qual + 33`. -/
def head_qual_char (q : Nat) : Nat := if q > 93 then 126 else q + 33

/-- The character of the base-quality column: `c + 33 < 126 ? c + 33 : 126`. -/
def base_qual_char (c : Nat) : Nat := if c + 33 < 126 then c + 33 else 126

/-- The character of the mapping-quality column:
`c = qual + 33; if (c > 126) c = 126;`. -/
def mapq_char (q : Nat) : Nat := if q + 33 > 126 then 126 else q + 33

/-- The strand-dependent case of a base: `bam_is_rev(b) ? tolower(c) :
toupper(c)`. -/
def strand_case (b : bam1_t) (c : Nat) : Nat := if bam_is_rev b then tolower c else toupper c

/-- The byte `ref[i]` for `i < ref_len`, else `N`. -/
def ref_at (ref : List Nat) (i : Int) : Nat :=
  if i < ref.length then ref.getD i.toNat 78 else 78

/-- The base character of `pileup_seq` for an entry that is not a deletion. -/
def pileup_base (sq : Seq) (p : bam_pileup1_t) (pos : Int) (ref : Option (List Nat)) : Nat :=
  let c : Nat := if p.qpos < p.b.core.l_qseq then sq.base p.b p.qpos else 78
  match ref with
  | some r =>
    if c = 61 ∨ sq.nt16 c = sq.nt16 (ref_at r pos) then (if bam_is_rev p.b then 44 else 46)
    else strand_case p.b c
  | none =>
    if c = 61 then (if bam_is_rev p.b then 44 else 46) else strand_case p.b c

/-- The indel part of `pileup_seq`: for `indel > 0` a `+`, the length and the
inserted bases; for `indel < 0` the length (with its sign) and the deleted
reference bases. -/
def pileup_indel (sq : Seq) (p : bam_pileup1_t) (pos : Int) (ref : Option (List Nat)) :
    Option (List Nat) :=
  if p.indel > 0 then
    (printw p.indel).map (fun w => 43 :: w ++
      (List.range p.indel.toNat).map (fun j : Nat => strand_case p.b (sq.base p.b (p.qpos + (j + 1)))))
  else if p.indel < 0 then
    (printw p.indel).map (fun w => w ++
      (List.range (-p.indel).toNat).map (fun j : Nat =>
        strand_case p.b (match ref with
          | some r => ref_at r (pos + (j + 1))
          | none => 78)))
  else some []

/-- The function `pileup_seq(fp, p, pos, ref_len, ref)`: the bytes written for
one entry; `ref_len` is the length of `ref`. -/
def pileup_seq (sq : Seq) (p : bam_pileup1_t) (pos : Int) (ref : Option (List Nat)) :
    Option (List Nat) :=
  let head : List Nat := if p.is_head then [94, head_qual_char p.b.core.qual] else []
  let base : Nat :=
    if !p.is_del then pileup_base sq p pos ref
    else if p.is_refskip then (if bam_is_rev p.b then 60 else 62) else 42
  let tail : List Nat := if p.is_tail then [36] else []
  (pileup_indel sq p pos ref).map (fun ind => head ++ [base] ++ ind ++ tail)

/-- The quality the formatter takes for an entry:
`p->qpos < p->b->core.l_qseq ? bam_get_qual(p->b)[p->qpos] : 0`. -/
def text_baseQ (sq : Seq) (p : bam_pileup1_t) : Nat :=
  if p.qpos < p.b.core.l_qseq then bam_get_qual_at sq p.b p.qpos else 0

/-- The first loop over a column: `qualc[j] = ...; if (qualc[j] >=
conf->min_baseQ) ++cnt;` for the entries from index `j` on. `qualc` is the
array `int qualc[20000]` as an index map; `none` is a write past its end. -/
def qualc_fill (conf : mplp_conf_t) (sq : Seq) :
    Nat → (Nat → Int) → Int → List bam_pileup1_t → Option ((Nat → Int) × Int)
  | _, qualc, cnt, [] => some (qualc, cnt)
  | j, qualc, cnt, p :: ps =>
    if j < 20000 then
      qualc_fill conf sq (j + 1) (Function.update qualc j (text_baseQ sq p))
        (if (text_baseQ sq p : Int) ≥ conf.min_baseQ then cnt + 1 else cnt) ps
    else none

/-- The loop of the base column: `if (qualc[j] >= conf->min_baseQ)
pileup_seq(...)` for the entries from index `j` on; one item per call. -/
def text_seqs (conf : mplp_conf_t) (sq : Seq) (pos : Int) (ref : Option (List Nat))
    (qualc : Nat → Int) : Nat → List bam_pileup1_t → Option (List (List Nat))
  | _, [] => some []
  | j, p :: ps =>
    if qualc j ≥ conf.min_baseQ then
      match pileup_seq sq p pos ref with
      | none => none
      | some t => (text_seqs conf sq pos ref qualc (j + 1) ps).map (fun ts => t :: ts)
    else text_seqs conf sq pos ref qualc (j + 1) ps

/-- The loop of the base-quality column. -/
def text_quals (conf : mplp_conf_t) (sq : Seq) (col : List bam_pileup1_t) : List Nat :=
  col.filterMap (fun p =>
    if (text_baseQ sq p : Int) ≥ conf.min_baseQ then some (base_qual_char (text_baseQ sq p))
    else none)

/-- The loop of the mapping-quality column: `c = bam_get_qual(p->b)[p->qpos];
if (c < conf->min_baseQ) continue;` and then the character of `core.qual`. -/
def text_mapq (conf : mplp_conf_t) (sq : Seq) (col : List bam_pileup1_t) : List Nat :=
  col.filterMap (fun p =>
    if (bam_get_qual_at sq p.b p.qpos : Int) < conf.min_baseQ then none
    else some (mapq_char p.b.core.qual))

/-- What the formatter writes for one file at one position: the depth `cnt`
printed with `\t%d\t`, the `pileup_seq` calls made, and the text of the base
column, of the base-quality column and, under `MPLP_PRINT_MAPQ`, of the
mapping-quality column. The column of base positions (`MPLP_PRINT_POS`), one
number per entry, is left out. -/
structure TextCol where
  cnt : Int
  seqs : List (List Nat)
  bases : List Nat
  quals : List Nat
  mapq : Option (List Nat)
deriving DecidableEq, Repr

/-- The body of the loop `for (i = 0; i < n; ++i)` of the formatter for the
column `col` of one file: the text and the array `qualc` as the round leaves
it. An empty column is written as `*` in every column. -/
def text_col (conf : mplp_conf_t) (sq : Seq) (pos : Int) (ref : Option (List Nat))
    (qualc : Nat → Int) (col : List bam_pileup1_t) : Option (TextCol × (Nat → Int)) :=
  match qualc_fill conf sq 0 qualc 0 col with
  | none => none
  | some (qc, cnt) =>
    if col.length = 0 then
      some ({ cnt := cnt, seqs := [], bases := [42], quals := [42],
              mapq := if conf.flag &&& MPLP_PRINT_MAPQ != 0 then some [42] else none }, qc)
    else
      match text_seqs conf sq pos ref qc 0 col with
      | none => none
      | some seqs =>
        some ({ cnt := cnt, seqs := seqs, bases := seqs.flatten, quals := text_quals conf sq col,
                mapq := if conf.flag &&& MPLP_PRINT_MAPQ != 0 then some (text_mapq conf sq col)
                        else none }, qc)

/-- The loop over the files of one position, `qualc` being shared by the
rounds. -/
def text_cols (conf : mplp_conf_t) (sq : Seq) (pos : Int) (ref : Option (List Nat)) :
    (Nat → Int) → List (List bam_pileup1_t) → Option (List TextCol)
  | _, [] => some []
  | qualc, col :: cols =>
    match text_col conf sq pos ref qualc col with
    | none => none
    | some (t, qc) => (text_cols conf sq pos ref qc cols).map (fun ts => t :: ts)

/-- The number of entries of a column that the formatter is to show: those
whose base quality, taken as `0` when the query offset is past the read
length, is at least `min_baseQ`. -/
def shown (conf : mplp_conf_t) (sq : Seq) (col : List bam_pileup1_t) : Nat :=
  (col.filter (fun p => decide ((text_baseQ sq p : Int) ≥ conf.min_baseQ))).length

/-- Sequence access for the examples: every base is `A`, the table is the
identity, and the byte after the quality array is `R` (82), the first byte of
an `RG` tag. -/
def seq0 : Seq := { base := fun _ _ => 65, nt16 := fun c => c, past_qual := fun _ _ => 82 }

/-- The configuration `bam_mpileup` starts from, with `-s`. -/
def conf_s : mplp_conf_t := { conf_default with flag := conf_default.flag ||| MPLP_PRINT_MAPQ }

/-- A mapped record stored without sequence and qualities (`SEQ` and `QUAL` are
`*`, `l_qseq = 0`), with mapping quality 30 and an `RG` tag. -/
def rec_noseq : bam1_t :=
  { core := { tid := 0, pos := 100, flag := 0, qual := 30, l_qseq := 0 },
    qual := [], rg := some "RG1", endpos := 110 }

/-- The entry of `rec_noseq` at its first position. -/
def entry_noseq : bam_pileup1_t :=
  { b := rec_noseq, qpos := 0, indel := 0, is_del := false, is_head := true, is_tail := false,
    is_refskip := false }

/-- An entry of a record with base quality `q` and mapping quality `mq` at the
offset, followed by a deletion of `k` bases when `k > 0`. -/
def entry_q (q mq : Nat) (k : Int) : bam_pileup1_t :=
  { b := { core := { tid := 0, pos := 100, flag := 0, qual := mq, l_qseq := 1 },
           qual := [q], rg := none, endpos := 101 },
    qpos := 0, indel := -k, is_del := false, is_head := false, is_tail := false,
    is_refskip := false }

/-- An array `qualc` before its first use. -/
def qualc0 : Nat → Int := fun _ => 0

/-! ## Theorems: the read filter -/

theorem mplp_body_skip (ext : External) (ma : mplp_aux_t) (b : bam1_t) :
    (mplp_body ext ma b).1 = !passes_all ext ma b := by
  unfold mplp_body passes_all skip_early stage_final
  dsimp only
  generalize skip_unmapped b = a1
  generalize skip_require ma.conf b = a2
  generalize skip_filter ma.conf b = a3
  generalize skip_bed ma b = a4
  generalize skip_rg ma.conf b = a5
  generalize mplp_transform ext ma b = t
  generalize skip_min_mq ma.conf t.2 = a9
  generalize skip_orphan ma.conf t.2 = a10
  generalize t.1 = a8
  cases a1 <;> cases a2 <;> cases a3 <;> cases a4 <;> cases a5 <;> cases a8 <;>
    cases a9 <;> cases a10 <;> rfl

theorem mplp_loop_spec (ext : External) (ma : mplp_aux_t) (e : Int) :
    ∀ (recs : List (Nat × bam1_t)) (b : bam1_t),
      (∃ pre r post, recs = pre ++ r :: post ∧
        (∀ x ∈ pre, (mplp_body ext ma x.2).1 = true) ∧
        (mplp_body ext ma r.2).1 = false ∧
        mplp_loop ext ma e b recs = ((r.1 : Int), (mplp_body ext ma r.2).2, post)) ∨
      ((∀ x ∈ recs, (mplp_body ext ma x.2).1 = true) ∧
        (mplp_loop ext ma e b recs).1 = e ∧ (mplp_loop ext ma e b recs).2.2 = []) := by
  intro recs
  induction recs with
  | nil => intro b; right; simp [mplp_loop]
  | cons x rest ih =>
    intro b
    obtain ⟨ret, r⟩ := x
    by_cases hs : (mplp_body ext ma r).1 = true
    · rcases ih (mplp_body ext ma r).2 with ⟨pre, r1, post, hrec, hpre, hr1, hloop⟩ | ⟨hall, h1, h2⟩
      · left
        refine ⟨(ret, r) :: pre, r1, post, by simp [hrec], ?_, hr1, ?_⟩
        · intro y hy
          rcases List.mem_cons.mp hy with rfl | hy
          · exact hs
          · exact hpre y hy
        · simp only [mplp_loop, hs, if_true]; exact hloop
      · right
        refine ⟨?_, ?_, ?_⟩
        · intro y hy
          rcases List.mem_cons.mp hy with rfl | hy
          · exact hs
          · exact hall y hy
        · simp only [mplp_loop, hs, if_true]; exact h1
        · simp only [mplp_loop, hs, if_true]; exact h2
    · left
      have hs' : (mplp_body ext ma r).1 = false := by simpa using hs
      exact ⟨[], (ret, r), rest, by simp, by simp, hs', by simp [mplp_loop, hs']⟩

/-- C1: one call of `mplp_func` consumes the records of its source in order and
either returns, with a non-negative status, the first record that passes every
stage (all records before it fail a stage, the reader is left just behind it),
or, when no record passes, returns the negative end status of the source with
the whole stream consumed. The function is total, so the call always ends. -/
theorem mplp_func_first_pass (ext : External) (ma : mplp_aux_t) (b : bam1_t) :
    (∃ pre r post, ma.source.recs = pre ++ r :: post ∧
        (∀ x ∈ pre, passes_all ext ma x.2 = false) ∧
        passes_all ext ma r.2 = true ∧
        mplp_func ext ma b = ((r.1 : Int), (mplp_body ext ma r.2).2, ma.advance post) ∧
        0 ≤ (mplp_func ext ma b).1) ∨
    ((∀ x ∈ ma.source.recs, passes_all ext ma x.2 = false) ∧
        (mplp_func ext ma b).1 = ma.source.endStatus ∧
        (mplp_func ext ma b).1 < 0 ∧
        (mplp_func ext ma b).2.2 = ma.advance []) := by
  rcases mplp_loop_spec ext ma ma.source.endStatus ma.source.recs b with
    ⟨pre, r, post, hrec, hpre, hr, hloop⟩ | ⟨hall, h1, h2⟩
  · left
    refine ⟨pre, r, post, hrec, ?_, ?_, ?_, ?_⟩
    · intro x hx
      have := hpre x hx
      rw [mplp_body_skip] at this
      simpa using this
    · rw [mplp_body_skip] at hr
      simpa using hr
    · simp [mplp_func, hloop]
    · simp [mplp_func, hloop]
  · right
    refine ⟨?_, ?_, ?_, ?_⟩
    · intro x hx
      have := hall x hx
      rw [mplp_body_skip] at this
      simpa using this
    · simp [mplp_func, h1]
    · have hst : (mplp_func ext ma b).1 = ma.source.endStatus := by simp [mplp_func, h1]
      rw [hst]
      exact Int.negSucc_lt_zero _
    · simp [mplp_func, h2]

theorem stage_illumina13_core (conf : mplp_conf_t) (b : bam1_t) :
    (stage_illumina13 conf b).core = b.core := by
  unfold stage_illumina13 illumina13
  split <;> rfl

theorem stage_realn_core (ext : External) (ma : mplp_aux_t) (b : bam1_t) :
    (stage_realn ext ma b).core = b.core := by
  unfold stage_realn
  split
  · split <;> rfl
  · rfl

theorem stage_capQ_core (ext : External) (conf : mplp_conf_t) (r : Option String) (b : bam1_t) :
    (stage_capQ ext conf r b).2.core.tid = b.core.tid ∧
    (stage_capQ ext conf r b).2.core.flag = b.core.flag ∧
    (stage_capQ ext conf r b).2.core.qual ≤ b.core.qual := by
  unfold stage_capQ
  cases r with
  | none => simp
  | some ref =>
    dsimp only
    by_cases hc : conf.capQ_thres > 10
    · simp only [hc, if_true]
      by_cases hq : ext.bam_cap_mapQ b ref conf.capQ_thres < 0
      · simp [hq]
      · simp only [hq, if_false]
        by_cases hg : (b.core.qual : Int) > ext.bam_cap_mapQ b ref conf.capQ_thres
        · rw [if_pos hg]
          refine ⟨rfl, rfl, ?_⟩
          show (ext.bam_cap_mapQ b ref conf.capQ_thres).toNat ≤ b.core.qual
          omega
        · simp [hg]
    · simp [hc]

theorem mplp_transform_core (ext : External) (ma : mplp_aux_t) (b : bam1_t) :
    (mplp_transform ext ma b).2.core.tid = b.core.tid ∧
    (mplp_transform ext ma b).2.core.flag = b.core.flag ∧
    (mplp_transform ext ma b).2.core.qual ≤ b.core.qual := by
  have h := stage_capQ_core ext ma.conf (has_ref ma (stage_illumina13 ma.conf b))
    (stage_realn ext ma (stage_illumina13 ma.conf b))
  rw [stage_realn_core, stage_illumina13_core] at h
  exact h

theorem mplp_body_core (ext : External) (ma : mplp_aux_t) (b : bam1_t) :
    (mplp_body ext ma b).2.core.tid = b.core.tid ∧
    (mplp_body ext ma b).2.core.flag = b.core.flag ∧
    (mplp_body ext ma b).2.core.qual ≤ b.core.qual := by
  unfold mplp_body
  split
  · simp
  · exact mplp_transform_core ext ma b

theorem mplp_func_returned (ext : External) (ma : mplp_aux_t) (b0 : bam1_t)
    (h : 0 ≤ (mplp_func ext ma b0).1) :
    ∃ r ∈ ma.source.recs, (mplp_body ext ma r.2).1 = false ∧
      (mplp_func ext ma b0).2.1 = (mplp_body ext ma r.2).2 := by
  rcases mplp_loop_spec ext ma ma.source.endStatus ma.source.recs b0 with
    ⟨pre, r, post, hrec, _, hr, hloop⟩ | ⟨_, h1, _⟩
  · exact ⟨r, by simp [hrec], hr, by simp [mplp_func, hloop]⟩
  · exfalso
    have hst : (mplp_func ext ma b0).1 = ma.source.endStatus := by simp [mplp_func, h1]
    rw [hst] at h
    have := Int.negSucc_lt_zero ma.source.eof
    simp only [RecStream.endStatus] at h
    omega

theorem mplp_body_accept (ext : External) (ma : mplp_aux_t) (b : bam1_t)
    (h : (mplp_body ext ma b).1 = false) :
    skip_unmapped b = false ∧ skip_require ma.conf b = false ∧ skip_filter ma.conf b = false ∧
    skip_bed ma b = false ∧ skip_rg ma.conf b = false ∧ (mplp_transform ext ma b).1 = false ∧
    skip_min_mq ma.conf (mplp_transform ext ma b).2 = false ∧
    skip_orphan ma.conf (mplp_transform ext ma b).2 = false := by
  rw [mplp_body_skip] at h
  unfold passes_all at h
  simpa [and_assoc] using h

theorem mplp_body_early (ext : External) (ma : mplp_aux_t) (b : bam1_t)
    (h : skip_early ma b = false) :
    mplp_body ext ma b =
      (stage_final ma.conf (mplp_transform ext ma b).1 (mplp_transform ext ma b).2,
        (mplp_transform ext ma b).2) := by
  simp [mplp_body, h]

/-- C8: a record with any bit of the forbidden-flags mask set is rejected by
the filter body, and every record `mplp_func` returns has
`(flag & rflag_filter) == 0`. -/
theorem mplp_func_forbidden_flags (ext : External) (ma : mplp_aux_t) (b0 b : bam1_t) :
    (b.core.flag &&& ma.conf.rflag_filter ≠ 0 → (mplp_body ext ma b).1 = true) ∧
    (0 ≤ (mplp_func ext ma b0).1 →
      (mplp_func ext ma b0).2.1.core.flag &&& ma.conf.rflag_filter = 0) := by
  have key : ∀ x : bam1_t, skip_filter ma.conf x = false →
      x.core.flag &&& ma.conf.rflag_filter = 0 := by
    intro x hx
    unfold skip_filter at hx
    by_cases hm : ma.conf.rflag_filter = 0
    · rw [hm]; exact Nat.and_zero _
    · rw [Nat.land_comm]
      simpa [hm] using hx
  constructor
  · intro hb
    by_contra hcon
    have hacc : (mplp_body ext ma b).1 = false := by simpa using hcon
    exact hb (key b (mplp_body_accept ext ma b hacc).2.2.1)
  · intro hret
    obtain ⟨r, _, hacc, heq⟩ := mplp_func_returned ext ma b0 hret
    rw [heq, (mplp_body_core ext ma r.2).2.1]
    exact key r.2 (mplp_body_accept ext ma r.2 hacc).2.2.1

/-- C9: for every configuration, a record with a negative reference id or with
the unmapped flag set is rejected by the filter body, and every record
`mplp_func` returns has a non-negative reference id and the unmapped flag
clear. -/
theorem mplp_func_mapped (ext : External) (ma : mplp_aux_t) (b0 b : bam1_t) :
    (b.core.tid < 0 ∨ b.core.flag &&& BAM_FUNMAP ≠ 0 → (mplp_body ext ma b).1 = true) ∧
    (0 ≤ (mplp_func ext ma b0).1 →
      0 ≤ (mplp_func ext ma b0).2.1.core.tid ∧
      (mplp_func ext ma b0).2.1.core.flag &&& BAM_FUNMAP = 0) := by
  have key : ∀ x : bam1_t, skip_unmapped x = false →
      0 ≤ x.core.tid ∧ x.core.flag &&& BAM_FUNMAP = 0 := by
    intro x hx
    unfold skip_unmapped at hx
    simp only [Bool.or_eq_false_iff, decide_eq_false_iff_not, not_lt, bne_eq_false_iff_eq] at hx
    exact hx
  constructor
  · intro hb
    by_contra hcon
    have hacc : (mplp_body ext ma b).1 = false := by simpa using hcon
    have := key b (mplp_body_accept ext ma b hacc).1
    rcases hb with hb | hb
    · omega
    · exact hb this.2
  · intro hret
    obtain ⟨r, _, hacc, heq⟩ := mplp_func_returned ext ma b0 hret
    rw [heq, (mplp_body_core ext ma r.2).2.1, (mplp_body_core ext ma r.2).1]
    exact key r.2 (mplp_body_accept ext ma r.2 hacc).1

/-- C10: a record that passed stages 1 to 5 is rejected when its mapping
quality after stage 8 is strictly below `min_mq`; a record whose mapping quality
is at least `min_mq` (so also one that equals it) is not rejected by this stage,
and is accepted when stages 8 and 10 do not reject it; every record `mplp_func`
returns has mapping quality at least `min_mq`. -/
theorem mplp_func_min_mq (ext : External) (ma : mplp_aux_t) (b0 b : bam1_t) :
    (skip_early ma b = false →
      ((mplp_transform ext ma b).2.core.qual : Int) < ma.conf.min_mq →
      (mplp_body ext ma b).1 = true) ∧
    (ma.conf.min_mq ≤ ((mplp_transform ext ma b).2.core.qual : Int) →
      skip_min_mq ma.conf (mplp_transform ext ma b).2 = false ∧
      (skip_early ma b = false → (mplp_transform ext ma b).1 = false →
        skip_orphan ma.conf (mplp_transform ext ma b).2 = false →
        (mplp_body ext ma b).1 = false)) ∧
    (0 ≤ (mplp_func ext ma b0).1 →
      ma.conf.min_mq ≤ ((mplp_func ext ma b0).2.1.core.qual : Int)) := by
  refine ⟨?_, ?_, ?_⟩
  · intro he hq
    rw [mplp_body_early ext ma b he]
    simp [stage_final, skip_min_mq, hq]
  · intro hq
    have hm : skip_min_mq ma.conf (mplp_transform ext ma b).2 = false := by
      simp [skip_min_mq, hq]
    refine ⟨hm, ?_⟩
    intro he ht ho
    rw [mplp_body_early ext ma b he]
    simp [stage_final, hm, ho, ht]
  · intro hret
    obtain ⟨r, _, hacc, heq⟩ := mplp_func_returned ext ma b0 hret
    have hm := (mplp_body_accept ext ma r.2 hacc).2.2.2.2.2.2.1
    have hb : (mplp_body ext ma r.2).2 = (mplp_transform ext ma r.2).2 := by
      have he : skip_early ma r.2 = false := by
        have h := mplp_body_accept ext ma r.2 hacc
        simp [skip_early, h.1, h.2.1, h.2.2.1, h.2.2.2.1, h.2.2.2.2.1]
      rw [mplp_body_early ext ma r.2 he]
    rw [heq, hb]
    simpa [skip_min_mq] using hm

/-- C7: for a record that reaches stage 8 (it passed stages 1 to 5) with
`capQ_thres > 10` and a reference for its reference id, let `q` be the value
`bam_cap_mapQ` returns on the record as stages 6 and 7 leave it. If `q < 0` the
record is rejected; otherwise its mapping quality becomes the minimum of the
original mapping quality and `q`; in both cases it is not increased. -/
theorem mplp_capQ_min (ext : External) (ma : mplp_aux_t) (b : bam1_t) (ref : String)
    (hearly : skip_early ma b = false) (hthres : ma.conf.capQ_thres > 10)
    (href : ma.ref = some ref) (hid : ma.ref_id = b.core.tid) :
    (ext.bam_cap_mapQ (stage_realn ext ma (stage_illumina13 ma.conf b)) ref ma.conf.capQ_thres < 0 →
      (mplp_body ext ma b).1 = true) ∧
    (0 ≤ ext.bam_cap_mapQ (stage_realn ext ma (stage_illumina13 ma.conf b)) ref ma.conf.capQ_thres →
      ((mplp_body ext ma b).2.core.qual : Int) = min (b.core.qual : Int)
        (ext.bam_cap_mapQ (stage_realn ext ma (stage_illumina13 ma.conf b)) ref
          ma.conf.capQ_thres)) ∧
    (mplp_body ext ma b).2.core.qual ≤ b.core.qual := by
  have hr : has_ref ma (stage_illumina13 ma.conf b) = some ref := by
    simp [has_ref, href, stage_illumina13_core, hid]
  have hq7 : (stage_realn ext ma (stage_illumina13 ma.conf b)).core.qual = b.core.qual := by
    rw [stage_realn_core, stage_illumina13_core]
  rw [mplp_body_early ext ma b hearly]
  refine ⟨?_, ?_, (mplp_transform_core ext ma b).2.2⟩
  · intro hq
    simp [mplp_transform, hr, stage_capQ, hthres, hq, stage_final]
  · intro hq
    have hnq : ¬ ext.bam_cap_mapQ (stage_realn ext ma (stage_illumina13 ma.conf b)) ref
        ma.conf.capQ_thres < 0 := by omega
    by_cases hg : ((stage_realn ext ma (stage_illumina13 ma.conf b)).core.qual : Int) >
        ext.bam_cap_mapQ (stage_realn ext ma (stage_illumina13 ma.conf b)) ref ma.conf.capQ_thres
    · simp only [mplp_transform, hr, stage_capQ, hthres, hnq, hg, if_true, if_false]
      rw [hq7] at hg
      show ((ext.bam_cap_mapQ (stage_realn ext ma (stage_illumina13 ma.conf b)) ref
        ma.conf.capQ_thres).toNat : Int) = _
      omega
    · simp only [mplp_transform, hr, stage_capQ, hthres, hnq, hg, if_true, if_false]
      rw [hq7] at hg ⊢
      omega

/-! ## Theorems: the sample grouper -/

theorem group_smpl_id_fallback (sm : bam_sample_t) (ignore_rg : Bool) (fn : String)
    (p : bam_pileup1_t) :
    group_smpl_id sm ignore_rg fn p = fallback_resolved_id sm ignore_rg fn p := by
  unfold group_smpl_id fallback_resolved_id
  cases hrg : p.b.rg with
  | none => cases ignore_rg <;> simp
  | some rg =>
    cases ignore_rg
    · by_cases h : sm.rg2smid fn (some rg) < 0
      · have h2 : ¬ 0 ≤ sm.rg2smid fn (some rg) := by omega
        simp [h, h2]
      · have h2 : 0 ≤ sm.rg2smid fn (some rg) := by omega
        simp [h, h2]
    · simp

theorem group_smpl_push_n (m : mplp_pileup_t) (id : Nat) (p : bam_pileup1_t) :
    (group_smpl_push m id p).n = m.n := rfl

theorem group_smpl_push_bucket (m : mplp_pileup_t) (id : Nat) (p : bam_pileup1_t) (s : Nat) :
    (group_smpl_push m id p).bucket s = if s = id then m.bucket s ++ [p] else m.bucket s := by
  unfold mplp_pileup_t.bucket group_smpl_push
  by_cases hs : s = id
  · subst hs
    simp only [Function.update_same, if_true, List.range_succ, List.map_append, List.map_cons,
      List.map_nil]
    congr 1
    apply List.map_congr_left
    intro i hi
    have : i ≠ m.n_plp s := by
      have := List.mem_range.mp hi
      omega
    simp [Function.update_noteq this]
  · simp [hs, Function.update_noteq hs]

theorem group_smpl_col_n (sm : bam_sample_t) (ignore_rg : Bool) (fn : String) :
    ∀ (ps : List bam_pileup1_t) (m m' : mplp_pileup_t),
      group_smpl_col sm ignore_rg fn m ps = some m' → m'.n = m.n := by
  intro ps
  induction ps with
  | nil => intro m m' h; simp [group_smpl_col] at h; rw [← h]
  | cons p ps ih =>
    intro m m' h
    unfold group_smpl_col at h
    split at h
    · exact absurd h (by simp)
    · rw [ih _ _ h, group_smpl_push_n]

theorem group_smpl_col_bucket (sm : bam_sample_t) (ignore_rg : Bool) (fn : String) :
    ∀ (ps : List bam_pileup1_t) (m m' : mplp_pileup_t),
      group_smpl_col sm ignore_rg fn m ps = some m' →
      ∀ s : Nat, m'.bucket s = m.bucket s ++
        ps.filter (fun p => decide (group_smpl_id sm ignore_rg fn p = (s : Int))) := by
  intro ps
  induction ps with
  | nil => intro m m' h s; simp [group_smpl_col] at h; simp [← h]
  | cons p ps ih =>
    intro m m' h s
    unfold group_smpl_col at h
    split at h
    · exact absurd h (by simp)
    · rename_i hok
      rw [ih _ _ h s, group_smpl_push_bucket]
      have hid : 0 ≤ group_smpl_id sm ignore_rg fn p := by omega
      by_cases hs : s = (group_smpl_id sm ignore_rg fn p).toNat
      · have : group_smpl_id sm ignore_rg fn p = (s : Int) := by omega
        simp [List.filter_cons, this]
      · have : ¬ group_smpl_id sm ignore_rg fn p = (s : Int) := by omega
        simp [hs, List.filter_cons, this]

theorem group_smpl_col_none (sm : bam_sample_t) (ignore_rg : Bool) (fn : String) :
    ∀ (ps : List bam_pileup1_t) (m : mplp_pileup_t),
      group_smpl_col sm ignore_rg fn m ps = none ↔
      ∃ p ∈ ps, group_smpl_id sm ignore_rg fn p < 0 ∨
        (m.n : Int) ≤ group_smpl_id sm ignore_rg fn p := by
  intro ps
  induction ps with
  | nil => intro m; simp [group_smpl_col]
  | cons p ps ih =>
    intro m
    unfold group_smpl_col
    split
    · rename_i hbad
      simp only [true_iff]
      exact ⟨p, by simp, hbad⟩
    · rename_i hok
      rw [ih, group_smpl_push_n]
      constructor
      · rintro ⟨q, hq, hbad⟩
        exact ⟨q, List.mem_cons_of_mem _ hq, hbad⟩
      · rintro ⟨q, hq, hbad⟩
        rcases List.mem_cons.mp hq with rfl | hq
        · exact absurd hbad hok
        · exact ⟨q, hq, hbad⟩

theorem entries_cons (c : String × List bam_pileup1_t)
    (cs : List (String × List bam_pileup1_t)) :
    entries (c :: cs) = c.2.map (fun p => (c.1, p)) ++ entries cs := by
  simp [entries, List.flatMap_cons]

theorem group_smpl_files_n (sm : bam_sample_t) (ignore_rg : Bool) :
    ∀ (cols : List (String × List bam_pileup1_t)) (m m' : mplp_pileup_t),
      group_smpl_files sm ignore_rg m cols = some m' → m'.n = m.n := by
  intro cols
  induction cols with
  | nil => intro m m' h; simp [group_smpl_files] at h; rw [← h]
  | cons c cs ih =>
    intro m m' h
    unfold group_smpl_files at h
    split at h
    · rename_i m1 h1
      rw [ih _ _ h, group_smpl_col_n sm ignore_rg c.1 c.2 m m1 h1]
    · exact absurd h (by simp)

theorem group_smpl_files_bucket (sm : bam_sample_t) (ignore_rg : Bool) :
    ∀ (cols : List (String × List bam_pileup1_t)) (m m' : mplp_pileup_t),
      group_smpl_files sm ignore_rg m cols = some m' →
      ∀ s : Nat, m'.bucket s = m.bucket s ++
        ((entries cols).filter
          (fun e => decide (group_smpl_id sm ignore_rg e.1 e.2 = (s : Int)))).map Prod.snd := by
  intro cols
  induction cols with
  | nil => intro m m' h s; simp [group_smpl_files] at h; simp [← h, entries]
  | cons c cs ih =>
    intro m m' h s
    unfold group_smpl_files at h
    split at h
    · rename_i m1 h1
      rw [ih _ _ h s, group_smpl_col_bucket sm ignore_rg c.1 c.2 m m1 h1 s, entries_cons,
        List.filter_append, List.map_append, List.append_assoc]
      congr 2
      rw [List.filter_map, List.map_map]
      simp [Function.comp_def]
    · exact absurd h (by simp)

theorem group_smpl_files_none (sm : bam_sample_t) (ignore_rg : Bool) :
    ∀ (cols : List (String × List bam_pileup1_t)) (m : mplp_pileup_t),
      group_smpl_files sm ignore_rg m cols = none ↔
      ∃ e ∈ entries cols, group_smpl_id sm ignore_rg e.1 e.2 < 0 ∨
        (m.n : Int) ≤ group_smpl_id sm ignore_rg e.1 e.2 := by
  intro cols
  induction cols with
  | nil => intro m; simp [group_smpl_files, entries]
  | cons c cs ih =>
    intro m
    unfold group_smpl_files
    split
    · rename_i m1 h1
      have hn := group_smpl_col_n sm ignore_rg c.1 c.2 m m1 h1
      have hnone : ¬ group_smpl_col sm ignore_rg c.1 m c.2 = none := by simp [h1]
      rw [group_smpl_col_none] at hnone
      rw [ih, hn, entries_cons]
      constructor
      · rintro ⟨e, he, hbad⟩
        exact ⟨e, List.mem_append_right _ he, hbad⟩
      · rintro ⟨e, he, hbad⟩
        rcases List.mem_append.mp he with he | he
        · exfalso
          obtain ⟨p, hp, rfl⟩ := List.mem_map.mp he
          exact hnone ⟨p, hp, hbad⟩
        · exact ⟨e, he, hbad⟩
    · rename_i h1
      simp only [true_iff]
      obtain ⟨p, hp, hbad⟩ := (group_smpl_col_none sm ignore_rg c.1 c.2 m).mp h1
      refine ⟨(c.1, p), ?_, hbad⟩
      rw [entries_cons]
      exact List.mem_append_left _ (List.mem_map.mpr ⟨p, hp, rfl⟩)

theorem group_smpl_clear_bucket (m : mplp_pileup_t) (s : Nat) (hs : s < m.n) :
    (group_smpl_clear m).bucket s = [] := by
  simp [mplp_pileup_t.bucket, group_smpl_clear, hs]

theorem sum_indicator (n : Nat) (k : Int) (h0 : 0 ≤ k) (hn : k < (n : Int)) :
    ((List.range n).map (fun s : Nat => if k = (s : Int) then (1 : Nat) else 0)).sum = 1 := by
  induction n with
  | zero => omega
  | succ n ih =>
    rw [List.range_succ, List.map_append, List.sum_append]
    by_cases hk : k = (n : Int)
    · have hz : ((List.range n).map (fun s : Nat => if k = (s : Int) then (1 : Nat) else 0)).sum = 0 := by
        apply List.sum_eq_zero
        intro x hx
        obtain ⟨s, hs, rfl⟩ := List.mem_map.mp hx
        have := List.mem_range.mp hs
        have : ¬ k = (s : Int) := by omega
        simp [this]
      rw [hz]
      simp [hk]
    · have hlt : k < (n : Int) := by omega
      rw [ih hlt]
      simp [hk]

theorem sum_filter_length {α : Type} (n : Nat) (f : α → Int) :
    ∀ (l : List α), (∀ e ∈ l, 0 ≤ f e ∧ f e < (n : Int)) →
      ((List.range n).map (fun s : Nat => (l.filter (fun e => decide (f e = (s : Int)))).length)).sum
        = l.length := by
  intro l
  induction l with
  | nil => intro _; simp
  | cons a l ih =>
    intro h
    have ha := h a (by simp)
    have hl := ih (fun e he => h e (List.mem_cons_of_mem _ he))
    have hsplit : ∀ s : Nat,
        ((a :: l).filter (fun e => decide (f e = (s : Int)))).length =
          (if f a = (s : Int) then 1 else 0) +
            (l.filter (fun e => decide (f e = (s : Int)))).length := by
      intro s
      by_cases hs : f a = (s : Int)
      · simp [List.filter_cons, hs]; omega
      · simp [List.filter_cons, hs]
    simp only [hsplit]
    rw [List.sum_map_add, hl, sum_indicator n (f a) ha.1 ha.2]
    simp; omega

/-- C3 (counterexample): the one-sample table has no entry for tag `RGX`, yet
`group_smpl` returns on a column holding a record tagged `RGX` and puts the
entry into the bucket of the file's default sample. -/
theorem group_smpl_undeclared_tag_defaulted :
    sm_default.rg2smid "a.bam" (some "RGX") < 0 ∧
    (group_smpl (gplp_init 1 (entry0 none 0)) sm_default
      [("a.bam", [entry0 (some "RGX") 0])] false).isSome = true ∧
    read_buckets (group_smpl (gplp_init 1 (entry0 none 0)) sm_default
      [("a.bam", [entry0 (some "RGX") 0])] false) = some [[entry0 (some "RGX") 0]] := by
  decide

/-- C3 (amended): with read-group resolution enabled, an entry whose tag has no
entry in the sample table falls back to the default sample of its file:
`group_smpl` aborts when that default is missing too (negative or not below the
sample count), and when the call returns the entry is in the bucket of the
file's default sample. -/
theorem group_smpl_abort_no_default (m : mplp_pileup_t) (sm : bam_sample_t)
    (cols : List (String × List bam_pileup1_t)) (fn : String) (p : bam_pileup1_t)
    (rg : String) (hmem : (fn, p) ∈ entries cols) (htag : p.b.rg = some rg)
    (hmiss : sm.rg2smid fn (some rg) < 0) :
    (sm.rg2smid fn none < 0 ∨ (m.n : Int) ≤ sm.rg2smid fn none →
      group_smpl m sm cols false = none) ∧
    (∀ m', group_smpl m sm cols false = some m' →
      0 ≤ sm.rg2smid fn none ∧ sm.rg2smid fn none < (m.n : Int) ∧
      p ∈ m'.bucket (sm.rg2smid fn none).toNat) := by
  have hid : group_smpl_id sm false fn p = sm.rg2smid fn none := by
    simp [group_smpl_id, htag, hmiss]
  constructor
  · intro hdef
    unfold group_smpl
    rw [group_smpl_files_none]
    exact ⟨(fn, p), hmem, by rw [hid]; exact hdef⟩
  · intro m' h
    unfold group_smpl at h
    have hnone : ¬ group_smpl_files sm false (group_smpl_clear m) cols = none := by simp [h]
    rw [group_smpl_files_none] at hnone
    have hok : ¬ (sm.rg2smid fn none < 0 ∨ (m.n : Int) ≤ sm.rg2smid fn none) := by
      intro hbad
      exact hnone ⟨(fn, p), hmem, by rw [hid]; exact hbad⟩
    have h0 : 0 ≤ sm.rg2smid fn none := by omega
    have hn : sm.rg2smid fn none < (m.n : Int) := by omega
    refine ⟨h0, hn, ?_⟩
    rw [group_smpl_files_bucket sm false cols _ m' h]
    apply List.mem_append_right
    apply List.mem_map.mpr
    refine ⟨(fn, p), ?_, rfl⟩
    apply List.mem_filter.mpr
    refine ⟨hmem, ?_⟩
    simp only [decide_eq_true_eq, hid]
    omega

/-- C3 (witness): with two declared read groups and no default sample, a record
tagged `RGX` aborts the run; with a default sample the call returns and the
entry is in the default bucket. -/
theorem group_smpl_abort_no_default_witness :
    group_smpl (gplp_init 2 (entry0 none 0)) sm_two
      [("a.bam", [entry0 (some "RGX") 0])] false = none ∧
    ∃ m', group_smpl (gplp_init 1 (entry0 none 0)) sm_default
        [("a.bam", [entry0 (some "RGX") 0])] false = some m' ∧
      entry0 (some "RGX") 0 ∈ m'.bucket 0 := by
  constructor
  · exact (group_smpl_abort_no_default (gplp_init 2 (entry0 none 0)) sm_two
      [("a.bam", [entry0 (some "RGX") 0])] "a.bam" (entry0 (some "RGX") 0) "RGX"
      (by decide) rfl (by decide)).1 (Or.inl (by decide))
  · have hsome : (group_smpl (gplp_init 1 (entry0 none 0)) sm_default
        [("a.bam", [entry0 (some "RGX") 0])] false).isSome = true := by decide
    obtain ⟨m', hm'⟩ := Option.isSome_iff_exists.mp hsome
    exact ⟨m', hm', ((group_smpl_abort_no_default (gplp_init 1 (entry0 none 0)) sm_default
      [("a.bam", [entry0 (some "RGX") 0])] "a.bam" (entry0 (some "RGX") 0) "RGX"
      (by decide) rfl (by decide)).2 m' hm').2.2⟩

/-- C6 (counterexample): with the resolved id read as the plain lookup of
(file name, tag), the bucket of sample 0 is not the subsequence of entries
resolved to 0: the entry tagged `RGX`, whose lookup is `-1`, is in it. -/
theorem group_smpl_bucket_not_plain_lookup :
    read_buckets (group_smpl (gplp_init 1 (entry0 none 0)) sm_default
      [("a.bam", [entry0 (some "RG1") 0, entry0 (some "RGX") 1])] false) =
        some [[entry0 (some "RG1") 0, entry0 (some "RGX") 1]] ∧
    ((entries [("a.bam", [entry0 (some "RG1") 0, entry0 (some "RGX") 1])]).filter
      (fun e => decide (spec_resolved_id sm_default false e.1 e.2 = 0))).map Prod.snd =
        [entry0 (some "RG1") 0] := by
  decide

/-- C6 (amended): when `group_smpl` returns, the bucket of each sample id `s` is
the in-order subsequence (files in the order given, entries in column order) of
the entries whose resolved id is `s`, the resolved id being the lookup of
(file name, tag) when a tag is present, read-group resolution is enabled and the
lookup is non-negative, and the file's default sample id otherwise; the bucket
sizes sum to the number of entries; and any other starting buckets with the same
sample count give a returning call with the same buckets. -/
theorem group_smpl_buckets (m m' : mplp_pileup_t) (sm : bam_sample_t)
    (cols : List (String × List bam_pileup1_t)) (ignore_rg : Bool)
    (h : group_smpl m sm cols ignore_rg = some m') :
    (∀ s : Nat, s < m.n → m'.bucket s = ((entries cols).filter
      (fun e => decide (fallback_resolved_id sm ignore_rg e.1 e.2 = (s : Int)))).map Prod.snd) ∧
    ((List.range m.n).map (fun s : Nat => (m'.bucket s).length)).sum = (entries cols).length ∧
    (∀ m2 : mplp_pileup_t, m2.n = m.n →
      ∃ m2', group_smpl m2 sm cols ignore_rg = some m2' ∧
        ∀ s : Nat, s < m.n → m2'.bucket s = m'.bucket s) := by
  have hb : ∀ (m0 m0' : mplp_pileup_t), group_smpl m0 sm cols ignore_rg = some m0' →
      ∀ s : Nat, s < m0.n → m0'.bucket s = ((entries cols).filter
        (fun e => decide (fallback_resolved_id sm ignore_rg e.1 e.2 = (s : Int)))).map
          Prod.snd := by
    intro m0 m0' h0 s hs
    unfold group_smpl at h0
    rw [group_smpl_files_bucket sm ignore_rg cols _ m0' h0 s, group_smpl_clear_bucket m0 s hs]
    simp only [List.nil_append, group_smpl_id_fallback]
  have hrange : ∀ e ∈ entries cols, 0 ≤ fallback_resolved_id sm ignore_rg e.1 e.2 ∧
      fallback_resolved_id sm ignore_rg e.1 e.2 < (m.n : Int) := by
    intro e he
    unfold group_smpl at h
    have hnone : ¬ group_smpl_files sm ignore_rg (group_smpl_clear m) cols = none := by
      simp [h]
    rw [group_smpl_files_none] at hnone
    have hne : ¬ (group_smpl_id sm ignore_rg e.1 e.2 < 0 ∨
        ((group_smpl_clear m).n : Int) ≤ group_smpl_id sm ignore_rg e.1 e.2) :=
      fun hbad => hnone ⟨e, he, hbad⟩
    rw [group_smpl_id_fallback] at hne
    have hcn : (group_smpl_clear m).n = m.n := rfl
    rw [hcn] at hne
    omega
  refine ⟨hb m m' h, ?_, ?_⟩
  · have hlen : ∀ s ∈ List.range m.n, (m'.bucket s).length =
        ((entries cols).filter
          (fun e => decide (fallback_resolved_id sm ignore_rg e.1 e.2 = (s : Int)))).length := by
      intro s hs
      rw [hb m m' h s (List.mem_range.mp hs), List.length_map]
    rw [List.map_congr_left hlen]
    exact sum_filter_length m.n (fun e => fallback_resolved_id sm ignore_rg e.1 e.2)
      (entries cols) hrange
  · intro m2 hn
    cases h2 : group_smpl m2 sm cols ignore_rg with
    | none =>
      exfalso
      unfold group_smpl at h2
      rw [group_smpl_files_none] at h2
      obtain ⟨e, he, hbad⟩ := h2
      have hcn : (group_smpl_clear m2).n = m.n := hn
      rw [hcn, group_smpl_id_fallback] at hbad
      have := hrange e he
      omega
    | some m2' =>
      refine ⟨m2', rfl, ?_⟩
      intro s hs
      rw [hb m2 m2' h2 s (by omega), hb m m' h s hs]

/-- C6 (witness): two files, read groups `RG1` and `RG2` of a two-sample
table. -/
theorem group_smpl_buckets_witness :
    ∃ m', group_smpl (gplp_init 2 (entry0 none 0)) sm_two
        [("a.bam", [entry0 (some "RG2") 0, entry0 (some "RG1") 1]),
         ("b.bam", [entry0 (some "RG1") 2])] false = some m' ∧
      m'.bucket 0 = [entry0 (some "RG1") 1, entry0 (some "RG1") 2] ∧
      m'.bucket 1 = [entry0 (some "RG2") 0] := by
  have hsome : (group_smpl (gplp_init 2 (entry0 none 0)) sm_two
        [("a.bam", [entry0 (some "RG2") 0, entry0 (some "RG1") 1]),
         ("b.bam", [entry0 (some "RG1") 2])] false).isSome = true := by decide
  obtain ⟨m', hm'⟩ := Option.isSome_iff_exists.mp hsome
  have hthm := (group_smpl_buckets _ m' sm_two _ false hm').1
  refine ⟨m', hm', ?_, ?_⟩
  · rw [hthm 0 (by decide)]; decide
  · rw [hthm 1 (by decide)]; decide

/-! ## Theorems: witnesses and evaluations of the read filter -/

/-- C2 (evaluation at the failing input): with required flags `65` (paired,
first of pair) a record whose flag is `131` (paired, proper pair, second of
pair) has only one of the two required bits, and `mplp_func` returns it all the
same, so the returned record has `(flag & 65) = 1`, not `65`. -/
theorem mplp_func_require_any_bit :
    0 ≤ (mplp_func ext0 (aux0 conf_require65 [(0, rec0 131 30)]) (rec0 0 0)).1 ∧
    (mplp_func ext0 (aux0 conf_require65 [(0, rec0 131 30)]) (rec0 0 0)).2.1 = rec0 131 30 ∧
    (mplp_func ext0 (aux0 conf_require65 [(0, rec0 131 30)]) (rec0 0 0)).2.1.core.flag &&&
      conf_require65.rflag_require = 1 ∧
    conf_require65.rflag_require = 65 := by
  decide

/-- C7 (witness): threshold 50, original mapping quality 30; an adjusted value
of `-1` rejects the record, an adjusted value of `12` lowers the mapping quality
to `12`. -/
theorem mplp_capQ_min_witness :
    (mplp_body (ext_cap (-1)) (aux_ref conf_capQ50 []) (rec0 0 30)).1 = true ∧
    ((mplp_body (ext_cap 12) (aux_ref conf_capQ50 []) (rec0 0 30)).2.core.qual : Int) =
      min ((rec0 0 30).core.qual : Int) 12 ∧
    (mplp_body (ext_cap 12) (aux_ref conf_capQ50 []) (rec0 0 30)).2.core.qual ≤
      (rec0 0 30).core.qual :=
  ⟨(mplp_capQ_min (ext_cap (-1)) (aux_ref conf_capQ50 []) (rec0 0 30) "ACGT"
      (by decide) (by decide) rfl rfl).1 (by decide),
   (mplp_capQ_min (ext_cap 12) (aux_ref conf_capQ50 []) (rec0 0 30) "ACGT"
      (by decide) (by decide) rfl rfl).2.1 (by decide),
   (mplp_capQ_min (ext_cap 12) (aux_ref conf_capQ50 []) (rec0 0 30) "ACGT"
      (by decide) (by decide) rfl rfl).2.2⟩

/-- C8 (witness): forbidden flags `1024`; the duplicate is rejected and the
call returns the next record, whose flag has no forbidden bit. -/
theorem mplp_func_forbidden_flags_witness :
    (mplp_body ext0 (aux0 conf_filter1024 [(0, rec0 1024 30), (0, rec0 1 30)])
      (rec0 1024 30)).1 = true ∧
    (0 ≤ (mplp_func ext0 (aux0 conf_filter1024 [(0, rec0 1024 30), (0, rec0 1 30)])
      (rec0 0 0)).1 ∧
     (mplp_func ext0 (aux0 conf_filter1024 [(0, rec0 1024 30), (0, rec0 1 30)])
      (rec0 0 0)).2.1.core.flag &&& conf_filter1024.rflag_filter = 0) :=
  ⟨(mplp_func_forbidden_flags ext0 (aux0 conf_filter1024 [(0, rec0 1024 30), (0, rec0 1 30)])
      (rec0 0 0) (rec0 1024 30)).1 (by decide),
   by decide,
   (mplp_func_forbidden_flags ext0 (aux0 conf_filter1024 [(0, rec0 1024 30), (0, rec0 1 30)])
      (rec0 0 0) (rec0 1024 30)).2 (by decide)⟩

/-- C9 (witness): with no flag mask at all, the unmapped record is rejected and
the call returns the mapped record behind it. -/
theorem mplp_func_mapped_witness :
    (mplp_body ext0 (aux0 conf0 [(0, rec0 4 30), (0, rec0 0 30)]) (rec0 4 30)).1 = true ∧
    (0 ≤ (mplp_func ext0 (aux0 conf0 [(0, rec0 4 30), (0, rec0 0 30)]) (rec0 0 0)).1 ∧
     0 ≤ (mplp_func ext0 (aux0 conf0 [(0, rec0 4 30), (0, rec0 0 30)])
        (rec0 0 0)).2.1.core.tid ∧
     (mplp_func ext0 (aux0 conf0 [(0, rec0 4 30), (0, rec0 0 30)])
        (rec0 0 0)).2.1.core.flag &&& BAM_FUNMAP = 0) :=
  ⟨(mplp_func_mapped ext0 (aux0 conf0 [(0, rec0 4 30), (0, rec0 0 30)]) (rec0 0 0)
      (rec0 4 30)).1 (Or.inr (by decide)),
   by decide,
   (mplp_func_mapped ext0 (aux0 conf0 [(0, rec0 4 30), (0, rec0 0 30)]) (rec0 0 0)
      (rec0 4 30)).2 (by decide)⟩

/-- C10 (witness): floor 20; mapping quality 19 is rejected, mapping quality 20
is accepted, and the call returns the record of quality 20. -/
theorem mplp_func_min_mq_witness :
    (mplp_body ext0 (aux0 conf_min_mq20 [(0, rec0 0 19), (0, rec0 0 20)]) (rec0 0 19)).1 = true ∧
    (mplp_body ext0 (aux0 conf_min_mq20 [(0, rec0 0 19), (0, rec0 0 20)]) (rec0 0 20)).1
      = false ∧
    (0 ≤ (mplp_func ext0 (aux0 conf_min_mq20 [(0, rec0 0 19), (0, rec0 0 20)]) (rec0 0 0)).1 ∧
     conf_min_mq20.min_mq ≤ ((mplp_func ext0 (aux0 conf_min_mq20 [(0, rec0 0 19), (0, rec0 0 20)])
        (rec0 0 0)).2.1.core.qual : Int)) :=
  ⟨(mplp_func_min_mq ext0 (aux0 conf_min_mq20 [(0, rec0 0 19), (0, rec0 0 20)]) (rec0 0 0)
      (rec0 0 19)).1 (by decide) (by decide),
   ((mplp_func_min_mq ext0 (aux0 conf_min_mq20 [(0, rec0 0 19), (0, rec0 0 20)]) (rec0 0 0)
      (rec0 0 20)).2.1 (by decide)).2 (by decide) (by decide) (by decide),
   by decide,
   (mplp_func_min_mq ext0 (aux0 conf_min_mq20 [(0, rec0 0 19), (0, rec0 0 20)]) (rec0 0 0)
      (rec0 0 20)).2.2 (by decide)⟩

/-! ## Theorems: the depth cap -/

/-- C4 (counterexample): with `max_depth = 5` and one sample the cap installed
in the engine is `8000`, above the configured maximum depth, and a column of 8
overlapping records keeps all 8 entries. -/
theorem mpileup_max_depth_exceeds :
    mpileup_max_depth conf_depth5 1 = 8000 ∧
    ¬ (mpileup_max_depth conf_depth5 1 ≤ conf_depth5.max_depth) ∧
    (engine_column (mpileup_max_depth conf_depth5 1) (List.range 8)).length = 8 := by
  decide

/-- C4 (amended): for `n ≥ 1` samples and no overflow of `max_depth * n`, the
cap installed in the engine is `max_depth` when `max_depth * n ≥ 8000` and
`8000 / n` otherwise, so it is never below the configured `max_depth`; a column
never has more entries than the installed cap and is a leading part, in arrival
order, of the active records; with `max_depth = 5`, one sample and 8 overlapping
records the column holds all 8. -/
theorem mpileup_max_depth_cap {α : Type} (conf : mplp_conf_t) (n : Int) (active : List α)
    (hn : 1 ≤ n) (_hov : -2 ^ 31 ≤ conf.max_depth * n ∧ conf.max_depth * n < 2 ^ 31) :
    (8000 ≤ conf.max_depth * n → mpileup_max_depth conf n = conf.max_depth) ∧
    (conf.max_depth * n < 8000 → mpileup_max_depth conf n = 8000 / n) ∧
    conf.max_depth ≤ mpileup_max_depth conf n ∧
    ((engine_column (mpileup_max_depth conf n) active).length : Int) ≤
      mpileup_max_depth conf n ∧
    (engine_column (mpileup_max_depth conf n) active) <+: active ∧
    engine_column (mpileup_max_depth conf_depth5 1) (List.range 8) = List.range 8 := by
  have hdiv : Int.tdiv 8000 n = 8000 / n := Int.tdiv_eq_ediv (by omega) (by omega)
  have hlow : conf.max_depth * n < 8000 → conf.max_depth ≤ 8000 / n := by
    intro h
    rw [Int.le_ediv_iff_mul_le (by omega)]
    omega
  have hge : conf.max_depth ≤ mpileup_max_depth conf n := by
    unfold mpileup_max_depth
    split
    · rename_i h; rw [hdiv]; exact hlow h
    · exact le_refl _
  have hnonneg : 0 ≤ mpileup_max_depth conf n := by
    unfold mpileup_max_depth
    split
    · rw [hdiv]; exact Int.ediv_nonneg (by omega) (by omega)
    · rename_i h
      by_contra hneg
      have : conf.max_depth * n ≤ 0 := by
        apply Int.mul_nonpos_of_nonpos_of_nonneg <;> omega
      omega
  refine ⟨?_, ?_, hge, ?_, ?_, by decide⟩
  · intro h
    have : ¬ conf.max_depth * n < 8000 := by omega
    simp [mpileup_max_depth, this]
  · intro h
    simp [mpileup_max_depth, h, hdiv]
  · unfold engine_column
    rw [List.length_take]
    omega
  · exact List.take_prefix _ _

/-- C4 (witness): the default `max_depth = 250` with 40 samples and 8 active
records. -/
theorem mpileup_max_depth_cap_witness :
    mpileup_max_depth conf0 40 = conf0.max_depth ∧
    mpileup_max_depth conf_depth5 1 = 8000 / 1 ∧
    engine_column (mpileup_max_depth conf0 40) (List.range 300) <+: List.range 300 :=
  ⟨(mpileup_max_depth_cap conf0 40 (List.range 300) (by decide) (by decide)).1 (by decide),
   (mpileup_max_depth_cap conf_depth5 1 (List.range 300) (by decide) (by decide)).2.1 (by decide),
   (mpileup_max_depth_cap conf0 40 (List.range 300) (by decide) (by decide)).2.2.2.2.1⟩

/-! ## Theorems: the file cache -/

/-- C5 (evaluation at the failing input): in region-list mode with
`bamcachesizemb = 0` the first call opens `a.bam`, reads its header and loads
its index, and leaves the handle slot of the cache empty although header and
index are cached; the second call opens the file again, and neither call reads
the header or loads the index a second time. -/
theorem mpileup_reopens_uncached_handle :
    run1.trace = [Event.sam_open "a.bam", Event.bgzf_set_cache_size "a.bam" 0,
      Event.sam_hdr_read "a.bam", Event.bam_index_load "a.bam"] ∧
    (run1.conf.slot 0).bind (fun c => c.fp) = none ∧
    (run1.conf.slot 0).bind (fun c => c.h) = some hdr0 ∧
    (run1.conf.slot 0).bind (fun c => c.idx) = some { fname := "a.bam" } ∧
    run2.trace = [Event.sam_open "a.bam", Event.bgzf_set_cache_size "a.bam" 0] ∧
    count_open "a.bam" (run1.trace ++ run2.trace) = 2 := by
  decide


/-! ## Theorems: orphans, legacy qualities and the frame of the filter -/

theorem clear_bits_and (flag mask : Nat) : clear_bits flag mask &&& mask = 0 := by
  apply Nat.eq_of_testBit_eq
  intro i
  simp only [clear_bits, Nat.testBit_and, Nat.testBit_xor, Nat.zero_testBit]
  cases flag.testBit i <;> cases mask.testBit i <;> rfl

/-- C11: a record that passed every earlier stage (stages 1 to 5, the capping
stage and the mapping-quality floor) is rejected by the orphan stage exactly
when `MPLP_NO_ORPHAN` is set, the record is flagged paired and it is not flagged
proper-pair; the flag is set in the starting configuration and `-A` clears
it. -/
theorem mplp_orphan_stage (ext : External) (ma : mplp_aux_t) (b : bam1_t)
    (hearly : skip_early ma b = false) (hcap : (mplp_transform ext ma b).1 = false)
    (hmq : skip_min_mq ma.conf (mplp_transform ext ma b).2 = false) :
    ((mplp_body ext ma b).1 = true ↔
      (ma.conf.flag &&& MPLP_NO_ORPHAN ≠ 0 ∧ b.core.flag &&& BAM_FPAIRED ≠ 0 ∧
        b.core.flag &&& BAM_FPROPER_PAIR = 0)) ∧
    mplp_flag_init &&& MPLP_NO_ORPHAN ≠ 0 ∧
    (∀ flag : Nat, apply_use_orphan flag true &&& MPLP_NO_ORPHAN = 0) ∧
    (∀ flag : Nat, apply_use_orphan flag false = flag) := by
  refine ⟨?_, by decide, fun flag => clear_bits_and flag MPLP_NO_ORPHAN, fun _ => rfl⟩
  rw [mplp_body_early ext ma b hearly]
  simp only [stage_final, hmq, hcap, skip_orphan, (mplp_transform_core ext ma b).2.1]
  simp [and_assoc]

/-- C11 (witness): with the starting flags a paired record that is not a proper
pair is rejected; after `-A` it is accepted. -/
theorem mplp_orphan_stage_witness :
    ((mplp_body ext0 (aux0 conf_default []) (rec0 1 30)).1 = true ↔
      (conf_default.flag &&& MPLP_NO_ORPHAN ≠ 0 ∧ (rec0 1 30).core.flag &&& BAM_FPAIRED ≠ 0 ∧
        (rec0 1 30).core.flag &&& BAM_FPROPER_PAIR = 0)) ∧
    (mplp_body ext0 (aux0 conf_default []) (rec0 1 30)).1 = true ∧
    (mplp_body ext0 (aux0 { conf_default with flag := apply_use_orphan conf_default.flag true } [])
      (rec0 1 30)).1 = false :=
  ⟨(mplp_orphan_stage ext0 (aux0 conf_default []) (rec0 1 30) (by decide) (by decide)
      (by decide)).1, by decide, by decide⟩

theorem rescale13_int (q : Nat) : ((rescale13 q : Nat) : Int) = max ((q : Int) - 31) 0 := by
  unfold rescale13
  split <;> omega

theorem rescale13_le (q : Nat) : rescale13 q ≤ q := by
  unfold rescale13
  split <;> omega

theorem illumina13_qual (b : bam1_t) :
    (illumina13 b).qual = (b.qual.take b.core.l_qseq.toNat).map rescale13 ++
      b.qual.drop b.core.l_qseq.toNat := rfl

/-- C12: when legacy quality encoding is configured, stage 6 replaces each of
the first `l_qseq` base qualities `q` by `q - 31` if `q > 31` and by `0`
otherwise, that is by `max (q - 31) 0`; qualities past `l_qseq` and all other
fields are left alone, the number of qualities is unchanged and no quality
increases; a record that passed stages 1 to 5 and has no reference leaves the
filter body with exactly these qualities. -/
theorem illumina13_rescale (ext : External) (ma : mplp_aux_t) (b : bam1_t)
    (hflag : ma.conf.flag &&& MPLP_ILLUMINA13 ≠ 0) :
    (stage_illumina13 ma.conf b).qual.length = b.qual.length ∧
    (∀ i : Nat, i < b.core.l_qseq.toNat →
      (stage_illumina13 ma.conf b).qual[i]? = (b.qual[i]?).map rescale13) ∧
    (∀ i : Nat, b.core.l_qseq.toNat ≤ i →
      (stage_illumina13 ma.conf b).qual[i]? = b.qual[i]?) ∧
    (∀ q : Nat, ((rescale13 q : Nat) : Int) = max ((q : Int) - 31) 0 ∧ rescale13 q ≤ q) ∧
    (∀ i : Nat, (stage_illumina13 ma.conf b).qual.getD i 0 ≤ b.qual.getD i 0) ∧
    (stage_illumina13 ma.conf b).core = b.core ∧
    (skip_early ma b = false → ma.ref = none →
      (mplp_body ext ma b).2.qual = (stage_illumina13 ma.conf b).qual) := by
  have hst : stage_illumina13 ma.conf b = illumina13 b := by
    simp [stage_illumina13, hflag]
  have hpt1 : ∀ i : Nat, i < b.core.l_qseq.toNat →
      (illumina13 b).qual[i]? = (b.qual[i]?).map rescale13 := by
    intro i hi
    rw [illumina13_qual]
    by_cases hlen : i < b.qual.length
    · rw [List.getElem?_append_left (by simp; omega)]
      simp [List.getElem?_map, List.getElem?_take, hi]
    · have h1 : b.qual[i]? = none := List.getElem?_eq_none (by omega)
      rw [h1]
      apply List.getElem?_eq_none
      simp
      omega
  have hpt2 : ∀ i : Nat, b.core.l_qseq.toNat ≤ i → (illumina13 b).qual[i]? = b.qual[i]? := by
    intro i hi
    rw [illumina13_qual]
    by_cases hlen : b.core.l_qseq.toNat ≤ b.qual.length
    · rw [List.getElem?_append_right (by simp; omega)]
      simp only [List.length_map, List.length_take, List.getElem?_drop]
      congr 1
      omega
    · have h1 : b.qual[i]? = none := List.getElem?_eq_none (by omega)
      rw [h1]
      apply List.getElem?_eq_none
      simp
      omega
  rw [hst]
  refine ⟨?_, hpt1, hpt2, fun q => ⟨rescale13_int q, rescale13_le q⟩, ?_, rfl, ?_⟩
  · rw [illumina13_qual]
    simp only [List.length_append, List.length_map, List.length_take, List.length_drop]
    omega
  · intro i
    by_cases hi : i < b.core.l_qseq.toNat
    · simp only [List.getD_eq_getElem?_getD, hpt1 i hi]
      cases b.qual[i]? with
      | none => simp
      | some q => simpa using rescale13_le q
    · simp only [List.getD_eq_getElem?_getD, hpt2 i (by omega)]
      exact le_refl _
  · intro hearly href
    rw [mplp_body_early ext ma b hearly]
    simp [mplp_transform, hst, has_ref, href, stage_realn, stage_capQ]

/-- C12 (witness): qualities `[40, 20]` become `[9, 0]`. -/
theorem illumina13_rescale_witness :
    (stage_illumina13 conf_illumina (rec0 0 30)).qual.length = (rec0 0 30).qual.length ∧
    (stage_illumina13 conf_illumina (rec0 0 30)).qual[0]? = some 9 ∧
    (mplp_body ext0 (aux0 conf_illumina []) (rec0 0 30)).2.qual = [9, 0] := by
  have h := illumina13_rescale ext0 (aux0 conf_illumina []) (rec0 0 30) (by decide)
  refine ⟨h.1, ?_, ?_⟩
  · rw [show (aux0 conf_illumina []).conf = conf_illumina from rfl] at h
    rw [h.2.1 0 (by decide)]
    decide
  · rw [h.2.2.2.2.2.2 (by decide) rfl]
    decide


theorem mplp_transform_off (ext : External) (ma : mplp_aux_t) (b : bam1_t)
    (h6 : ma.conf.flag &&& MPLP_ILLUMINA13 = 0) (h7 : ma.conf.flag &&& MPLP_REALN = 0)
    (h8 : ma.conf.capQ_thres ≤ 10) : mplp_transform ext ma b = (false, b) := by
  have hc : ¬ ma.conf.capQ_thres > 10 := by omega
  have h1 : stage_illumina13 ma.conf b = b := by simp [stage_illumina13, h6]
  have h2 : ∀ x : bam1_t, stage_realn ext ma x = x := by
    intro x
    unfold stage_realn
    split <;> simp [h7]
  simp only [mplp_transform, h1, h2]
  generalize has_ref ma b = r
  cases r <;> simp [stage_capQ, hc]

theorem mplp_body_off (ext : External) (ma : mplp_aux_t) (b : bam1_t)
    (h6 : ma.conf.flag &&& MPLP_ILLUMINA13 = 0) (h7 : ma.conf.flag &&& MPLP_REALN = 0)
    (h8 : ma.conf.capQ_thres ≤ 10) : (mplp_body ext ma b).2 = b := by
  unfold mplp_body
  split
  · rfl
  · rw [mplp_transform_off ext ma b h6 h7 h8]

/-- C13: a record rejected at stages 1 to 5 leaves the filter body unchanged
in every field, and with legacy encoding, realignment and mapping-quality
capping all disabled the filter body changes no record, so every record
`mplp_func` returns is equal to a record read from the source. -/
theorem mplp_func_frame (ext : External) (ma : mplp_aux_t) (b0 b : bam1_t) :
    (skip_early ma b = true → mplp_body ext ma b = (true, b)) ∧
    (ma.conf.flag &&& MPLP_ILLUMINA13 = 0 → ma.conf.flag &&& MPLP_REALN = 0 →
      ma.conf.capQ_thres ≤ 10 →
      (mplp_body ext ma b).2 = b ∧
      (0 ≤ (mplp_func ext ma b0).1 →
        ∃ r ∈ ma.source.recs, (mplp_func ext ma b0).2.1 = r.2)) := by
  constructor
  · intro h
    simp [mplp_body, h]
  · intro h6 h7 h8
    refine ⟨mplp_body_off ext ma b h6 h7 h8, ?_⟩
    intro hret
    obtain ⟨r, hr, _, heq⟩ := mplp_func_returned ext ma b0 hret
    exact ⟨r, hr, by rw [heq, mplp_body_off ext ma r.2 h6 h7 h8]⟩

/-- C13 (witness): a duplicate rejected by the forbidden flags keeps its
qualities even with legacy encoding on; with every transform off the returned
record is the second record of the source as read. -/
theorem mplp_func_frame_witness :
    mplp_body ext0 (aux0 { conf_illumina with rflag_filter := 1024 } []) (rec0 1024 30) =
      (true, rec0 1024 30) ∧
    (mplp_body ext0 (aux0 conf0 [(0, rec0 4 30), (0, rec0 0 30)]) (rec0 0 30)).2 = rec0 0 30 ∧
    ∃ r ∈ (aux0 conf0 [(0, rec0 4 30), (0, rec0 0 30)]).source.recs,
      (mplp_func ext0 (aux0 conf0 [(0, rec0 4 30), (0, rec0 0 30)]) (rec0 0 0)).2.1 = r.2 :=
  ⟨(mplp_func_frame ext0 (aux0 { conf_illumina with rflag_filter := 1024 } []) (rec0 0 0)
      (rec0 1024 30)).1 (by decide),
   ((mplp_func_frame ext0 (aux0 conf0 [(0, rec0 4 30), (0, rec0 0 30)]) (rec0 0 0)
      (rec0 0 30)).2 (by decide) (by decide) (by decide)).1,
   ((mplp_func_frame ext0 (aux0 conf0 [(0, rec0 4 30), (0, rec0 0 30)]) (rec0 0 0)
      (rec0 0 30)).2 (by decide) (by decide) (by decide)).2 (by decide)⟩

/-! ## Theorems: repeated calls of the filter -/

theorem advance_source (ma : mplp_aux_t) (rest : List (Nat × bam1_t)) :
    (ma.advance rest).source.recs = rest ∧
    (ma.advance rest).source.endStatus = ma.source.endStatus := by
  unfold mplp_aux_t.advance mplp_aux_t.source
  cases h : ma.iter <;> simp [RecStream.endStatus]

theorem advance_fields (ma : mplp_aux_t) (rest : List (Nat × bam1_t)) :
    (ma.advance rest).conf = ma.conf ∧ (ma.advance rest).h = ma.h ∧
    (ma.advance rest).ref = ma.ref ∧ (ma.advance rest).ref_id = ma.ref_id := by
  unfold mplp_aux_t.advance
  cases h : ma.iter <;> simp

theorem mplp_body_advance (ext : External) (ma : mplp_aux_t) (rest : List (Nat × bam1_t))
    (b : bam1_t) : mplp_body ext (ma.advance rest) b = mplp_body ext ma b := by
  obtain ⟨hc, hh, hr, hi⟩ := advance_fields ma rest
  simp only [mplp_body, skip_early, skip_bed, mplp_transform, has_ref, stage_realn, hc, hh, hr, hi]

theorem mplp_pull_spec (ext : External) :
    ∀ (fuel : Nat) (ma : mplp_aux_t) (b : bam1_t), ma.source.recs.length < fuel →
      mplp_pull ext fuel ma b =
        ((ma.source.recs.map Prod.snd).filter (fun r => !(mplp_body ext ma r).1)).map
          (fun r => (mplp_body ext ma r).2) := by
  intro fuel
  induction fuel with
  | zero => intro ma b h; omega
  | succ k ih =>
    intro ma b hlen
    unfold mplp_pull
    rcases mplp_loop_spec ext ma ma.source.endStatus ma.source.recs b with
      ⟨pre, r, post, hrec, hpre, hr, hloop⟩ | ⟨hall, h1, _⟩
    · have hf : mplp_func ext ma b = ((r.1 : Int), (mplp_body ext ma r.2).2, ma.advance post) := by
        simp [mplp_func, hloop]
      have hpos : ¬ ((r.1 : Int) < 0) := by omega
      rw [hf]
      simp only [hpos, if_false]
      have hlen2 : (ma.advance post).source.recs.length < k := by
        rw [(advance_source ma post).1]
        rw [hrec] at hlen
        simp at hlen
        omega
      rw [ih (ma.advance post) _ hlen2, (advance_source ma post).1, hrec]
      have hfun : (fun x => mplp_body ext (ma.advance post) x) = fun x => mplp_body ext ma x :=
        funext (fun x => mplp_body_advance ext ma post x)
      have hprefilter : (pre.map Prod.snd).filter (fun x => !(mplp_body ext ma x).1) = [] := by
        apply List.filter_eq_nil_iff.mpr
        intro x hx
        obtain ⟨y, hy, rfl⟩ := List.mem_map.mp hx
        simp [hpre y hy]
      simp only [List.map_append, List.map_cons, List.filter_append, hprefilter, List.nil_append,
        List.filter_cons, hr, Bool.not_false, if_true, mplp_body_advance]
    · have hst : (mplp_func ext ma b).1 = ma.source.endStatus := by simp [mplp_func, h1]
      have hneg : (mplp_func ext ma b).1 < 0 := by
        rw [hst]; exact Int.negSucc_lt_zero _
      simp only [hneg, if_true]
      symm
      simp only [List.map_eq_nil_iff]
      apply List.filter_eq_nil_iff.mpr
      intro x hx
      obtain ⟨y, hy, rfl⟩ := List.mem_map.mp hx
      simp [hall y hy]

theorem skip_off_is_mapped (ext : External) (ma : mplp_aux_t) (b : bam1_t)
    (hreq : ma.conf.rflag_require = 0) (hfil : ma.conf.rflag_filter = 0)
    (hbed : ma.conf.bed = none) (hrg : ma.conf.rghash = none)
    (horph : ma.conf.flag &&& MPLP_NO_ORPHAN = 0) (hmq : ma.conf.min_mq ≤ 0)
    (hcap : ma.conf.capQ_thres ≤ 10) :
    (!(mplp_body ext ma b).1) = is_mapped b := by
  have hc : ¬ ma.conf.capQ_thres > 10 := by omega
  have ht : (mplp_transform ext ma b).1 = false := by
    simp only [mplp_transform]
    generalize has_ref ma (stage_illumina13 ma.conf b) = r
    cases r <;> simp [stage_capQ, hc]
  have hm : skip_min_mq ma.conf (mplp_transform ext ma b).2 = false := by
    simp only [skip_min_mq, decide_eq_false_iff_not]
    omega
  have ho : skip_orphan ma.conf (mplp_transform ext ma b).2 = false := by
    simp [skip_orphan, horph]
  have he : skip_early ma b = skip_unmapped b := by
    simp [skip_early, skip_require, skip_filter, skip_bed, skip_rg, hreq, hfil, hbed, hrg]
  unfold mplp_body
  rw [he]
  cases hu : skip_unmapped b
  · simp only [Bool.false_eq_true, if_false, stage_final, hm, ho, ht, Bool.not_false]
    unfold skip_unmapped at hu
    unfold is_mapped
    simp only [Bool.or_eq_false_iff, decide_eq_false_iff_not, not_lt, bne_eq_false_iff_eq] at hu
    simp [hu.1, hu.2]
  · simp only [if_true, Bool.not_true]
    unfold skip_unmapped at hu
    unfold is_mapped
    simp only [Bool.or_eq_true, decide_eq_true_eq, bne_iff_ne, ne_eq] at hu
    rcases hu with hu | hu
    · have : ¬ 0 ≤ b.core.tid := by omega
      simp [this]
    · simp [hu]

/-- C14 (counterexample): with every configurable predicate disabled, the
unmapped record at the head of the source is never yielded: repeated calls give
only the mapped record, and the column at position 100 lacks the unmapped record
although its interval covers that position. -/
theorem mplp_pull_drops_unmapped :
    mplp_pull ext0 3 (aux0 conf0 [(0, rec0 4 30), (0, rec0 0 30)]) (rec0 0 0) = [rec0 0 30] ∧
    covering 0 100 (mplp_pull ext0 3 (aux0 conf0 [(0, rec0 4 30), (0, rec0 0 30)]) (rec0 0 0)) ≠
      covering 0 100 [rec0 4 30, rec0 0 30] := by
  decide

/-- C14 (amended): with every configurable predicate of the filter disabled,
repeated calls of `mplp_func` (enough of them to exhaust the source) yield, in
source order, every source record that is mapped (reference id non-negative,
unmapped flag clear), each as stages 6 and 7 leave it; with legacy encoding and
realignment off the records are yielded unchanged, so that each position's
column equals all mapped records of the source whose interval covers it. -/
theorem mplp_pull_all_mapped (ext : External) (ma : mplp_aux_t) (b0 : bam1_t) (fuel : Nat)
    (hreq : ma.conf.rflag_require = 0) (hfil : ma.conf.rflag_filter = 0)
    (hbed : ma.conf.bed = none) (hrg : ma.conf.rghash = none)
    (horph : ma.conf.flag &&& MPLP_NO_ORPHAN = 0) (hmq : ma.conf.min_mq = 0)
    (hcap : ma.conf.capQ_thres ≤ 10) (hfuel : ma.source.recs.length < fuel) :
    mplp_pull ext fuel ma b0 =
      ((ma.source.recs.map Prod.snd).filter is_mapped).map (fun r => (mplp_body ext ma r).2) ∧
    (ma.conf.flag &&& MPLP_ILLUMINA13 = 0 → ma.conf.flag &&& MPLP_REALN = 0 →
      mplp_pull ext fuel ma b0 = (ma.source.recs.map Prod.snd).filter is_mapped ∧
      ∀ tid pos : Int, covering tid pos (mplp_pull ext fuel ma b0) =
        covering tid pos ((ma.source.recs.map Prod.snd).filter is_mapped)) := by
  have hfun : (fun r => !(mplp_body ext ma r).1) = is_mapped :=
    funext (fun r => skip_off_is_mapped ext ma r hreq hfil hbed hrg horph (by omega) hcap)
  have hmain := mplp_pull_spec ext fuel ma b0 hfuel
  rw [hfun] at hmain
  refine ⟨hmain, ?_⟩
  intro h6 h7
  have heq : mplp_pull ext fuel ma b0 = (ma.source.recs.map Prod.snd).filter is_mapped := by
    rw [hmain]
    conv_rhs => rw [← List.map_id ((ma.source.recs.map Prod.snd).filter is_mapped)]
    apply List.map_congr_left
    intro r _
    simp [mplp_body_off ext ma r h6 h7 hcap]
  exact ⟨heq, fun tid pos => by rw [heq]⟩

/-- C14 (witness): the source of the counterexample, where the mapped record is
the only one yielded. -/
theorem mplp_pull_all_mapped_witness :
    mplp_pull ext0 3 (aux0 conf0 [(0, rec0 4 30), (0, rec0 0 30)]) (rec0 0 0) =
      (((aux0 conf0 [(0, rec0 4 30), (0, rec0 0 30)]).source.recs.map Prod.snd).filter
        is_mapped) :=
  ((mplp_pull_all_mapped ext0 (aux0 conf0 [(0, rec0 4 30), (0, rec0 0 30)]) (rec0 0 0) 3
    rfl rfl rfl rfl (by decide) rfl (by decide) (by decide)).2 (by decide) (by decide)).1



/-! ## Theorems: the cache fields under the prologue -/

theorem set_fp_cfp (conf : mplp_conf_t) (i j : Nat) (fp : samFile) :
    (conf.set_fp i fp).cfp j =
      if conf.filecache.isSome = true ∧ j = i then some fp else conf.cfp j := by
  unfold mplp_conf_t.set_fp mplp_conf_t.cfp mplp_conf_t.slot
  cases hc : conf.filecache with
  | none => simp
  | some c =>
    by_cases hj : j = i
    · subst hj; simp
    · simp [hj, Function.update_noteq hj]

theorem set_fp_ch (conf : mplp_conf_t) (i j : Nat) (fp : samFile) :
    (conf.set_fp i fp).ch j = conf.ch j := by
  unfold mplp_conf_t.set_fp mplp_conf_t.ch mplp_conf_t.slot
  cases hc : conf.filecache with
  | none => simp
  | some c =>
    by_cases hj : j = i
    · subst hj; simp
    · simp [hj, Function.update_noteq hj]

theorem set_fp_cidx (conf : mplp_conf_t) (i j : Nat) (fp : samFile) :
    (conf.set_fp i fp).cidx j = conf.cidx j := by
  unfold mplp_conf_t.set_fp mplp_conf_t.cidx mplp_conf_t.slot
  cases hc : conf.filecache with
  | none => simp
  | some c =>
    by_cases hj : j = i
    · subst hj; simp
    · simp [hj, Function.update_noteq hj]

theorem set_h_ch (conf : mplp_conf_t) (i j : Nat) (h : bam_hdr_t) :
    (conf.set_h i h).ch j =
      if conf.filecache.isSome = true ∧ j = i then some h else conf.ch j := by
  unfold mplp_conf_t.set_h mplp_conf_t.ch mplp_conf_t.slot
  cases hc : conf.filecache with
  | none => simp
  | some c =>
    by_cases hj : j = i
    · subst hj; simp
    · simp [hj, Function.update_noteq hj]

theorem set_h_cfp (conf : mplp_conf_t) (i j : Nat) (h : bam_hdr_t) :
    (conf.set_h i h).cfp j = conf.cfp j := by
  unfold mplp_conf_t.set_h mplp_conf_t.cfp mplp_conf_t.slot
  cases hc : conf.filecache with
  | none => simp
  | some c =>
    by_cases hj : j = i
    · subst hj; simp
    · simp [hj, Function.update_noteq hj]

theorem set_h_cidx (conf : mplp_conf_t) (i j : Nat) (h : bam_hdr_t) :
    (conf.set_h i h).cidx j = conf.cidx j := by
  unfold mplp_conf_t.set_h mplp_conf_t.cidx mplp_conf_t.slot
  cases hc : conf.filecache with
  | none => simp
  | some c =>
    by_cases hj : j = i
    · subst hj; simp
    · simp [hj, Function.update_noteq hj]

theorem set_idx_cidx (conf : mplp_conf_t) (i j : Nat) (x : Option hts_idx_t) :
    (conf.set_idx i x).cidx j =
      if conf.filecache.isSome = true ∧ j = i then x else conf.cidx j := by
  unfold mplp_conf_t.set_idx mplp_conf_t.cidx mplp_conf_t.slot
  cases hc : conf.filecache with
  | none => simp
  | some c =>
    by_cases hj : j = i
    · subst hj; simp
    · simp [hj, Function.update_noteq hj]

theorem set_idx_cfp (conf : mplp_conf_t) (i j : Nat) (x : Option hts_idx_t) :
    (conf.set_idx i x).cfp j = conf.cfp j := by
  unfold mplp_conf_t.set_idx mplp_conf_t.cfp mplp_conf_t.slot
  cases hc : conf.filecache with
  | none => simp
  | some c =>
    by_cases hj : j = i
    · subst hj; simp
    · simp [hj, Function.update_noteq hj]

theorem set_idx_ch (conf : mplp_conf_t) (i j : Nat) (x : Option hts_idx_t) :
    (conf.set_idx i x).ch j = conf.ch j := by
  unfold mplp_conf_t.set_idx mplp_conf_t.ch mplp_conf_t.slot
  cases hc : conf.filecache with
  | none => simp
  | some c =>
    by_cases hj : j = i
    · subst hj; simp
    · simp [hj, Function.update_noteq hj]

theorem set_fp_settings (conf : mplp_conf_t) (i : Nat) (fp : samFile) :
    (conf.set_fp i fp).no_cache = conf.no_cache ∧
    (conf.set_fp i fp).filecache.isSome = conf.filecache.isSome := by
  unfold mplp_conf_t.set_fp mplp_conf_t.no_cache
  cases conf.filecache <;> simp

theorem set_h_settings (conf : mplp_conf_t) (i : Nat) (h : bam_hdr_t) :
    (conf.set_h i h).no_cache = conf.no_cache ∧
    (conf.set_h i h).filecache.isSome = conf.filecache.isSome := by
  unfold mplp_conf_t.set_h mplp_conf_t.no_cache
  cases conf.filecache <;> simp

theorem set_idx_settings (conf : mplp_conf_t) (i : Nat) (x : Option hts_idx_t) :
    (conf.set_idx i x).no_cache = conf.no_cache ∧
    (conf.set_idx i x).filecache.isSome = conf.filecache.isSome := by
  unfold mplp_conf_t.set_idx mplp_conf_t.no_cache
  cases conf.filecache <;> simp

theorem no_cache_fields (c1 c2 : mplp_conf_t) (h : c1.no_cache = c2.no_cache) :
    c1.reg = c2.reg ∧ c1.flag = c2.flag ∧ c1.bed = c2.bed ∧ c1.max_depth = c2.max_depth ∧
    c1.bamcachesizemb = c2.bamcachesizemb := by
  unfold mplp_conf_t.no_cache at h
  injection h
  simp_all

theorem cfp_none_of_uncached (conf : mplp_conf_t) (j : Nat) (h : conf.filecache.isSome = false) :
    conf.cfp j = none ∧ conf.ch j = none ∧ conf.cidx j = none := by
  unfold mplp_conf_t.cfp mplp_conf_t.ch mplp_conf_t.cidx mplp_conf_t.slot
  cases hc : conf.filecache with
  | none => simp
  | some c => simp [hc] at h


theorem StepKeeps.step_refl (st : Storage) (i : Nat) (f : String) (s : Prologue) :
    StepKeeps st i f s s :=
  ⟨rfl, rfl, fun _ => Or.inl rfl, fun _ => Or.inl rfl, fun _ => Or.inl rfl,
    ⟨[], by simp, by simp⟩⟩

theorem acq_fp_stable (st : Storage) (i : Nat) (f : String) (c1 c2 : mplp_conf_t)
    (h : c2.cfp i = c1.cfp i ∨ (c1.cfp i = none ∧ c2.cfp i = st.sam_open f)) :
    acq_fp st c2 i f = acq_fp st c1 i f := by
  unfold acq_fp
  rcases h with h | ⟨h1, h2⟩
  · rw [h]
  · rw [h1, h2]
    cases st.sam_open f <;> rfl

theorem StepKeeps.step_trans {st : Storage} {i : Nat} {f : String} {a b c : Prologue}
    (h1 : StepKeeps st i f a b) (h2 : StepKeeps st i f b c) : StepKeeps st i f a c := by
  have hacq : acq_fp st b.conf i f = acq_fp st a.conf i f := by
    apply acq_fp_stable
    rcases h1.fp i with h | ⟨_, h, h'⟩
    · exact Or.inl h
    · exact Or.inr ⟨h, h'⟩
  refine ⟨h2.settings.trans h1.settings, h2.cached.trans h1.cached, ?_, ?_, ?_, ?_⟩
  · intro j
    rcases h2.fp j with e2 | ⟨hj, hn, ho⟩ <;> rcases h1.fp j with e1 | ⟨hj1, hn1, ho1⟩
    · exact Or.inl (e2.trans e1)
    · exact Or.inr ⟨hj1, hn1, e2.trans ho1⟩
    · exact Or.inr ⟨hj, e1 ▸ hn, ho⟩
    · exact Or.inr ⟨hj, hn1, ho⟩
  · intro j
    rcases h2.h j with e2 | ⟨hj, hn, ho⟩ <;> rcases h1.h j with e1 | ⟨hj1, hn1, ho1⟩
    · exact Or.inl (e2.trans e1)
    · exact Or.inr ⟨hj1, hn1, e2.trans ho1⟩
    · exact Or.inr ⟨hj, e1 ▸ hn, hacq ▸ ho⟩
    · exact Or.inr ⟨hj, hn1, hacq ▸ ho⟩
  · intro j
    rcases h2.idx j with e2 | ⟨hj, hn, ho⟩ <;> rcases h1.idx j with e1 | ⟨hj1, hn1, ho1⟩
    · exact Or.inl (e2.trans e1)
    · exact Or.inr ⟨hj1, hn1, e2.trans ho1⟩
    · exact Or.inr ⟨hj, e1 ▸ hn, ho⟩
    · exact Or.inr ⟨hj, hn1, ho⟩
  · obtain ⟨e1, ht1, hr1⟩ := h1.trace
    obtain ⟨e2, ht2, hr2⟩ := h2.trace
    refine ⟨e1 ++ e2, by rw [ht2, ht1, List.append_assoc], ?_⟩
    intro hc e he
    rcases List.mem_append.mp he with he | he
    · exact hr1 hc e he
    · exact hr2 (h1.cached ▸ hc) e he

theorem SameBuild.build_trans {a b c : Prologue} (h1 : SameBuild a b) (h2 : SameBuild b c) :
    SameBuild a c :=
  ⟨h2.data.trans h1.data, h2.h.trans h1.h, h2.hdrs.trans h1.hdrs, h2.tid0.trans h1.tid0,
    h2.beg0.trans h1.beg0, h2.end0.trans h1.end0⟩

/-- A state that differs from `s` only by more non-release events in the
trace. -/
theorem StepKeeps.of_trace (st : Storage) (i : Nat) (f : String) (s s1 : Prologue)
    (evs : List Event) (hconf : s1.conf = s.conf) (htr : s1.trace = s.trace ++ evs)
    (hrel : s.conf.filecache.isSome = true → ∀ e ∈ evs, e.is_release = false) :
    StepKeeps st i f s s1 :=
  ⟨by rw [hconf], by rw [hconf], fun _ => Or.inl (by rw [hconf]),
    fun _ => Or.inl (by rw [hconf]), fun _ => Or.inl (by rw [hconf]), ⟨evs, htr, hrel⟩⟩

theorem mpileup_fp_spec (st : Storage) (n i : Nat) (f : String) (s : Prologue) :
    (∀ fp s1, mpileup_fp st n i f s = .ok (fp, s1) →
      acq_fp st s.conf i f = some fp ∧ StepKeeps st i f s s1 ∧ SameBuild s s1) ∧
    (∀ e, mpileup_fp st n i f s = .error e →
      acq_fp st s.conf i f = none ∧ StepKeeps st i f s e ∧ SameBuild s e) := by
  unfold mpileup_fp acq_fp
  have hcfp : (s.conf.slot i).bind (fun c => c.fp) = s.conf.cfp i := rfl
  rw [hcfp]
  cases hc : s.conf.cfp i with
  | some fp0 =>
    simp only
    constructor
    · intro fp s1 h
      injection h with h
      injection h with h1 h2
      subst h1 h2
      exact ⟨rfl, StepKeeps.step_refl st i f s, ⟨rfl, rfl, rfl, rfl, rfl, rfl⟩⟩
    · intro e h
      exact absurd h (by simp)
  | none =>
    simp only
    cases ho : st.sam_open f with
    | none =>
      simp only [Prologue.exit]
      constructor
      · intro fp s1 h
        exact absurd h (by simp)
      · intro e h
        injection h with h
        subst h
        refine ⟨trivial, ?_, ⟨rfl, rfl, rfl, rfl, rfl, rfl⟩⟩
        exact StepKeeps.of_trace st i f s _ [Event.sam_open f, Event.exit] rfl
          (by simp) (by intro _ e he; simp at he; rcases he with rfl | rfl <;> rfl)
    | some fp1 =>
      simp only
      constructor
      · intro fp s1 h
        split at h
        · rename_i hcond
          injection h with h
          injection h with h1 h2
          subst h1 h2
          have hsome : s.conf.filecache.isSome = true := by
            simp only [Bool.and_eq_true] at hcond
            exact hcond.1
          refine ⟨rfl, ?_, ⟨rfl, rfl, rfl, rfl, rfl, rfl⟩⟩
          refine ⟨(set_fp_settings s.conf i fp1).1, (set_fp_settings s.conf i fp1).2, ?_, ?_, ?_,
            ⟨[Event.sam_open f, Event.bgzf_set_cache_size f s.conf.bamcachesizemb], by simp, ?_⟩⟩
          · intro j
            show (s.conf.set_fp i fp1).cfp j = _ ∨ _
            rw [set_fp_cfp]
            by_cases hj : j = i
            · right
              subst hj
              simp [hsome, hc, ho]
            · left
              simp [hj]
          · intro j
            left
            exact set_fp_ch s.conf i j fp1
          · intro j
            left
            exact set_fp_cidx s.conf i j fp1
          · intro _ e he
            simp at he
            rcases he with rfl | rfl <;> rfl
        · split at h
          · injection h with h
            injection h with h1 h2
            subst h1 h2
            refine ⟨rfl, ?_, ⟨rfl, rfl, rfl, rfl, rfl, rfl⟩⟩
            exact StepKeeps.of_trace st i f s _
              [Event.sam_open f, Event.bgzf_set_cache_size f s.conf.bamcachesizemb] rfl
              (by simp) (by intro _ e he; simp at he; rcases he with rfl | rfl <;> rfl)
          · injection h with h
            injection h with h1 h2
            subst h1 h2
            refine ⟨rfl, ?_, ⟨rfl, rfl, rfl, rfl, rfl, rfl⟩⟩
            exact StepKeeps.of_trace st i f s _ [Event.sam_open f] rfl
              (by simp) (by intro _ e he; simp at he; subst he; rfl)
      · intro e h
        split at h
        · exact absurd h (by simp)
        · split at h <;> exact absurd h (by simp)


theorem mpileup_hdr_spec (st : Storage) (i : Nat) (f : String) (fp : samFile) (s : Prologue)
    (hfp : acq_fp st s.conf i f = some fp) :
    (∀ h s1, mpileup_hdr st i f fp s = .ok (h, s1) →
      acq_hdr st s.conf i f = some h ∧ StepKeeps st i f s s1 ∧ SameBuild s s1) ∧
    (∀ e, mpileup_hdr st i f fp s = .error e →
      acq_hdr st s.conf i f = none ∧ StepKeeps st i f s e ∧ SameBuild s e) := by
  unfold mpileup_hdr acq_hdr
  have hch : (s.conf.slot i).bind (fun c => c.h) = s.conf.ch i := rfl
  rw [hch, hfp]
  cases hc : s.conf.ch i with
  | some h0 =>
    simp only
    constructor
    · intro h s1 hres
      injection hres with hres
      injection hres with h1 h2
      subst h1 h2
      exact ⟨rfl, StepKeeps.step_refl st i f s, ⟨rfl, rfl, rfl, rfl, rfl, rfl⟩⟩
    · intro e hres
      exact absurd hres (by simp)
  | none =>
    simp only [Option.bind_some]
    cases hr : st.sam_hdr_read fp with
    | none =>
      simp only [Prologue.exit]
      constructor
      · intro h s1 hres
        exact absurd hres (by simp)
      · intro e hres
        injection hres with hres
        subst hres
        refine ⟨by first | rfl | trivial, ?_, ⟨rfl, rfl, rfl, rfl, rfl, rfl⟩⟩
        exact StepKeeps.of_trace st i f s _ [Event.sam_hdr_read f, Event.exit] rfl
          (by simp) (by intro _ e he; simp at he; rcases he with rfl | rfl <;> rfl)
    | some h1 =>
      simp only
      constructor
      · intro h s1 hres
        injection hres with hres
        injection hres with e1 e2
        subst e1 e2
        refine ⟨by first | rfl | trivial, ?_, ⟨rfl, rfl, rfl, rfl, rfl, rfl⟩⟩
        refine ⟨(set_h_settings s.conf i h1).1, (set_h_settings s.conf i h1).2, ?_, ?_, ?_,
          ⟨[Event.sam_hdr_read f], by simp, ?_⟩⟩
        · intro j
          left
          exact set_h_cfp s.conf i j h1
        · intro j
          show (s.conf.set_h i h1).ch j = _ ∨ _
          rw [set_h_ch]
          by_cases hj : j = i
          · subst hj
            by_cases hsome : s.conf.filecache.isSome = true
            · right
              simp [hsome, hc, hfp, hr]
            · left
              simp [hsome]
          · left
            simp [hj]
        · intro j
          left
          exact set_h_cidx s.conf i j h1
        · intro _ e he
          simp at he
          subst he
          rfl
      · intro e hres
        exact absurd hres (by simp)

theorem mpileup_idx_spec (st : Storage) (i : Nat) (f : String) (s : Prologue) :
    (∀ x s1, mpileup_idx st i f s = .ok (x, s1) →
      acq_idx st s.conf i f = some x ∧ StepKeeps st i f s s1 ∧ SameBuild s s1) ∧
    (∀ e, mpileup_idx st i f s = .error e →
      acq_idx st s.conf i f = none ∧ StepKeeps st i f s e ∧ SameBuild s e) := by
  unfold mpileup_idx acq_idx
  have hch : (s.conf.slot i).bind (fun c => c.idx) = s.conf.cidx i := rfl
  rw [hch]
  have hk : ∀ s1 : Prologue, s1.conf = s.conf.set_idx i (st.bam_index_load f) →
      s.conf.cidx i = none →
      (∃ evs, s1.trace = s.trace ++ evs ∧
        (s.conf.filecache.isSome = true → ∀ e ∈ evs, e.is_release = false)) →
      StepKeeps st i f s s1 := by
    intro s1 hconf hnone htr
    refine ⟨by rw [hconf]; exact (set_idx_settings s.conf i _).1,
      by rw [hconf]; exact (set_idx_settings s.conf i _).2, ?_, ?_, ?_, htr⟩
    · intro j
      left
      rw [hconf]
      exact set_idx_cfp s.conf i j _
    · intro j
      left
      rw [hconf]
      exact set_idx_ch s.conf i j _
    · intro j
      rw [hconf, set_idx_cidx]
      by_cases hj : j = i
      · subst hj
        by_cases hsome : s.conf.filecache.isSome = true
        · right
          simp [hsome, hnone]
        · left
          simp [hsome]
      · left
        simp [hj]
  cases hc : s.conf.cidx i with
  | some x0 =>
    simp only
    constructor
    · intro x s1 hres
      injection hres with hres
      injection hres with h1 h2
      subst h1 h2
      exact ⟨rfl, StepKeeps.step_refl st i f s, ⟨rfl, rfl, rfl, rfl, rfl, rfl⟩⟩
    · intro e hres
      exact absurd hres (by simp)
  | none =>
    simp only
    cases hl : st.bam_index_load f with
    | none =>
      simp only [Prologue.exit]
      constructor
      · intro x s1 hres
        exact absurd hres (by simp)
      · intro e hres
        injection hres with hres
        subst hres
        refine ⟨by first | rfl | trivial, ?_, ⟨rfl, rfl, rfl, rfl, rfl, rfl⟩⟩
        apply hk _ (by simp [hl]) hc
        exact ⟨[Event.bam_index_load f, Event.exit], by simp,
          by intro _ e he; simp at he; rcases he with rfl | rfl <;> rfl⟩
    | some x1 =>
      simp only
      constructor
      · intro x s1 hres
        injection hres with hres
        injection hres with e1 e2
        subst e1 e2
        refine ⟨rfl, ?_, ⟨rfl, rfl, rfl, rfl, rfl, rfl⟩⟩
        apply hk _ (by simp [hl]) hc
        exact ⟨[Event.bam_index_load f], by simp,
          by intro _ e he; simp at he; subst he; rfl⟩
      · intro e hres
        exact absurd hres (by simp)


theorem StepKeeps.acq_hdr_stable {st : Storage} {i : Nat} {f : String} {a b : Prologue}
    (h : StepKeeps st i f a b) : acq_fp st b.conf i f = acq_fp st a.conf i f := by
  apply acq_fp_stable
  rcases h.fp i with h1 | ⟨_, h1, h2⟩
  · exact Or.inl h1
  · exact Or.inr ⟨h1, h2⟩

theorem acq_idx_after (st : Storage) (i : Nat) (f : String) (a b : Prologue)
    (h : StepKeeps st i f a b) : acq_idx st b.conf i f = acq_idx st a.conf i f := by
  unfold acq_idx
  rcases h.idx i with h1 | ⟨_, h1, h2⟩
  · rw [h1]
  · rw [h1, h2]
    cases st.bam_index_load f <;> rfl

theorem acq_hdr_after (st : Storage) (i : Nat) (f : String) (a b : Prologue)
    (h : StepKeeps st i f a b) : acq_hdr st b.conf i f = acq_hdr st a.conf i f := by
  unfold acq_hdr
  rw [h.acq_hdr_stable]
  rcases h.h i with h1 | ⟨_, h1, h2⟩
  · rw [h1]
  · rw [h1, h2]
    cases (acq_fp st a.conf i f).bind st.sam_hdr_read <;> rfl

/-- The region part of a round: on return the iterator is what the acquired
index resolves, the region of the first file is recorded, and nothing else of
the build changes. -/
theorem mpileup_region_spec (st : Storage) (i : Nat) (f : String) (h : bam_hdr_t)
    (s : Prologue) :
    (∀ it s1, mpileup_region st i f h s = .ok (it, s1) →
      StepKeeps st i f s s1 ∧ s1.data = s.data ∧ s1.h = s.h ∧ s1.hdrs = s.hdrs ∧
      (s.conf.reg = none → it = none) ∧
      (∀ reg, s.conf.reg = some reg → ∃ idx x, acq_idx st s.conf i f = some idx ∧
           st.sam_itr_querys idx h reg = some x ∧ it = some x) ∧
      (s1.tid0, s1.beg0, s1.end0) = region_after i it (s.tid0, s.beg0, s.end0)) ∧
    (∀ e, mpileup_region st i f h s = .error e →
      StepKeeps st i f s e ∧
      ∃ reg, s.conf.reg = some reg ∧
        (acq_idx st s.conf i f = none ∨
          ∃ idx, acq_idx st s.conf i f = some idx ∧ st.sam_itr_querys idx h reg = none)) := by
  unfold mpileup_region
  cases hreg : s.conf.reg with
  | none =>
    simp only
    constructor
    · intro it s1 hres
      injection hres with hres
      injection hres with h1 h2
      subst h1 h2
      exact ⟨StepKeeps.step_refl st i f s, rfl, rfl, rfl, fun _ => rfl,
        fun reg h => absurd h (by simp), rfl⟩
    · intro e hres
      exact absurd hres (by simp)
  | some reg =>
    simp only
    obtain ⟨hok, herr⟩ := mpileup_idx_spec st i f s
    cases hidx : mpileup_idx st i f s with
    | error e0 =>
      simp only
      obtain ⟨hnone, hk, _⟩ := herr e0 hidx
      constructor
      · intro it s1 hres
        exact absurd hres (by simp)
      · intro e hres
        injection hres with hres
        subst hres
        exact ⟨hk, reg, rfl, Or.inl hnone⟩
    | ok p =>
      obtain ⟨idx, s1⟩ := p
      simp only
      obtain ⟨hsome, hk, hb⟩ := hok idx s1 hidx
      cases hq : st.sam_itr_querys idx h reg with
      | none =>
        simp only [Prologue.exit]
        constructor
        · intro it s2 hres
          exact absurd hres (by simp)
        · intro e hres
          injection hres with hres
          subst hres
          refine ⟨hk.step_trans ?_, reg, rfl, Or.inr ⟨idx, hsome, hq⟩⟩
          exact StepKeeps.of_trace st i f s1 _ [Event.exit] rfl (by simp)
            (by intro _ e he; simp at he; subst he; rfl)
      | some x =>
        simp only
        constructor
        · intro it s2 hres
          injection hres with hres
          injection hres with h1 h2
          subst h1
          have hcached : s1.conf.filecache.isSome = s.conf.filecache.isSome := hk.cached
          have hreg' : ∀ idx x, acq_idx st s.conf i f = some idx →
              st.sam_itr_querys idx h reg = some x →
              ∀ reg', some reg = some reg' → ∃ idx x', acq_idx st s.conf i f = some idx ∧
                st.sam_itr_querys idx h reg' = some x' ∧ some x = some x' := by
            intro idx x h1 h2 reg' hr
            injection hr with hr
            subst hr
            exact ⟨idx, x, h1, h2, rfl⟩
          by_cases h0 : i = 0
          · by_cases hc : s1.conf.filecache.isSome = true
            · simp only [h0, if_true, hc] at h2
              subst h2
              refine ⟨?_, hb.data, hb.h, hb.hdrs, fun h => absurd h (by simp), hreg' idx x hsome hq, by simp [region_after, h0]⟩
              refine ⟨hk.settings, hk.cached, hk.fp, hk.h, hk.idx, hk.trace⟩
            · simp only [h0, if_true, hc] at h2
              subst h2
              refine ⟨?_, hb.data, hb.h, hb.hdrs, fun h => absurd h (by simp), hreg' idx x hsome hq, by simp [region_after, h0]⟩
              obtain ⟨evs, htr, hrel⟩ := hk.trace
              refine ⟨hk.settings, hk.cached, hk.fp, hk.h, hk.idx,
                ⟨evs ++ [Event.hts_idx_destroy f], by simp [htr], ?_⟩⟩
              intro hs
              rw [← hcached] at hs
              exact absurd hs hc
          · by_cases hc : s1.conf.filecache.isSome = true
            · simp only [h0, if_false, hc, if_true] at h2
              subst h2
              exact ⟨hk, hb.data, hb.h, hb.hdrs, fun h => absurd h (by simp), hreg' idx x hsome hq,
                by simp [region_after, h0, hb.tid0, hb.beg0, hb.end0]⟩
            · simp only [h0, if_false, hc] at h2
              subst h2
              refine ⟨?_, hb.data, hb.h, hb.hdrs, fun h => absurd h (by simp), hreg' idx x hsome hq,
                by simp [region_after, h0, hb.tid0, hb.beg0, hb.end0]⟩
              obtain ⟨evs, htr, hrel⟩ := hk.trace
              refine ⟨hk.settings, hk.cached, hk.fp, hk.h, hk.idx,
                ⟨evs ++ [Event.hts_idx_destroy f], by simp [htr], ?_⟩⟩
              intro hs
              rw [← hcached] at hs
              exact absurd hs hc
        · intro e hres
          exact absurd hres (by simp)


theorem StepKeeps.more_trace {st : Storage} {i : Nat} {f : String} {a b c : Prologue}
    (h : StepKeeps st i f a b) (evs : List Event) (hconf : c.conf = b.conf)
    (htr : c.trace = b.trace ++ evs)
    (hrel : a.conf.filecache.isSome = true → ∀ e ∈ evs, e.is_release = false) :
    StepKeeps st i f a c :=
  h.step_trans (StepKeeps.of_trace st i f b c evs hconf htr (fun hc => hrel (h.cached ▸ hc)))

/-- One round of the prologue loop: what it keeps, and what it builds from the
acquired handle, header and iterator when it returns; when it ends the run the
file could not be acquired. -/
theorem mpileup_file_spec (st : Storage) (n i : Nat) (f : String) (s : Prologue) :
    (∀ s', mpileup_file st n i f s = .ok s' →
      StepKeeps st i f s s' ∧
      ∃ fp h_tmp it, acq_fp st s.conf i f = some fp ∧ acq_hdr st s.conf i f = some h_tmp ∧
        (s.conf.reg = none → it = none) ∧
        (∀ reg, s.conf.reg = some reg → ∃ idx x, acq_idx st s.conf i f = some idx ∧
             st.sam_itr_querys idx (data_hdr s.h i h_tmp) reg = some x ∧ it = some x) ∧
        s'.data.map mplp_aux_t.no_cache = s.data.map mplp_aux_t.no_cache ++
          [{ fp := fp, iter := it, h := data_hdr s.h i h_tmp, ref_id := 0, ref := none,
             conf := s.conf.no_cache }] ∧
        s'.hdrs = s.hdrs ++ [h_tmp] ∧
        s'.h = (if i = 0 then some h_tmp else s.h) ∧
        (s'.tid0, s'.beg0, s'.end0) = region_after i it (s.tid0, s.beg0, s.end0)) ∧
    (∀ e, mpileup_file st n i f s = .error e →
      StepKeeps st i f s e ∧ file_acquired st s.conf s.h i f = false) := by
  unfold mpileup_file
  obtain ⟨hfok, hferr⟩ := mpileup_fp_spec st n i f s
  cases hfp : mpileup_fp st n i f s with
  | error e0 =>
    simp only
    obtain ⟨hnone, hk, _⟩ := hferr e0 hfp
    constructor
    · intro s' hres
      exact absurd hres (by simp)
    · intro e hres
      injection hres with hres
      subst hres
      exact ⟨hk, by simp [file_acquired, hnone]⟩
  | ok p1 =>
    obtain ⟨fp, s1⟩ := p1
    simp only
    obtain ⟨hafp, hk1, hb1⟩ := hfok fp s1 hfp
    have hafp1 : acq_fp st s1.conf i f = some fp := by rw [hk1.acq_hdr_stable, hafp]
    obtain ⟨hhok, hherr⟩ := mpileup_hdr_spec st i f fp s1 hafp1
    cases hhd : mpileup_hdr st i f fp s1 with
    | error e0 =>
      simp only
      obtain ⟨hnone, hk, _⟩ := hherr e0 hhd
      constructor
      · intro s' hres
        exact absurd hres (by simp)
      · intro e hres
        injection hres with hres
        subst hres
        rw [acq_hdr_after st i f s s1 hk1] at hnone
        exact ⟨hk1.step_trans hk, by simp [file_acquired, hnone]⟩
    | ok p2 =>
      obtain ⟨h_tmp, s2⟩ := p2
      simp only
      obtain ⟨hahd, hk2, hb2⟩ := hhok h_tmp s2 hhd
      rw [acq_hdr_after st i f s s1 hk1] at hahd
      have hk12 := hk1.step_trans hk2
      have hb12 := hb1.build_trans hb2
      have hh : (if i = 0 then h_tmp else s2.h.getD h_tmp) = data_hdr s.h i h_tmp := by
        simp [data_hdr, hb12.h]
      simp only [hh]
      have hreg2 : s2.conf.reg = s.conf.reg := (no_cache_fields _ _ hk12.settings).1
      obtain ⟨hrok, hrerr⟩ := mpileup_region_spec st i f (data_hdr s.h i h_tmp) s2
      cases hrg : mpileup_region st i f (data_hdr s.h i h_tmp) s2 with
      | error e0 =>
        simp only
        obtain ⟨hk, reg, hreg, hbad⟩ := hrerr e0 hrg
        rw [acq_idx_after st i f s s2 hk12] at hbad
        rw [hreg2] at hreg
        constructor
        · intro s' hres
          exact absurd hres (by simp)
        · intro e hres
          injection hres with hres
          subst hres
          refine ⟨hk12.step_trans hk, ?_⟩
          rcases hbad with hbad | ⟨idx, hidx, hq⟩
          · simp [file_acquired, acq_iter, hreg, hbad]
          · simp [file_acquired, acq_iter, hreg, hidx, hahd, hq]
      | ok p3 =>
        obtain ⟨it, s3⟩ := p3
        simp only
        obtain ⟨hk3, hd3, hh3, hhdrs3, hit0, hit, htid⟩ := hrok it s3 hrg
        rw [acq_idx_after st i f s s2 hk12, hreg2] at hit
        rw [hreg2] at hit0
        have hk123 := hk12.step_trans hk3
        have hdata : s3.data = s.data := hd3.trans hb12.data
        have hhdrs : s3.hdrs = s.hdrs := hhdrs3.trans hb12.hdrs
        have hs3h : s3.h = s.h := hh3.trans hb12.h
        have htid' : (s3.tid0, s3.beg0, s3.end0) =
            region_after i it (s.tid0, s.beg0, s.end0) := by
          rw [htid, hb12.tid0, hb12.beg0, hb12.end0]
        have haux : mplp_aux_t.no_cache
            { fp := fp, iter := it, h := data_hdr s.h i h_tmp, ref_id := 0, ref := none,
              conf := s3.conf } =
            { fp := fp, iter := it, h := data_hdr s.h i h_tmp, ref_id := 0, ref := none,
              conf := s.conf.no_cache } := by
          simp [mplp_aux_t.no_cache, hk123.settings]
        constructor
        · intro s' hres
          by_cases h0 : i = 0
          · simp only [if_pos h0] at hres
            injection hres with hres
            subst hres
            refine ⟨?_, fp, h_tmp, it, hafp, hahd, hit0, hit, ?_, ?_, ?_, ?_⟩
            · exact ⟨hk123.settings, hk123.cached, hk123.fp, hk123.h, hk123.idx, hk123.trace⟩
            · simp [hdata, haux]
            · simp [hhdrs]
            · simp [h0]
            · exact htid'
          · by_cases hc : s3.conf.filecache.isSome = true
            · simp only [h0, if_false, hc, if_true] at hres
              injection hres with hres
              subst hres
              refine ⟨?_, fp, h_tmp, it, hafp, hahd, hit0, hit, ?_, ?_, ?_, ?_⟩
              · exact ⟨hk123.settings, hk123.cached, hk123.fp, hk123.h, hk123.idx, hk123.trace⟩
              · simp [hdata, haux]
              · simp [hhdrs]
              · simp [h0, hs3h]
              · exact htid'
            · simp only [h0, if_false, hc] at hres
              injection hres with hres
              subst hres
              refine ⟨?_, fp, h_tmp, it, hafp, hahd, hit0, hit, ?_, ?_, ?_, ?_⟩
              · refine StepKeeps.more_trace hk123 [Event.bam_hdr_destroy f] ?_ ?_ ?_
                · rfl
                · rfl
                intro hs
                rw [← hk123.cached] at hs
                exact absurd hs hc
              · simp [hdata, haux]
              · simp [hhdrs]
              · simp [h0, hs3h]
              · exact htid'
        · intro e hres
          by_cases h0 : i = 0
          · simp only [h0, if_true] at hres
            exact absurd hres (by simp)
          · by_cases hc : s3.conf.filecache.isSome = true
            · simp only [h0, if_false, hc, if_true] at hres
              exact absurd hres (by simp)
            · simp only [h0, if_false, hc] at hres
              exact absurd hres (by simp)


/-! ## Theorems: the prologue loop -/

theorem LoopKeeps.loop_refl (st : Storage) (name : Nat → Option String) (s : Prologue) :
    LoopKeeps st name s s :=
  ⟨rfl, rfl, fun _ => Or.inl rfl, fun _ => Or.inl rfl, fun _ => Or.inl rfl,
    ⟨[], by simp, by simp⟩⟩

theorem LoopKeeps.of_step {st : Storage} {name : Nat → Option String} {i : Nat} {f : String}
    {s s1 : Prologue} (h : StepKeeps st i f s s1) (hname : name i = some f) :
    LoopKeeps st name s s1 := by
  refine ⟨h.settings, h.cached, ?_, ?_, ?_, h.trace⟩
  · intro j
    rcases h.fp j with e | ⟨hj, hn, ho⟩
    · exact Or.inl e
    · exact Or.inr ⟨hn, f, hj ▸ hname, ho⟩
  · intro j
    rcases h.h j with e | ⟨hj, hn, ho⟩
    · exact Or.inl e
    · subst hj
      exact Or.inr ⟨hn, f, hname, ho⟩
  · intro j
    rcases h.idx j with e | ⟨hj, hn, ho⟩
    · exact Or.inl e
    · exact Or.inr ⟨hn, f, hj ▸ hname, ho⟩

theorem LoopKeeps.mono {st : Storage} {name name' : Nat → Option String} {s s1 : Prologue}
    (h : LoopKeeps st name s s1) (hn : ∀ j f, name j = some f → name' j = some f) :
    LoopKeeps st name' s s1 := by
  refine ⟨h.settings, h.cached, ?_, ?_, ?_, h.trace⟩
  · intro j
    rcases h.fp j with e | ⟨h1, f, h2, h3⟩
    · exact Or.inl e
    · exact Or.inr ⟨h1, f, hn j f h2, h3⟩
  · intro j
    rcases h.h j with e | ⟨h1, f, h2, h3⟩
    · exact Or.inl e
    · exact Or.inr ⟨h1, f, hn j f h2, h3⟩
  · intro j
    rcases h.idx j with e | ⟨h1, f, h2, h3⟩
    · exact Or.inl e
    · exact Or.inr ⟨h1, f, hn j f h2, h3⟩

theorem LoopKeeps.acq_fp_eq {st : Storage} {name : Nat → Option String} {a b : Prologue}
    (h : LoopKeeps st name a b) (j : Nat) (f : String) (hname : name j = some f) :
    acq_fp st b.conf j f = acq_fp st a.conf j f := by
  apply acq_fp_stable
  rcases h.fp j with e | ⟨h1, g, h2, h3⟩
  · exact Or.inl e
  · rw [hname] at h2
    injection h2 with h2
    subst h2
    exact Or.inr ⟨h1, h3⟩

theorem LoopKeeps.loop_trans {st : Storage} {name : Nat → Option String} {a b c : Prologue}
    (h1 : LoopKeeps st name a b) (h2 : LoopKeeps st name b c) : LoopKeeps st name a c := by
  refine ⟨h2.settings.trans h1.settings, h2.cached.trans h1.cached, ?_, ?_, ?_, ?_⟩
  · intro j
    rcases h2.fp j with e2 | ⟨hn, f, hf, ho⟩ <;> rcases h1.fp j with e1 | ⟨hn1, f1, hf1, ho1⟩
    · exact Or.inl (e2.trans e1)
    · exact Or.inr ⟨hn1, f1, hf1, e2.trans ho1⟩
    · exact Or.inr ⟨e1 ▸ hn, f, hf, ho⟩
    · exact Or.inr ⟨hn1, f, hf, ho⟩
  · intro j
    rcases h2.h j with e2 | ⟨hn, f, hf, ho⟩ <;> rcases h1.h j with e1 | ⟨hn1, f1, hf1, ho1⟩
    · exact Or.inl (e2.trans e1)
    · exact Or.inr ⟨hn1, f1, hf1, e2.trans ho1⟩
    · exact Or.inr ⟨e1 ▸ hn, f, hf, (h1.acq_fp_eq j f hf) ▸ ho⟩
    · exact Or.inr ⟨hn1, f, hf, (h1.acq_fp_eq j f hf) ▸ ho⟩
  · intro j
    rcases h2.idx j with e2 | ⟨hn, f, hf, ho⟩ <;> rcases h1.idx j with e1 | ⟨hn1, f1, hf1, ho1⟩
    · exact Or.inl (e2.trans e1)
    · exact Or.inr ⟨hn1, f1, hf1, e2.trans ho1⟩
    · exact Or.inr ⟨e1 ▸ hn, f, hf, ho⟩
    · exact Or.inr ⟨hn1, f, hf, ho⟩
  · obtain ⟨e1, ht1, hr1⟩ := h1.trace
    obtain ⟨e2, ht2, hr2⟩ := h2.trace
    refine ⟨e1 ++ e2, by rw [ht2, ht1, List.append_assoc], ?_⟩
    intro hc e he
    rcases List.mem_append.mp he with he | he
    · exact hr1 hc e he
    · exact hr2 (h1.cached ▸ hc) e he

theorem slot_file_head (i : Nat) (f : String) (fs : List String) :
    slot_file i (f :: fs) i = some f := by
  simp [slot_file]

theorem slot_file_tail (i : Nat) (f : String) (fs : List String) (j : Nat) (g : String)
    (h : slot_file (i + 1) fs j = some g) : slot_file i (f :: fs) j = some g := by
  unfold slot_file at h ⊢
  by_cases hj : i + 1 ≤ j
  · have hi : i ≤ j := by omega
    simp only [hj, if_true] at h
    simp only [hi, if_true]
    have : j - i = (j - (i + 1)) + 1 := by omega
    rw [this, List.getElem?_cons_succ]
    exact h
  · simp [hj] at h

theorem mpileup_file_keeps (st : Storage) (n i : Nat) (f : String) (s : Prologue) :
    StepKeeps st i f s (Prologue.final (mpileup_file st n i f s)) := by
  cases h : mpileup_file st n i f s with
  | ok s1 => exact ((mpileup_file_spec st n i f s).1 s1 h).1
  | error e => exact ((mpileup_file_spec st n i f s).2 e h).1

theorem mpileup_files_keeps (st : Storage) (n : Nat) :
    ∀ (fs : List String) (i : Nat) (s : Prologue),
      LoopKeeps st (slot_file i fs) s (Prologue.final (mpileup_files st n i fs s)) := by
  intro fs
  induction fs with
  | nil => intro i s; exact LoopKeeps.loop_refl st _ s
  | cons f fs ih =>
    intro i s
    have hstep := mpileup_file_keeps st n i f s
    unfold mpileup_files
    cases h : mpileup_file st n i f s with
    | error e =>
      rw [h] at hstep
      exact LoopKeeps.of_step hstep (slot_file_head i f fs)
    | ok s1 =>
      rw [h] at hstep
      simp only
      exact (LoopKeeps.of_step hstep (slot_file_head i f fs)).loop_trans
        ((ih (i + 1) s1).mono (fun j g hg => slot_file_tail i f fs j g hg))

theorem slot_file_zero (fn : List String) (j : Nat) : slot_file 0 fn j = fn[j]? := by
  simp [slot_file]

/-- The prologue as a whole keeps the settings and the presence of a cache,
fills empty cache fields only with what the storage gives for the file of the
slot, and with a cache releases nothing. -/
theorem mpileup_prologue_keeps (st : Storage) (conf : mplp_conf_t) (fn : List String) :
    (Prologue.final (mpileup_prologue st conf fn)).conf.no_cache = conf.no_cache ∧
    (Prologue.final (mpileup_prologue st conf fn)).conf.filecache.isSome =
      conf.filecache.isSome ∧
    (∀ j, (Prologue.final (mpileup_prologue st conf fn)).conf.cfp j = conf.cfp j ∨
      (conf.cfp j = none ∧ ∃ f, fn[j]? = some f ∧
        (Prologue.final (mpileup_prologue st conf fn)).conf.cfp j = st.sam_open f)) ∧
    (∀ j, (Prologue.final (mpileup_prologue st conf fn)).conf.ch j = conf.ch j ∨
      (conf.ch j = none ∧ ∃ f, fn[j]? = some f ∧
        (Prologue.final (mpileup_prologue st conf fn)).conf.ch j =
          (acq_fp st conf j f).bind st.sam_hdr_read)) ∧
    (∀ j, (Prologue.final (mpileup_prologue st conf fn)).conf.cidx j = conf.cidx j ∨
      (conf.cidx j = none ∧ ∃ f, fn[j]? = some f ∧
        (Prologue.final (mpileup_prologue st conf fn)).conf.cidx j = st.bam_index_load f)) ∧
    (conf.filecache.isSome = true →
      ∀ e ∈ (Prologue.final (mpileup_prologue st conf fn)).trace, e.is_release = false) := by
  unfold mpileup_prologue
  by_cases hn : fn.length = 0
  · rw [if_pos hn]
    refine ⟨rfl, rfl, fun _ => Or.inl rfl, fun _ => Or.inl rfl, fun _ => Or.inl rfl, ?_⟩
    intro _ e he
    simp only [Prologue.exit, Prologue.final, List.nil_append, List.mem_singleton] at he
    subst he
    rfl
  · rw [if_neg hn]
    have hk := mpileup_files_keeps st fn.length fn 0
      { conf := conf, data := [], h := none, hdrs := [], tid0 := -1, beg0 := 0, end0 := 2 ^ 29,
        trace := [] }
    refine ⟨hk.settings, hk.cached, ?_, ?_, ?_, ?_⟩
    · intro j
      rcases hk.fp j with e | ⟨h1, f, h2, h3⟩
      · exact Or.inl e
      · exact Or.inr ⟨h1, f, by rwa [slot_file_zero] at h2, h3⟩
    · intro j
      rcases hk.h j with e | ⟨h1, f, h2, h3⟩
      · exact Or.inl e
      · exact Or.inr ⟨h1, f, by rwa [slot_file_zero] at h2, h3⟩
    · intro j
      rcases hk.idx j with e | ⟨h1, f, h2, h3⟩
      · exact Or.inl e
      · exact Or.inr ⟨h1, f, by rwa [slot_file_zero] at h2, h3⟩
    · intro hc e he
      obtain ⟨evs, htr, hrel⟩ := hk.trace
      rw [htr] at he
      simp only [List.nil_append] at he
      exact hrel hc e he



/-! ## Theorems: the cache across calls -/

theorem mpileup_conf_trace (st : Storage) (eng : Engine)
    (smpl : List (String × Option String) → bam_sample_t) (out_ok : Bool)
    (conf : mplp_conf_t) (fn : List String) :
    (mpileup st eng smpl out_ok conf fn).conf =
      (Prologue.final (mpileup_prologue st conf fn)).conf ∧
    ∃ evs, (mpileup st eng smpl out_ok conf fn).trace =
        (Prologue.final (mpileup_prologue st conf fn)).trace ++ evs ∧
      (conf.filecache.isSome = true → ∀ e ∈ evs, e.is_release = false) := by
  have hcached := (mpileup_prologue_keeps st conf fn).2.1
  unfold mpileup
  cases hp : mpileup_prologue st conf fn with
  | error e => exact ⟨rfl, [], by simp [Prologue.final], by simp⟩
  | ok s =>
    rw [hp] at hcached
    simp only [Prologue.final] at hcached ⊢
    unfold mpileup_body
    have hexit : ∀ e ∈ [Event.exit], e.is_release = false := by
      intro e he
      simp at he
      subst he
      rfl
    split
    · exact ⟨rfl, [Event.exit], rfl, fun _ => hexit⟩
    · split
      · exact ⟨rfl, [Event.exit], rfl, fun _ => hexit⟩
      · refine ⟨rfl, mpileup_cleanup s.conf fn, rfl, ?_⟩
        intro hc
        simp [mpileup_cleanup, hcached, hc]

theorem cache_extends_refl (c : mplp_conf_t) : cache_extends c c :=
  ⟨fun _ _ h => h, fun _ _ h => h, fun _ _ h => h⟩

theorem cache_extends_trans {a b c : mplp_conf_t} (h1 : cache_extends a b)
    (h2 : cache_extends b c) : cache_extends a c :=
  ⟨fun j x h => h2.1 j x (h1.1 j x h), fun j x h => h2.2.1 j x (h1.2.1 j x h),
    fun j x h => h2.2.2 j x (h1.2.2 j x h)⟩

theorem mpileup_cache_extends (st : Storage) (eng : Engine)
    (smpl : List (String × Option String) → bam_sample_t) (out_ok : Bool)
    (conf : mplp_conf_t) (fn : List String) :
    cache_extends conf (mpileup st eng smpl out_ok conf fn).conf ∧
    (mpileup st eng smpl out_ok conf fn).conf.no_cache = conf.no_cache ∧
    (mpileup st eng smpl out_ok conf fn).conf.filecache.isSome = conf.filecache.isSome ∧
    (conf.filecache.isSome = true →
      ∀ e ∈ (mpileup st eng smpl out_ok conf fn).trace, e.is_release = false) := by
  obtain ⟨hconf, evs, htr, hrel⟩ := mpileup_conf_trace st eng smpl out_ok conf fn
  obtain ⟨hs, hc, hfp, hh, hidx, hpro⟩ := mpileup_prologue_keeps st conf fn
  rw [hconf]
  refine ⟨⟨?_, ?_, ?_⟩, hs, hc, ?_⟩
  · intro j x hx
    rcases hfp j with e | ⟨hn, _⟩
    · rw [e]; exact hx
    · rw [hn] at hx; exact absurd hx (by simp)
  · intro j x hx
    rcases hh j with e | ⟨hn, _⟩
    · rw [e]; exact hx
    · rw [hn] at hx; exact absurd hx (by simp)
  · intro j x hx
    rcases hidx j with e | ⟨hn, _⟩
    · rw [e]; exact hx
    · rw [hn] at hx; exact absurd hx (by simp)
  · intro hcache e he
    rw [htr] at he
    rcases List.mem_append.mp he with he | he
    · exact hpro hcache e he
    · exact hrel hcache e he

theorem bam_mpileup_regions_extends (st : Storage) (eng : Engine)
    (smpl : List (String × Option String) → bam_sample_t) (out_ok : Bool) (fn : List String) :
    ∀ (regs : List String) (conf : mplp_conf_t),
      ∀ c ∈ bam_mpileup_regions st eng smpl out_ok fn conf regs,
        cache_extends conf c.2.conf ∧
        c.2.conf.filecache.isSome = conf.filecache.isSome ∧
        (conf.filecache.isSome = true → ∀ e ∈ c.2.trace, e.is_release = false) := by
  intro regs
  induction regs with
  | nil => intro conf c hc; simp [bam_mpileup_regions] at hc
  | cons r rs ih =>
    intro conf c hc
    obtain ⟨hext, _, hsome, hrel⟩ :=
      mpileup_cache_extends st eng smpl out_ok (conf.set_reg r) fn
    have hext' : cache_extends conf (mpileup st eng smpl out_ok (conf.set_reg r) fn).conf :=
      hext
    have hsome' : (mpileup st eng smpl out_ok (conf.set_reg r) fn).conf.filecache.isSome
        = conf.filecache.isSome := hsome
    unfold bam_mpileup_regions at hc
    split at hc
    · simp only [List.mem_singleton] at hc
      subst hc
      exact ⟨hext', hsome', hrel⟩
    · rcases List.mem_cons.mp hc with hc | hc
      · subst hc
        exact ⟨hext', hsome', hrel⟩
      · obtain ⟨h1, h2, h3⟩ := ih _ c hc
        exact ⟨cache_extends_trans hext' h1, h2.trans hsome', fun hcache => h3 (hsome' ▸ hcache)⟩

/-- C18: cache entries are append-only. A call of `mpileup` leaves every
non-null handle, header and index of every slot as it was, and with a cache in
use it performs no `sam_close`, `bam_hdr_destroy` or `hts_idx_destroy`; the same
holds after every call of a sequence of calls over a region list. -/
theorem cache_append_only (st : Storage) (eng : Engine)
    (smpl : List (String × Option String) → bam_sample_t) (out_ok : Bool)
    (conf : mplp_conf_t) (fn : List String) (regs : List String) :
    (∀ j x, conf.cfp j = some x → (mpileup st eng smpl out_ok conf fn).conf.cfp j = some x) ∧
    (∀ j x, conf.ch j = some x → (mpileup st eng smpl out_ok conf fn).conf.ch j = some x) ∧
    (∀ j x, conf.cidx j = some x → (mpileup st eng smpl out_ok conf fn).conf.cidx j = some x) ∧
    (conf.filecache.isSome = true →
      ∀ e ∈ (mpileup st eng smpl out_ok conf fn).trace, e.is_release = false) ∧
    (∀ c ∈ bam_mpileup_regions st eng smpl out_ok fn conf regs,
      (∀ j x, conf.cfp j = some x → c.2.conf.cfp j = some x) ∧
      (∀ j x, conf.ch j = some x → c.2.conf.ch j = some x) ∧
      (∀ j x, conf.cidx j = some x → c.2.conf.cidx j = some x) ∧
      (conf.filecache.isSome = true → ∀ e ∈ c.2.trace, e.is_release = false)) := by
  obtain ⟨hext, _, _, hrel⟩ := mpileup_cache_extends st eng smpl out_ok conf fn
  refine ⟨hext.1, hext.2.1, hext.2.2, hrel, ?_⟩
  intro c hc
  obtain ⟨h1, _, h3⟩ := bam_mpileup_regions_extends st eng smpl out_ok fn regs conf c hc
  exact ⟨h1.1, h1.2.1, h1.2.2, h3⟩


/-! ## Theorems: the position loop -/

theorem mpileup_column_site (conf : mplp_conf_t) (sm : bam_sample_t) (fn : List String)
    (g g1 : mplp_pileup_t) (c : Column) (o : Output)
    (h : mpileup_column conf sm fn g c = some (g1, o)) : o.site = some c.site := by
  unfold mpileup_column at h
  split at h
  · split at h
    · exact absurd h (by simp)
    · injection h with h
      injection h with _ h2
      subst h2
      rfl
  · injection h with h
    injection h with _ h2
    subst h2
    rfl

theorem mpileup_loop_sites (conf : mplp_conf_t) (sm : bam_sample_t) (fn : List String)
    (h : bam_hdr_t) (beg0 end0 : Int) :
    ∀ (cols : List Column) (g : mplp_pileup_t),
      ((mpileup_loop conf sm fn h beg0 end0 g cols).1.filterMap Output.site) <+:
        ((cols.filter (column_kept conf h beg0 end0)).map Column.site) ∧
      ((mpileup_loop conf sm fn h beg0 end0 g cols).2 = false →
        (mpileup_loop conf sm fn h beg0 end0 g cols).1.filterMap Output.site =
          (cols.filter (column_kept conf h beg0 end0)).map Column.site) := by
  intro cols
  induction cols with
  | nil => intro g; simp [mpileup_loop]
  | cons c cs ih =>
    intro g
    unfold mpileup_loop
    by_cases hr : out_of_region conf beg0 end0 c = true
    · have hk : column_kept conf h beg0 end0 c = false := by simp [column_kept, hr]
      simp only [hr, if_true, List.filter_cons, hk, Bool.false_eq_true, if_false]
      exact ih g
    · by_cases hb : out_of_bed conf h c = true
      · have hk : column_kept conf h beg0 end0 c = false := by simp [column_kept, hb]
        simp only [hr, hb, if_true, if_false, List.filter_cons, hk, Bool.false_eq_true]
        exact ih g
      · simp only [Bool.not_eq_true] at hr hb
        have hk : column_kept conf h beg0 end0 c = true := by
          simp [column_kept, hr, hb]
        simp only [hr, hb, Bool.false_eq_true, if_false, List.filter_cons, hk, if_true,
          List.map_cons]
        cases hcol : mpileup_column conf sm fn g c with
        | none => simp
        | some p =>
          obtain ⟨g1, o⟩ := p
          have hs := mpileup_column_site conf sm fn g g1 c o hcol
          simp only [List.filterMap_cons, hs]
          obtain ⟨ih1, ih2⟩ := ih g1
          constructor
          · exact (List.prefix_cons_inj c.site).mpr ih1
          · intro hne
            rw [ih2 hne]

theorem mpileup_out (st : Storage) (eng : Engine)
    (smpl : List (String × Option String) → bam_sample_t) (out_ok : Bool)
    (conf : mplp_conf_t) (fn : List String) (s : Prologue)
    (hp : mpileup_prologue st conf fn = .ok s) :
    (mpileup st eng smpl out_ok conf fn).out = [] ∨
    (mpileup st eng smpl out_ok conf fn).out =
      mpileup_header smpl fn s ++ (mpileup_positions eng smpl fn s).1 := by
  unfold mpileup
  rw [hp]
  simp only
  unfold mpileup_body
  split
  · exact Or.inl rfl
  · split <;> exact Or.inr rfl

theorem mpileup_header_sites (smpl : List (String × Option String) → bam_sample_t)
    (fn : List String) (s : Prologue) :
    (mpileup_header smpl fn s).filterMap Output.site = [] := by
  unfold mpileup_header
  split <;> simp [Output.site]

theorem mpileup_out_sites (st : Storage) (eng : Engine)
    (smpl : List (String × Option String) → bam_sample_t) (out_ok : Bool)
    (conf : mplp_conf_t) (fn : List String) (s : Prologue)
    (hp : mpileup_prologue st conf fn = .ok s) :
    ((mpileup st eng smpl out_ok conf fn).out.filterMap Output.site) <+:
      (((mpileup_engine eng smpl fn s).1.filter
        (column_kept s.conf (first_hdr s) s.beg0 s.end0)).map Column.site) := by
  rcases mpileup_out st eng smpl out_ok conf fn s hp with h | h
  · rw [h]
    simp
  · rw [h, List.filterMap_append, mpileup_header_sites, List.nil_append]
    exact (mpileup_loop_sites s.conf (mpileup_sm smpl fn s) fn (first_hdr s) s.beg0 s.end0
      (mpileup_engine eng smpl fn s).1 _).1

theorem mpileup_files_region (st : Storage) (n : Nat) :
    ∀ (fs : List String) (i : Nat) (s s' : Prologue), i ≠ 0 →
      mpileup_files st n i fs s = .ok s' →
      (s'.tid0, s'.beg0, s'.end0) = (s.tid0, s.beg0, s.end0) := by
  intro fs
  induction fs with
  | nil =>
    intro i s s' _ h
    simp only [mpileup_files] at h
    injection h with h
    rw [h]
  | cons f fs ih =>
    intro i s s' hi h
    unfold mpileup_files at h
    cases hstep : mpileup_file st n i f s with
    | error e => rw [hstep] at h; exact absurd h (by simp)
    | ok s1 =>
      rw [hstep] at h
      simp only at h
      obtain ⟨_, fp, h_tmp, it, _, _, _, _, _, _, _, htid⟩ := (mpileup_file_spec st n i f s).1 s1 hstep
      rw [ih (i + 1) s1 s' (by omega) h, htid]
      cases it <;> simp [region_after, hi]

/-- With a region, the interval `[beg0, end0)` of a returning prologue is the
region resolved for the first file. -/
theorem mpileup_prologue_region (st : Storage) (conf : mplp_conf_t) (fn : List String)
    (s : Prologue) (reg : String) (hp : mpileup_prologue st conf fn = .ok s)
    (hreg : conf.reg = some reg) :
    ∃ f0 idx h it, fn[0]? = some f0 ∧ acq_idx st conf 0 f0 = some idx ∧
      acq_hdr st conf 0 f0 = some h ∧ st.sam_itr_querys idx h reg = some it ∧
      s.tid0 = it.tid ∧ s.beg0 = it.beg ∧ s.end0 = it.endp := by
  unfold mpileup_prologue at hp
  by_cases hn : fn.length = 0
  · rw [if_pos hn] at hp
    exact absurd hp (by simp [Prologue.exit])
  · rw [if_neg hn] at hp
    cases hfn : fn with
    | nil => simp [hfn] at hn
    | cons f0 rest =>
      rw [hfn] at hp
      unfold mpileup_files at hp
      cases hstep : mpileup_file st (f0 :: rest).length 0 f0
          { conf := conf, data := [], h := none, hdrs := [], tid0 := -1, beg0 := 0,
            end0 := 2 ^ 29, trace := [] } with
      | error e => rw [hstep] at hp; exact absurd hp (by simp)
      | ok s1 =>
        rw [hstep] at hp
        simp only at hp
        obtain ⟨_, fp, h_tmp, it, _, hhd, _, hit, _, _, _, htid⟩ :=
          (mpileup_file_spec st _ 0 f0 _).1 s1 hstep
        obtain ⟨idx, x, hidx, hq, hx⟩ := hit reg hreg
        subst hx
        have hrest := mpileup_files_region st _ rest 1 s1 s (by omega) hp
        rw [htid] at hrest
        simp only [region_after, if_true, Prod.mk.injEq] at hrest
        refine ⟨f0, idx, h_tmp, x, by simp, hidx, hhd, ?_, hrest.1, hrest.2.1, hrest.2.2⟩
        simpa [data_hdr] using hq

/-- C20: when a region is configured and the prologue returns, `[beg0, end0)`
is the interval of the region resolved for the first file; every column handed
to the output has `beg0 <= pos < end0`; the places of the output are a leading
part of the places of the engine's columns that pass the region and interval
tests, hence a subsequence of the engine's places; and a column outside the
interval does not pass. -/
theorem mpileup_region_columns (st : Storage) (eng : Engine)
    (smpl : List (String × Option String) → bam_sample_t) (out_ok : Bool)
    (conf : mplp_conf_t) (fn : List String) (s : Prologue) (reg : String)
    (hp : mpileup_prologue st conf fn = .ok s) (hreg : conf.reg = some reg) :
    (∃ f0 idx h it, fn[0]? = some f0 ∧ acq_idx st conf 0 f0 = some idx ∧
      acq_hdr st conf 0 f0 = some h ∧ st.sam_itr_querys idx h reg = some it ∧
      s.tid0 = it.tid ∧ s.beg0 = it.beg ∧ s.end0 = it.endp) ∧
    (∀ o ∈ (mpileup st eng smpl out_ok conf fn).out, ∀ tid pos : Int,
      o.site = some (tid, pos) → s.beg0 ≤ pos ∧ pos < s.end0) ∧
    ((mpileup st eng smpl out_ok conf fn).out.filterMap Output.site) <+:
      (((mpileup_engine eng smpl fn s).1.filter
        (column_kept s.conf (first_hdr s) s.beg0 s.end0)).map Column.site) ∧
    List.Sublist ((mpileup st eng smpl out_ok conf fn).out.filterMap Output.site)
      ((mpileup_engine eng smpl fn s).1.map Column.site) ∧
    (∀ c ∈ (mpileup_engine eng smpl fn s).1, (c.pos < s.beg0 ∨ s.end0 ≤ c.pos) →
      column_kept s.conf (first_hdr s) s.beg0 s.end0 c = false) := by
  have hsreg : s.conf.reg = some reg := by
    have h1 := (mpileup_prologue_keeps st conf fn).1
    rw [hp] at h1
    simp only [Prologue.final] at h1
    rw [(no_cache_fields _ _ h1).1, hreg]
  have hout : ∀ c : Column, (c.pos < s.beg0 ∨ s.end0 ≤ c.pos) →
      column_kept s.conf (first_hdr s) s.beg0 s.end0 c = false := by
    intro c hc
    have : out_of_region s.conf s.beg0 s.end0 c = true := by
      simp only [out_of_region, hsreg, Option.isSome_some, Bool.true_and, Bool.or_eq_true,
        decide_eq_true_eq]
      omega
    simp [column_kept, this]
  have hpre := mpileup_out_sites st eng smpl out_ok conf fn s hp
  refine ⟨mpileup_prologue_region st conf fn s reg hp hreg, ?_, hpre, ?_, fun c _ hc => hout c hc⟩
  · intro o ho tid pos hsite
    have hmem : (tid, pos) ∈ (mpileup st eng smpl out_ok conf fn).out.filterMap Output.site :=
      List.mem_filterMap.mpr ⟨o, ho, hsite⟩
    have hmem2 := hpre.subset hmem
    obtain ⟨c, hc, hcs⟩ := List.mem_map.mp hmem2
    obtain ⟨_, hkept⟩ := List.mem_filter.mp hc
    have hpos : c.pos = pos := by
      simp only [Column.site, Prod.mk.injEq] at hcs
      exact hcs.2
    by_contra hcon
    have := hout c (by omega)
    rw [this] at hkept
    exact absurd hkept (by simp)
  · exact hpre.sublist.trans ((List.filter_sublist _).map Column.site)


/-! ## Theorems: failure of the prologue -/

theorem acq_other_slot (st : Storage) (i j : Nat) (f g : String) (s s1 : Prologue)
    (h : StepKeeps st i f s s1) (hj : j ≠ i) :
    acq_fp st s1.conf j g = acq_fp st s.conf j g ∧
    acq_hdr st s1.conf j g = acq_hdr st s.conf j g ∧
    acq_idx st s1.conf j g = acq_idx st s.conf j g := by
  have h1 : s1.conf.cfp j = s.conf.cfp j := by
    rcases h.fp j with e | ⟨hji, _⟩
    · exact e
    · exact absurd hji hj
  have h2 : s1.conf.ch j = s.conf.ch j := by
    rcases h.h j with e | ⟨hji, _⟩
    · exact e
    · exact absurd hji hj
  have h3 : s1.conf.cidx j = s.conf.cidx j := by
    rcases h.idx j with e | ⟨hji, _⟩
    · exact e
    · exact absurd hji hj
  simp only [acq_fp, acq_hdr, acq_idx, h1, h2, h3, and_self]

theorem file_acquired_other_slot (st : Storage) (i j : Nat) (f g : String) (s s1 : Prologue)
    (hp : Option bam_hdr_t) (h : StepKeeps st i f s s1) (hj : j ≠ i) :
    file_acquired st s1.conf hp j g = file_acquired st s.conf hp j g := by
  obtain ⟨h1, h2, h3⟩ := acq_other_slot st i j f g s s1 h hj
  have hreg : s1.conf.reg = s.conf.reg := (no_cache_fields _ _ h.settings).1
  simp only [file_acquired, acq_iter, h1, h2, h3, hreg]

theorem file_acquired_first (st : Storage) (conf : mplp_conf_t) (hp hp' : Option bam_hdr_t)
    (f : String) : file_acquired st conf hp 0 f = file_acquired st conf hp' 0 f := by
  simp [file_acquired, acq_iter, data_hdr]

theorem mpileup_file_acquired (st : Storage) (n i : Nat) (f : String) (s s' : Prologue)
    (h : mpileup_file st n i f s = .ok s') :
    file_acquired st s.conf s.h i f = true ∧
    s'.h = (if i = 0 then acq_hdr st s.conf i f else s.h) := by
  obtain ⟨_, fp, h_tmp, it, hfp, hhd, hit0, hit, _, _, hh, _⟩ := (mpileup_file_spec st n i f s).1 s' h
  constructor
  · cases hreg : s.conf.reg with
    | none => simp [file_acquired, hfp, hhd, hreg]
    | some reg =>
      obtain ⟨idx, x, hidx, hq, _⟩ := hit reg hreg
      simp [file_acquired, acq_iter, hfp, hhd, hreg, hidx, hq]
  · rw [hh, hhd]

theorem mpileup_files_acquired (st : Storage) (n : Nat) :
    ∀ (fs : List String) (i : Nat) (s s' : Prologue),
      mpileup_files st n i fs s = .ok s' →
      ∀ (k : Nat) (f : String), fs[k]? = some f →
        file_acquired st s.conf
          (if i = 0 then acq_hdr st s.conf 0 (fs.headD "") else s.h) (i + k) f = true := by
  intro fs
  induction fs with
  | nil => intro i s s' _ k f hk; simp at hk
  | cons g fs ih =>
    intro i s s' h k f hk
    unfold mpileup_files at h
    cases hstep : mpileup_file st n i g s with
    | error e => rw [hstep] at h; exact absurd h (by simp)
    | ok s1 =>
      rw [hstep] at h
      simp only at h
      obtain ⟨hacq, hh⟩ := mpileup_file_acquired st n i g s s1 hstep
      have hkeep := ((mpileup_file_spec st n i g s).1 s1 hstep).1
      cases k with
      | zero =>
        simp only [List.getElem?_cons_zero, Option.some.injEq] at hk
        subst hk
        by_cases h0 : i = 0
        · subst h0
          rw [Nat.add_zero, file_acquired_first st s.conf _ s.h]
          exact hacq
        · simp only [h0, if_false, Nat.add_zero]
          exact hacq
      | succ k =>
        simp only [List.getElem?_cons_succ] at hk
        have hrec := ih (i + 1) s1 s' h k f hk
        simp only [Nat.add_one_ne_zero, if_false] at hrec
        rw [file_acquired_other_slot st i (i + 1 + k) g f s s1 _ hkeep (by omega)] at hrec
        have hidx : i + (k + 1) = i + 1 + k := by omega
        rw [hidx]
        have hhead : (if i = 0 then acq_hdr st s.conf 0 ((g :: fs).headD "") else s.h) = s1.h := by
          rw [hh]
          by_cases h0 : i = 0
          · subst h0; simp
          · simp [h0]
        rw [hhead]
        exact hrec

/-- When the prologue returns, every file of the list was acquired: it had a
handle and a header and, with a region, an index on which the region resolved
against the header of the first file. -/
theorem mpileup_prologue_acquired (st : Storage) (conf : mplp_conf_t) (fn : List String)
    (s : Prologue) (h : mpileup_prologue st conf fn = .ok s) (i : Nat) (f : String)
    (hf : fn[i]? = some f) :
    file_acquired st conf (acq_hdr st conf 0 (fn.headD "")) i f = true := by
  unfold mpileup_prologue at h
  by_cases hn : fn.length = 0
  · rw [if_pos hn] at h
    exact absurd h (by simp [Prologue.exit])
  · rw [if_neg hn] at h
    have := mpileup_files_acquired st fn.length fn 0 _ s h i f hf
    simpa using this

theorem mpileup_abort_of_prologue (st : Storage) (eng : Engine)
    (smpl : List (String × Option String) → bam_sample_t) (out_ok : Bool)
    (conf : mplp_conf_t) (fn : List String)
    (h : ∀ s, mpileup_prologue st conf fn ≠ .ok s) :
    (mpileup st eng smpl out_ok conf fn).ret = none ∧
    (mpileup st eng smpl out_ok conf fn).out = [] := by
  unfold mpileup
  cases hp : mpileup_prologue st conf fn with
  | error e => exact ⟨rfl, rfl⟩
  | ok s => exact absurd hp (h s)

/-- C15: `mpileup` ends the run when some file of the list cannot be acquired:
it has no cached handle and cannot be opened, or it has no cached header and the
header cannot be read, or a region is set and it has no cached index and the
index cannot be loaded, or the region does not resolve on its index against the
header of the first file. Whatever the place of the file in the list, the call
then does not return (the file is not skipped) and has written no output header
and no record. -/
theorem mpileup_aborts_unacquired (st : Storage) (eng : Engine)
    (smpl : List (String × Option String) → bam_sample_t) (out_ok : Bool)
    (conf : mplp_conf_t) (fn : List String) (i : Nat) (f : String) (hf : fn[i]? = some f)
    (hfail : (conf.cfp i = none ∧ st.sam_open f = none) ∨
      (conf.ch i = none ∧ ∀ fp, acq_fp st conf i f = some fp → st.sam_hdr_read fp = none) ∨
      (conf.reg ≠ none ∧ conf.cidx i = none ∧ st.bam_index_load f = none) ∨
      (∃ reg, conf.reg = some reg ∧ ∀ idx h, acq_idx st conf i f = some idx →
        acq_hdr st conf 0 (fn.headD "") = some h → st.sam_itr_querys idx h reg = none)) :
    (mpileup st eng smpl out_ok conf fn).ret = none ∧
    (mpileup st eng smpl out_ok conf fn).out = [] := by
  apply mpileup_abort_of_prologue
  intro s hs
  have hacq := mpileup_prologue_acquired st conf fn s hs i f hf
  have hne : fn ≠ [] := by
    intro h
    subst h
    simp at hf
  obtain ⟨f0, rest, hfn⟩ := List.exists_cons_of_ne_nil hne
  have hacq0 := mpileup_prologue_acquired st conf fn s hs 0 f0 (by simp [hfn])
  have hhead : fn.headD "" = f0 := by simp [hfn]
  rw [hhead] at hacq hacq0 hfail
  simp only [file_acquired, Bool.and_eq_true, Bool.or_eq_true, Option.isSome_iff_exists,
    Option.isNone_iff_eq_none] at hacq hacq0
  obtain ⟨⟨⟨fp, hfp⟩, ⟨h_tmp, hhd⟩⟩, hreg⟩ := hacq
  obtain ⟨⟨_, ⟨h0, hhd0⟩⟩, _⟩ := hacq0
  rcases hfail with ⟨h1, h2⟩ | ⟨h1, h2⟩ | ⟨h1, h2, h3⟩ | ⟨reg, h1, h2⟩
  · simp [acq_fp, h1, h2] at hfp
  · have := h2 fp hfp
    simp [acq_hdr, h1, hfp, this] at hhd
  · rcases hreg with hreg | ⟨it, hit⟩
    · exact h1 hreg
    · cases hr : conf.reg with
      | none => exact h1 hr
      | some reg => simp [acq_iter, hr, acq_idx, h2, h3] at hit
  · rcases hreg with hreg | ⟨it, hit⟩
    · rw [h1] at hreg
      exact absurd hreg (by simp)
    · cases hidx : acq_idx st conf i f with
      | none => simp [acq_iter, h1, hidx] at hit
      | some idx =>
        have hq := h2 idx h0 hidx hhd0
        by_cases hi : i = 0
        · subst hi
          have hff : f = f0 := by
            rw [hfn] at hf
            simpa using hf.symm
          subst hff
          rw [hhd] at hhd0
          injection hhd0 with hhd0
          subst hhd0
          simp [acq_iter, h1, hidx, hhd, data_hdr, hq] at hit
        · simp [acq_iter, h1, hidx, hhd, data_hdr, hi, hhd0, hq] at hit



/-! ## Theorems: the region driver -/

theorem bam_mpileup_regions_cons (st : Storage) (eng : Engine)
    (smpl : List (String × Option String) → bam_sample_t) (out_ok : Bool) (fn : List String)
    (conf : mplp_conf_t) (r : String) (rs : List String) :
    bam_mpileup_regions st eng smpl out_ok fn conf (r :: rs) =
      (r, mpileup st eng smpl out_ok (conf.set_reg r) fn) ::
        (if (mpileup st eng smpl out_ok (conf.set_reg r) fn).ret = none then []
         else bam_mpileup_regions st eng smpl out_ok fn
          (mpileup st eng smpl out_ok (conf.set_reg r) fn).conf rs) := by
  rw [bam_mpileup_regions]
  cases (mpileup st eng smpl out_ok (conf.set_reg r) fn).ret <;> simp

theorem bam_mpileup_regions_order (st : Storage) (eng : Engine)
    (smpl : List (String × Option String) → bam_sample_t) (out_ok : Bool) (fn : List String) :
    ∀ (regs : List String) (conf : mplp_conf_t),
      ((bam_mpileup_regions st eng smpl out_ok fn conf regs).map Prod.fst) <+: regs ∧
      ((∀ c ∈ bam_mpileup_regions st eng smpl out_ok fn conf regs, c.2.ret ≠ none) →
        (bam_mpileup_regions st eng smpl out_ok fn conf regs).map Prod.fst = regs) := by
  intro regs
  induction regs with
  | nil => intro conf; simp [bam_mpileup_regions]
  | cons r rs ih =>
    intro conf
    rw [bam_mpileup_regions_cons]
    by_cases hret : (mpileup st eng smpl out_ok (conf.set_reg r) fn).ret = none
    · simp only [hret, if_true, List.map_cons, List.map_nil]
      constructor
      · exact (List.prefix_cons_inj r).mpr (List.nil_prefix)
      · intro hall
        exact absurd hret (hall (r, _) (List.mem_singleton.mpr rfl))
    · simp only [hret, if_false, List.map_cons]
      obtain ⟨ih1, ih2⟩ := ih (mpileup st eng smpl out_ok (conf.set_reg r) fn).conf
      constructor
      · exact (List.prefix_cons_inj r).mpr ih1
      · intro hall
        rw [ih2 (fun c hc => hall c (List.mem_cons_of_mem _ hc))]

theorem same_settings_reg (c1 c2 : mplp_conf_t) (r : String) (h : same_settings c1 c2) :
    (c1.set_reg r).no_cache = (c2.set_reg r).no_cache := by
  unfold same_settings at h
  unfold mplp_conf_t.no_cache mplp_conf_t.set_reg
  injection h
  simp_all

theorem same_settings_of_no_cache (c1 c2 : mplp_conf_t) (h : c1.no_cache = c2.no_cache) :
    same_settings c1 c2 := by
  unfold mplp_conf_t.no_cache at h
  unfold same_settings
  injection h
  simp_all

theorem same_settings_trans {a b c : mplp_conf_t} (h1 : same_settings a b)
    (h2 : same_settings b c) : same_settings a c := by
  unfold same_settings at h1 h2 ⊢
  exact h1.trans h2

theorem same_settings_set_reg (c : mplp_conf_t) (r : String) :
    same_settings (c.set_reg r) c := rfl

theorem bam_mpileup_regions_calls (st : Storage) (eng : Engine)
    (smpl : List (String × Option String) → bam_sample_t) (out_ok : Bool) (fn : List String) :
    ∀ (regs : List String) (conf : mplp_conf_t),
      ∀ c ∈ bam_mpileup_regions st eng smpl out_ok fn conf regs,
        ∃ cconf, c.2 = mpileup st eng smpl out_ok (cconf.set_reg c.1) fn ∧
          same_settings cconf conf ∧ cache_extends conf cconf := by
  intro regs
  induction regs with
  | nil => intro conf c hc; simp [bam_mpileup_regions] at hc
  | cons r rs ih =>
    intro conf c hc
    rw [bam_mpileup_regions_cons] at hc
    rcases List.mem_cons.mp hc with hc | hc
    · subst hc
      exact ⟨conf, rfl, rfl, cache_extends_refl conf⟩
    · split at hc
      · simp at hc
      · obtain ⟨cconf, h1, h2, h3⟩ := ih _ c hc
        obtain ⟨hext, hnc, _, _⟩ :=
          mpileup_cache_extends st eng smpl out_ok (conf.set_reg r) fn
        refine ⟨cconf, h1, ?_, cache_extends_trans hext h3⟩
        exact same_settings_trans h2
          (same_settings_trans (same_settings_of_no_cache _ _ hnc) (same_settings_set_reg conf r))

theorem regions_conf_nil (st : Storage) (eng : Engine)
    (smpl : List (String × Option String) → bam_sample_t) (out_ok : Bool) (fn : List String)
    (conf : mplp_conf_t) : regions_conf st eng smpl out_ok fn conf [] = conf := by
  simp [regions_conf, bam_mpileup_regions]

theorem regions_conf_cons (st : Storage) (eng : Engine)
    (smpl : List (String × Option String) → bam_sample_t) (out_ok : Bool) (fn : List String)
    (conf : mplp_conf_t) (r : String) (rs : List String)
    (hret : (mpileup st eng smpl out_ok (conf.set_reg r) fn).ret ≠ none) :
    regions_conf st eng smpl out_ok fn conf (r :: rs) =
      regions_conf st eng smpl out_ok fn
        (mpileup st eng smpl out_ok (conf.set_reg r) fn).conf rs := by
  unfold regions_conf
  rw [bam_mpileup_regions_cons]
  simp only [hret, if_false]
  cases hrest : bam_mpileup_regions st eng smpl out_ok fn
      (mpileup st eng smpl out_ok (conf.set_reg r) fn).conf rs with
  | nil => simp
  | cons d ds =>
    simp only [List.getLast?_cons_cons]
    cases hl : (d :: ds).getLast? with
    | none => simp at hl
    | some c => rfl

theorem bam_mpileup_regions_append (st : Storage) (eng : Engine)
    (smpl : List (String × Option String) → bam_sample_t) (out_ok : Bool) (fn : List String) :
    ∀ (pre rest : List String) (conf : mplp_conf_t),
      (∀ c ∈ bam_mpileup_regions st eng smpl out_ok fn conf pre, c.2.ret ≠ none) →
      bam_mpileup_regions st eng smpl out_ok fn conf (pre ++ rest) =
        bam_mpileup_regions st eng smpl out_ok fn conf pre ++
          bam_mpileup_regions st eng smpl out_ok fn
            (regions_conf st eng smpl out_ok fn conf pre) rest := by
  intro pre
  induction pre with
  | nil =>
    intro rest conf _
    simp [regions_conf_nil, bam_mpileup_regions]
  | cons r rs ih =>
    intro rest conf hall
    have hret : (mpileup st eng smpl out_ok (conf.set_reg r) fn).ret ≠ none := by
      apply hall (r, mpileup st eng smpl out_ok (conf.set_reg r) fn)
      rw [bam_mpileup_regions_cons]
      simp
    have hall2 : ∀ c ∈ bam_mpileup_regions st eng smpl out_ok fn
        (mpileup st eng smpl out_ok (conf.set_reg r) fn).conf rs, c.2.ret ≠ none := by
      intro c hc
      apply hall c
      rw [bam_mpileup_regions_cons]
      simp only [hret, if_false]
      exact List.mem_cons_of_mem _ hc
    rw [List.cons_append, bam_mpileup_regions_cons, bam_mpileup_regions_cons,
      regions_conf_cons st eng smpl out_ok fn conf r rs hret]
    simp only [hret, if_false, List.cons_append]
    rw [ih rest _ hall2]

/-- C16: in region-list mode the calls of `mpileup` follow the region list in
order, each on the same files with the region of its place and the cache as the
calls before left it; when every call returns there is exactly one call per
region; a call that ends the run is the last one, and when the region of that
call does not let the prologue return, the run has produced the output of the
regions before it and nothing else. -/
theorem bam_mpileup_once_per_region (st : Storage) (eng : Engine)
    (smpl : List (String × Option String) → bam_sample_t) (out_ok : Bool) (fn : List String)
    (conf : mplp_conf_t) (regs : List String) :
    ((bam_mpileup_regions st eng smpl out_ok fn conf regs).map Prod.fst) <+: regs ∧
    ((∀ c ∈ bam_mpileup_regions st eng smpl out_ok fn conf regs, c.2.ret ≠ none) →
      (bam_mpileup_regions st eng smpl out_ok fn conf regs).map Prod.fst = regs) ∧
    (∀ c ∈ bam_mpileup_regions st eng smpl out_ok fn conf regs,
      ∃ cconf, c.2 = mpileup st eng smpl out_ok (cconf.set_reg c.1) fn ∧
        same_settings cconf conf ∧ cache_extends conf cconf) ∧
    (∀ (pre post : List String) (r : String), regs = pre ++ r :: post →
      (∀ c ∈ bam_mpileup_regions st eng smpl out_ok fn conf pre, c.2.ret ≠ none) →
      (bam_mpileup_regions st eng smpl out_ok fn conf pre).map Prod.fst = pre ∧
      ((mpileup st eng smpl out_ok
          ((regions_conf st eng smpl out_ok fn conf pre).set_reg r) fn).ret = none →
        bam_mpileup_regions st eng smpl out_ok fn conf regs =
          bam_mpileup_regions st eng smpl out_ok fn conf pre ++
            [(r, mpileup st eng smpl out_ok
              ((regions_conf st eng smpl out_ok fn conf pre).set_reg r) fn)]) ∧
      ((∀ s, mpileup_prologue st
          ((regions_conf st eng smpl out_ok fn conf pre).set_reg r) fn ≠ .ok s) →
        calls_out (bam_mpileup_regions st eng smpl out_ok fn conf regs) =
          calls_out (bam_mpileup_regions st eng smpl out_ok fn conf pre))) := by
  refine ⟨(bam_mpileup_regions_order st eng smpl out_ok fn regs conf).1,
    (bam_mpileup_regions_order st eng smpl out_ok fn regs conf).2,
    bam_mpileup_regions_calls st eng smpl out_ok fn regs conf, ?_⟩
  intro pre post r hregs hall
  have happ := bam_mpileup_regions_append st eng smpl out_ok fn pre (r :: post) conf hall
  rw [← hregs, bam_mpileup_regions_cons] at happ
  have hexit : (mpileup st eng smpl out_ok
      ((regions_conf st eng smpl out_ok fn conf pre).set_reg r) fn).ret = none →
      bam_mpileup_regions st eng smpl out_ok fn conf regs =
        bam_mpileup_regions st eng smpl out_ok fn conf pre ++
          [(r, mpileup st eng smpl out_ok
            ((regions_conf st eng smpl out_ok fn conf pre).set_reg r) fn)] := by
    intro hret
    rw [happ]
    simp only [hret, if_true]
  refine ⟨(bam_mpileup_regions_order st eng smpl out_ok fn pre conf).2 hall, hexit, ?_⟩
  intro hpro
  obtain ⟨hret, hout⟩ := mpileup_abort_of_prologue st eng smpl out_ok _ fn hpro
  rw [hexit hret]
  simp [calls_out, hout]

/-- C17 (evaluation at the failing input): the pileup of the first region ends
with the error status `-1`, the pileup of the second ends normally, and the
value returned for the run is `0`, the status of the second region. -/
theorem bam_mpileup_ret_last_status :
    (bam_mpileup_regions st_regions eng_err_first smpl0 true ["a.bam"]
      (driver_conf conf_default) ["chr1:1-10", "chr1:20-30"]).map (fun c => c.2.ret) =
        [some (-1), some 0] ∧
    bam_mpileup_ret 0 (bam_mpileup_regions st_regions eng_err_first smpl0 true ["a.bam"]
      (driver_conf conf_default) ["chr1:1-10", "chr1:20-30"]) = some 0 := by
  decide


/-! ## Theorems: warm and cold cache -/

theorem acq_of_consistent (st : Storage) (fn : List String) (conf : mplp_conf_t)
    (hc : cache_consistent st fn conf) (j : Nat) (f : String) (hf : fn[j]? = some f) :
    acq_fp st conf j f = st.sam_open f ∧
    acq_hdr st conf j f = (st.sam_open f).bind st.sam_hdr_read ∧
    acq_idx st conf j f = st.bam_index_load f := by
  obtain ⟨h1, h2, h3⟩ := hc j f hf
  have hfp : acq_fp st conf j f = st.sam_open f := by
    unfold acq_fp
    cases hx : conf.cfp j with
    | none => rfl
    | some x => exact (h1 x hx).symm
  refine ⟨hfp, ?_, ?_⟩
  · unfold acq_hdr
    cases hx : conf.ch j with
    | none => simp only [hfp]
    | some x => exact (h2 x hx).symm
  · unfold acq_idx
    cases hx : conf.cidx j with
    | none => rfl
    | some x => exact (h3 x hx).symm

theorem file_acquired_congr (st : Storage) (i : Nat) (f : String) (s t : Prologue)
    (hv : SameView s t)
    (ha : acq_fp st s.conf i f = acq_fp st t.conf i f ∧
      acq_hdr st s.conf i f = acq_hdr st t.conf i f ∧
      acq_idx st s.conf i f = acq_idx st t.conf i f) :
    file_acquired st s.conf s.h i f = file_acquired st t.conf t.h i f := by
  have hreg : s.conf.reg = t.conf.reg := (no_cache_fields _ _ hv.settings).1
  simp only [file_acquired, acq_iter, ha.1, ha.2.1, ha.2.2, hreg, hv.h]

theorem mpileup_file_sim (st : Storage) (n i : Nat) (f : String) (s t : Prologue)
    (hv : SameView s t)
    (ha : acq_fp st s.conf i f = acq_fp st t.conf i f ∧
      acq_hdr st s.conf i f = acq_hdr st t.conf i f ∧
      acq_idx st s.conf i f = acq_idx st t.conf i f) :
    (∀ s', mpileup_file st n i f s = .ok s' →
      ∃ t', mpileup_file st n i f t = .ok t' ∧ SameView s' t') ∧
    (∀ e, mpileup_file st n i f s = .error e → ∃ e', mpileup_file st n i f t = .error e') := by
  have hacq := file_acquired_congr st i f s t hv ha
  have hreg : s.conf.reg = t.conf.reg := (no_cache_fields _ _ hv.settings).1
  constructor
  · intro s' hs
    obtain ⟨_, fp, h_tmp, it, hfp, hhd, hit0, hit, hdata, hhdrs, hh, htid⟩ :=
      (mpileup_file_spec st n i f s).1 s' hs
    cases ht : mpileup_file st n i f t with
    | error e' =>
      have h1 := ((mpileup_file_spec st n i f t).2 e' ht).2
      have h2 := (mpileup_file_acquired st n i f s s' hs).1
      rw [hacq, h1] at h2
      exact absurd h2 (by simp)
    | ok t' =>
      obtain ⟨_, fp', h_tmp', it', hfp', hhd', hit0', hit', hdata', hhdrs', hh', htid'⟩ :=
        (mpileup_file_spec st n i f t).1 t' ht
      rw [← ha.1, hfp] at hfp'
      rw [← ha.2.1, hhd] at hhd'
      injection hfp' with hfp'
      injection hhd' with hhd'
      subst hfp' hhd'
      have hiteq : it' = it := by
        cases hr : s.conf.reg with
        | none => rw [hit0 hr, hit0' (hreg ▸ hr)]
        | some reg =>
          obtain ⟨idx, x, hidx, hq, hx⟩ := hit reg hr
          obtain ⟨idx', x', hidx', hq', hx'⟩ := hit' reg (hreg ▸ hr)
          rw [← ha.2.2, hidx] at hidx'
          injection hidx' with hidx'
          subst hidx'
          rw [← hv.h, hq] at hq'
          injection hq' with hq'
          rw [hx, hx', hq']
      subst hiteq
      refine ⟨t', rfl, ?_⟩
      have htriple : (s'.tid0, s'.beg0, s'.end0) = (t'.tid0, t'.beg0, t'.end0) := by
        rw [htid, htid', hv.tid0, hv.beg0, hv.end0]
      simp only [Prod.mk.injEq] at htriple
      refine ⟨?_, ?_, ?_, ?_, htriple.1, htriple.2.1, htriple.2.2⟩
      · have h1 := ((mpileup_file_spec st n i f s).1 s' hs).1.settings
        have h2 := ((mpileup_file_spec st n i f t).1 t' ht).1.settings
        rw [h1, h2, hv.settings]
      · rw [hdata, hdata', hv.data, hv.settings, hv.h]
      · rw [hh, hh', hv.h]
      · rw [hhdrs, hhdrs', hv.hdrs]
  · intro e he
    cases ht : mpileup_file st n i f t with
    | error e' => exact ⟨e', rfl⟩
    | ok t' =>
      have h1 := ((mpileup_file_spec st n i f s).2 e he).2
      have h2 := (mpileup_file_acquired st n i f t t' ht).1
      rw [← hacq, h1] at h2
      exact absurd h2 (by simp)

theorem mpileup_files_sim (st : Storage) (n : Nat) :
    ∀ (fs : List String) (i : Nat) (s t : Prologue), SameView s t →
      (∀ (k : Nat) (f : String), fs[k]? = some f →
        acq_fp st s.conf (i + k) f = acq_fp st t.conf (i + k) f ∧
        acq_hdr st s.conf (i + k) f = acq_hdr st t.conf (i + k) f ∧
        acq_idx st s.conf (i + k) f = acq_idx st t.conf (i + k) f) →
      (∀ s', mpileup_files st n i fs s = .ok s' →
        ∃ t', mpileup_files st n i fs t = .ok t' ∧ SameView s' t') ∧
      (∀ e, mpileup_files st n i fs s = .error e →
        ∃ e', mpileup_files st n i fs t = .error e') := by
  intro fs
  induction fs with
  | nil =>
    intro i s t hv _
    constructor
    · intro s' hs
      simp only [mpileup_files] at hs ⊢
      injection hs with hs
      subst hs
      exact ⟨t, rfl, hv⟩
    · intro e he
      simp [mpileup_files] at he
  | cons f fs ih =>
    intro i s t hv ha
    have ha0 := ha 0 f (by simp)
    simp only [Nat.add_zero] at ha0
    obtain ⟨hok, herr⟩ := mpileup_file_sim st n i f s t hv ha0
    unfold mpileup_files
    cases hs1 : mpileup_file st n i f s with
    | error e0 =>
      obtain ⟨e', he'⟩ := herr e0 hs1
      rw [he']
      simp
    | ok s1 =>
      obtain ⟨t1, ht1, hv1⟩ := hok s1 hs1
      rw [ht1]
      simp only
      apply ih (i + 1) s1 t1 hv1
      intro k g hg
      have hks := ((mpileup_file_spec st n i f s).1 s1 hs1).1
      have hkt := ((mpileup_file_spec st n i f t).1 t1 ht1).1
      obtain ⟨a1, a2, a3⟩ := acq_other_slot st i (i + 1 + k) f g s s1 hks (by omega)
      obtain ⟨b1, b2, b3⟩ := acq_other_slot st i (i + 1 + k) f g t t1 hkt (by omega)
      have hg' : (f :: fs)[k + 1]? = some g := by simpa using hg
      have := ha (k + 1) g hg'
      have hidx : i + (k + 1) = i + 1 + k := by omega
      rw [hidx] at this
      rw [a1, a2, a3, b1, b2, b3]
      exact this

theorem mpileup_prologue_sim (st : Storage) (fn : List String) (c1 c2 : mplp_conf_t)
    (hnc : c1.no_cache = c2.no_cache) (h1 : cache_consistent st fn c1)
    (h2 : cache_consistent st fn c2) :
    (∀ s, mpileup_prologue st c1 fn = .ok s →
      ∃ t, mpileup_prologue st c2 fn = .ok t ∧ SameView s t) ∧
    (∀ e, mpileup_prologue st c1 fn = .error e → ∃ e', mpileup_prologue st c2 fn = .error e') := by
  unfold mpileup_prologue
  by_cases hn : fn.length = 0
  · simp only [hn, if_true, Prologue.exit]
    constructor
    · intro s hs
      exact absurd hs (by simp)
    · intro e _
      exact ⟨_, rfl⟩
  · simp only [hn, if_false]
    apply mpileup_files_sim st fn.length fn 0
    · exact ⟨hnc, rfl, rfl, rfl, rfl, rfl, rfl⟩
    · intro k f hf
      simp only [Nat.zero_add]
      obtain ⟨a1, a2, a3⟩ := acq_of_consistent st fn c1 h1 k f hf
      obtain ⟨b1, b2, b3⟩ := acq_of_consistent st fn c2 h2 k f hf
      rw [a1, a2, a3, b1, b2, b3]
      exact ⟨rfl, rfl, rfl⟩

theorem mpileup_loop_congr (c1 c2 : mplp_conf_t) (hnc : c1.no_cache = c2.no_cache)
    (sm : bam_sample_t) (fn : List String) (h : bam_hdr_t) (beg0 end0 : Int) :
    ∀ (cols : List Column) (g : mplp_pileup_t),
      mpileup_loop c1 sm fn h beg0 end0 g cols = mpileup_loop c2 sm fn h beg0 end0 g cols := by
  obtain ⟨hreg, hflag, hbed, _, _⟩ := no_cache_fields c1 c2 hnc
  have hr : ∀ c, out_of_region c1 beg0 end0 c = out_of_region c2 beg0 end0 c := by
    intro c; simp only [out_of_region, hreg]
  have hb : ∀ c, out_of_bed c1 h c = out_of_bed c2 h c := by
    intro c; simp only [out_of_bed, hbed]
  have hc : ∀ g c, mpileup_column c1 sm fn g c = mpileup_column c2 sm fn g c := by
    intro g c; simp only [mpileup_column, hflag]
  intro cols
  induction cols with
  | nil => intro g; rfl
  | cons c cs ih =>
    intro g
    unfold mpileup_loop
    rw [hr, hb, hc, ih g]
    cases mpileup_column c2 sm fn g c with
    | none => rfl
    | some p => simp only [ih]

theorem mpileup_body_congr (eng : Engine) (smpl : List (String × Option String) → bam_sample_t)
    (out_ok : Bool) (fn : List String) (s t : Prologue) (hv : SameView s t) :
    (mpileup_body eng smpl out_ok fn s).out = (mpileup_body eng smpl out_ok fn t).out ∧
    (mpileup_body eng smpl out_ok fn s).ret = (mpileup_body eng smpl out_ok fn t).ret := by
  obtain ⟨hreg, hflag, hbed, hdepth, _⟩ := no_cache_fields s.conf t.conf hv.settings
  have hsm : mpileup_sm smpl fn s = mpileup_sm smpl fn t := by
    simp only [mpileup_sm, smpl_args, hflag, hv.hdrs]
  have heng : mpileup_engine eng smpl fn s = mpileup_engine eng smpl fn t := by
    simp only [mpileup_engine, mpileup_max_depth, hsm, hv.data, hdepth, hflag]
  have hpos : mpileup_positions eng smpl fn s = mpileup_positions eng smpl fn t := by
    simp only [mpileup_positions, hsm, heng, first_hdr, hv.h, hv.beg0, hv.end0]
    exact mpileup_loop_congr s.conf t.conf hv.settings _ _ _ _ _ _ _
  have hhdr : mpileup_header smpl fn s = mpileup_header smpl fn t := by
    simp only [mpileup_header, hsm, hflag]
  unfold mpileup_body
  rw [hpos, hhdr, heng]
  split
  · exact ⟨rfl, rfl⟩
  · split <;> exact ⟨rfl, rfl⟩

theorem mpileup_congr (st : Storage) (eng : Engine)
    (smpl : List (String × Option String) → bam_sample_t) (out_ok : Bool) (fn : List String)
    (c1 c2 : mplp_conf_t) (hnc : c1.no_cache = c2.no_cache)
    (h1 : cache_consistent st fn c1) (h2 : cache_consistent st fn c2) :
    (mpileup st eng smpl out_ok c1 fn).out = (mpileup st eng smpl out_ok c2 fn).out ∧
    (mpileup st eng smpl out_ok c1 fn).ret = (mpileup st eng smpl out_ok c2 fn).ret := by
  obtain ⟨hok, herr⟩ := mpileup_prologue_sim st fn c1 c2 hnc h1 h2
  unfold mpileup
  cases hp : mpileup_prologue st c1 fn with
  | error e =>
    obtain ⟨e', he'⟩ := herr e hp
    rw [he']
    exact ⟨rfl, rfl⟩
  | ok s =>
    obtain ⟨t, ht, hv⟩ := hok s hp
    rw [ht]
    exact mpileup_body_congr eng smpl out_ok fn s t hv

theorem mpileup_consistent (st : Storage) (eng : Engine)
    (smpl : List (String × Option String) → bam_sample_t) (out_ok : Bool) (fn : List String)
    (conf : mplp_conf_t) (hc : cache_consistent st fn conf) :
    cache_consistent st fn (mpileup st eng smpl out_ok conf fn).conf := by
  obtain ⟨_, _, hfp, hh, hidx, _⟩ := mpileup_prologue_keeps st conf fn
  rw [(mpileup_conf_trace st eng smpl out_ok conf fn).1]
  intro j f hf
  obtain ⟨c1, c2, c3⟩ := hc j f hf
  refine ⟨?_, ?_, ?_⟩
  · intro x hx
    rcases hfp j with e | ⟨_, g, hg, ho⟩
    · exact c1 x (e ▸ hx)
    · rw [hf] at hg
      injection hg with hg
      subst hg
      rw [← ho, hx]
  · intro x hx
    rcases hh j with e | ⟨_, g, hg, ho⟩
    · exact c2 x (e ▸ hx)
    · rw [hf] at hg
      injection hg with hg
      subst hg
      rw [← (acq_of_consistent st fn conf hc j f hf).1, ← ho, hx]
  · intro x hx
    rcases hidx j with e | ⟨_, g, hg, ho⟩
    · exact c3 x (e ▸ hx)
    · rw [hf] at hg
      injection hg with hg
      subst hg
      rw [← ho, hx]

theorem set_reg_consistent (st : Storage) (fn : List String) (conf : mplp_conf_t) (r : String)
    (hc : cache_consistent st fn conf) : cache_consistent st fn (conf.set_reg r) := hc

theorem driver_conf_consistent (st : Storage) (fn : List String) (conf : mplp_conf_t) :
    cache_consistent st fn (driver_conf conf) := by
  intro j f _
  simp [driver_conf, mplp_conf_t.cfp, mplp_conf_t.ch, mplp_conf_t.cidx, mplp_conf_t.slot]

theorem regions_conf_consistent (st : Storage) (eng : Engine)
    (smpl : List (String × Option String) → bam_sample_t) (out_ok : Bool) (fn : List String) :
    ∀ (regs : List String) (conf : mplp_conf_t), cache_consistent st fn conf →
      cache_consistent st fn (regions_conf st eng smpl out_ok fn conf regs) ∧
      same_settings (regions_conf st eng smpl out_ok fn conf regs) conf := by
  intro regs
  induction regs with
  | nil =>
    intro conf hc
    rw [regions_conf_nil]
    exact ⟨hc, rfl⟩
  | cons r rs ih =>
    intro conf hc
    have hc1 := mpileup_consistent st eng smpl out_ok fn (conf.set_reg r)
      (set_reg_consistent st fn conf r hc)
    have hs1 : same_settings (mpileup st eng smpl out_ok (conf.set_reg r) fn).conf conf :=
      same_settings_trans
        (same_settings_of_no_cache _ _ (mpileup_cache_extends st eng smpl out_ok _ fn).2.1)
        (same_settings_set_reg conf r)
    by_cases hret : (mpileup st eng smpl out_ok (conf.set_reg r) fn).ret = none
    · have : regions_conf st eng smpl out_ok fn conf (r :: rs) =
          (mpileup st eng smpl out_ok (conf.set_reg r) fn).conf := by
        unfold regions_conf
        rw [bam_mpileup_regions_cons]
        simp [hret]
      rw [this]
      exact ⟨hc1, hs1⟩
    · rw [regions_conf_cons st eng smpl out_ok fn conf r rs hret]
      obtain ⟨h1, h2⟩ := ih _ hc1
      exact ⟨h1, same_settings_trans h2 hs1⟩

theorem bam_mpileup_regions_congr (st : Storage) (eng : Engine)
    (smpl : List (String × Option String) → bam_sample_t) (out_ok : Bool) (fn : List String) :
    ∀ (regs : List String) (c1 c2 : mplp_conf_t), same_settings c1 c2 →
      cache_consistent st fn c1 → cache_consistent st fn c2 →
      (bam_mpileup_regions st eng smpl out_ok fn c1 regs).map call_result =
        (bam_mpileup_regions st eng smpl out_ok fn c2 regs).map call_result := by
  intro regs
  induction regs with
  | nil => intro c1 c2 _ _ _; simp [bam_mpileup_regions]
  | cons r rs ih =>
    intro c1 c2 hs h1 h2
    obtain ⟨hout, hret⟩ := mpileup_congr st eng smpl out_ok fn (c1.set_reg r) (c2.set_reg r)
      (same_settings_reg c1 c2 r hs) (set_reg_consistent st fn c1 r h1)
      (set_reg_consistent st fn c2 r h2)
    rw [bam_mpileup_regions_cons, bam_mpileup_regions_cons]
    simp only [List.map_cons, call_result, hout, hret]
    congr 1
    by_cases hn : (mpileup st eng smpl out_ok (c2.set_reg r) fn).ret = none
    · simp [hn]
    · simp only [hn, if_false]
      apply ih
      · have e1 := (mpileup_cache_extends st eng smpl out_ok (c1.set_reg r) fn).2.1
        have e2 := (mpileup_cache_extends st eng smpl out_ok (c2.set_reg r) fn).2.1
        exact same_settings_of_no_cache _ _ (by rw [e1, e2, same_settings_reg c1 c2 r hs])
      · exact mpileup_consistent st eng smpl out_ok fn _ (set_reg_consistent st fn c1 r h1)
      · exact mpileup_consistent st eng smpl out_ok fn _ (set_reg_consistent st fn c2 r h2)

/-- C19: on a storage that answers the same way each time, a call of
`mpileup` for a region produces the same output and status from the cache left
by the calls for any earlier regions (warm) as from the empty cache (cold);
hence a second run of the driver over a region list, on the cache the first run
left, gives region by region the same output and status as the first run on the
empty cache. -/
theorem mpileup_warm_cold (st : Storage) (eng : Engine)
    (smpl : List (String × Option String) → bam_sample_t) (out_ok : Bool) (fn : List String)
    (conf : mplp_conf_t) (earlier regs : List String) (r : String) :
    (mpileup st eng smpl out_ok
        ((regions_conf st eng smpl out_ok fn (driver_conf conf) earlier).set_reg r) fn).out =
      (mpileup st eng smpl out_ok ((driver_conf conf).set_reg r) fn).out ∧
    (mpileup st eng smpl out_ok
        ((regions_conf st eng smpl out_ok fn (driver_conf conf) earlier).set_reg r) fn).ret =
      (mpileup st eng smpl out_ok ((driver_conf conf).set_reg r) fn).ret ∧
    (bam_mpileup_regions st eng smpl out_ok fn
        (regions_conf st eng smpl out_ok fn (driver_conf conf) regs) regs).map call_result =
      (bam_mpileup_regions st eng smpl out_ok fn (driver_conf conf) regs).map call_result := by
  have hcold := driver_conf_consistent st fn conf
  obtain ⟨hw1, hs1⟩ := regions_conf_consistent st eng smpl out_ok fn earlier _ hcold
  obtain ⟨hw2, hs2⟩ := regions_conf_consistent st eng smpl out_ok fn regs _ hcold
  obtain ⟨hout, hret⟩ := mpileup_congr st eng smpl out_ok fn _ _
    (same_settings_reg _ _ r hs1) (set_reg_consistent st fn _ r hw1)
    (set_reg_consistent st fn _ r hcold)
  exact ⟨hout, hret, bam_mpileup_regions_congr st eng smpl out_ok fn regs _ _ hs2 hw2 hcold⟩


/-! ## Theorems: witnesses for the driver and the cache -/

theorem not_ok_of_toBool (r : Except Prologue Prologue) (h : r.toBool = false) :
    ∀ s, r ≠ .ok s := by
  intro s hs
  rw [hs] at h
  simp [Except.toBool] at h

/-- C15 (witness): `b.bam`, the second file of the list, cannot be opened; the
call ends the run without output. -/
theorem mpileup_aborts_unacquired_witness :
    (mpileup st_missing eng_cols smpl0 true conf0 ["a.bam", "b.bam"]).ret = none ∧
    (mpileup st_missing eng_cols smpl0 true conf0 ["a.bam", "b.bam"]).out = [] :=
  mpileup_aborts_unacquired st_missing eng_cols smpl0 true conf0 ["a.bam", "b.bam"] 1 "b.bam"
    rfl (Or.inl ⟨rfl, by decide⟩)

/-- C16 (witness): two regions that resolve give two calls in list order; when
the second of three regions does not resolve, the run stops there and its
output is that of the first region. -/
theorem bam_mpileup_once_per_region_witness :
    (bam_mpileup_regions st_regions eng_cols smpl0 true ["a.bam"] conf_l
      ["chr1:1-10", "chr1:20-30"]).map Prod.fst = ["chr1:1-10", "chr1:20-30"] ∧
    (bam_mpileup_regions st_badregion eng_cols smpl0 true ["a.bam"] conf_l
      ["chr1:1-10", "chrX:1-5", "chr1:20-30"]).map Prod.fst = ["chr1:1-10", "chrX:1-5"] ∧
    calls_out (bam_mpileup_regions st_badregion eng_cols smpl0 true ["a.bam"] conf_l
      ["chr1:1-10", "chrX:1-5", "chr1:20-30"]) =
      calls_out (bam_mpileup_regions st_badregion eng_cols smpl0 true ["a.bam"] conf_l
        ["chr1:1-10"]) := by
  refine ⟨(bam_mpileup_once_per_region st_regions eng_cols smpl0 true ["a.bam"] conf_l
      ["chr1:1-10", "chr1:20-30"]).2.1 (by decide), by decide, ?_⟩
  exact ((bam_mpileup_once_per_region st_badregion eng_cols smpl0 true ["a.bam"] conf_l
      ["chr1:1-10", "chrX:1-5", "chr1:20-30"]).2.2.2 ["chr1:1-10"] ["chr1:20-30"] "chrX:1-5" rfl
      (by decide)).2.2 (not_ok_of_toBool _ (by decide))

/-- C18 (witness): the handle, header and index cached by the call for the
first region are still in the cache after the call for the second region, which
releases nothing. -/
theorem cache_append_only_witness :
    conf_warm.cfp 0 = some { fname := "a.bam", stream := { recs := [], eof := 0 } } ∧
    (mpileup st_regions eng_cols smpl0 true (conf_warm.set_reg "chr1:20-30") ["a.bam"]).conf.cfp 0
      = some { fname := "a.bam", stream := { recs := [], eof := 0 } } ∧
    (mpileup st_regions eng_cols smpl0 true (conf_warm.set_reg "chr1:20-30") ["a.bam"]).conf.ch 0
      = some hdr0 ∧
    (mpileup st_regions eng_cols smpl0 true (conf_warm.set_reg "chr1:20-30")
      ["a.bam"]).conf.cidx 0 = some { fname := "a.bam" } ∧
    ∀ e ∈ (mpileup st_regions eng_cols smpl0 true (conf_warm.set_reg "chr1:20-30")
      ["a.bam"]).trace, e.is_release = false :=
  ⟨by decide,
   (cache_append_only st_regions eng_cols smpl0 true (conf_warm.set_reg "chr1:20-30") ["a.bam"]
      []).1 0 _ (by decide),
   (cache_append_only st_regions eng_cols smpl0 true (conf_warm.set_reg "chr1:20-30") ["a.bam"]
      []).2.1 0 _ (by decide),
   (cache_append_only st_regions eng_cols smpl0 true (conf_warm.set_reg "chr1:20-30") ["a.bam"]
      []).2.2.1 0 _ (by decide),
   (cache_append_only st_regions eng_cols smpl0 true (conf_warm.set_reg "chr1:20-30") ["a.bam"]
      []).2.2.2.1 (by decide)⟩

/-- C20 (witness): for the region `chr1:1-10`, resolved to `[0, 10)`, the
engine's columns at 5, 8, 12 and 25 give output at 5 and 8 only. -/
theorem mpileup_region_columns_witness :
    (mpileup st_regions eng_cols smpl0 true (conf_l.set_reg "chr1:1-10")
      ["a.bam"]).out.filterMap Output.site = [(0, 5), (0, 8)] ∧
    ∀ o ∈ (mpileup st_regions eng_cols smpl0 true (conf_l.set_reg "chr1:1-10") ["a.bam"]).out,
      ∀ tid pos : Int, o.site = some (tid, pos) →
        (Prologue.final (mpileup_prologue st_regions (conf_l.set_reg "chr1:1-10")
          ["a.bam"])).beg0 ≤ pos ∧
        pos < (Prologue.final (mpileup_prologue st_regions (conf_l.set_reg "chr1:1-10")
          ["a.bam"])).end0 :=
  ⟨by decide,
   (mpileup_region_columns st_regions eng_cols smpl0 true (conf_l.set_reg "chr1:1-10") ["a.bam"]
      (Prologue.final (mpileup_prologue st_regions (conf_l.set_reg "chr1:1-10") ["a.bam"]))
      "chr1:1-10" rfl rfl).2.1⟩



/-! ## Theorems: the overlap switch -/

theorem and_bit_ne_zero (x i : Nat) : (x &&& 1 <<< i != 0) = x.testBit i := by
  rw [Nat.one_shiftLeft, Nat.and_two_pow]
  cases x.testBit i
  · simp
  · have : 2 ^ i ≠ 0 := by positivity
    simp [this]

theorem opt_flag_overlaps (flag : Nat) (o : Opt) :
    (opt_flag flag o).testBit 12 = (flag.testBit 12 && o != Opt.x) := by
  cases o
  case other c => simp [opt_flag]
  all_goals
    simp only [opt_flag, clear_bits, Nat.testBit_or, Nat.testBit_xor, Nat.testBit_and]
    cases flag.testBit 12 <;> decide

theorem foldl_opt_flag_overlaps (opts : List Opt) (flag : Nat) :
    (opts.foldl opt_flag flag).testBit 12 = (flag.testBit 12 && !opts.contains Opt.x) := by
  induction opts generalizing flag with
  | nil => simp
  | cons o os ih =>
    rw [List.foldl_cons, ih, opt_flag_overlaps, List.contains_cons]
    cases flag.testBit 12 <;> cases os.contains Opt.x <;> cases o <;> rfl

theorem bam_mpileup_flag_overlaps (opts : List Opt) :
    (bam_mpileup_flag opts &&& MPLP_SMART_OVERLAPS != 0) = !opts.contains Opt.x := by
  have h12 : MPLP_SMART_OVERLAPS = 1 <<< 12 := rfl
  rw [h12, and_bit_ne_zero]
  have hfold := foldl_opt_flag_overlaps opts mplp_flag_init
  have hinit : mplp_flag_init.testBit 12 = true := by decide
  rw [hinit, Bool.true_and] at hfold
  unfold bam_mpileup_flag apply_use_orphan
  split
  · simp only [clear_bits, Nat.testBit_xor, Nat.testBit_and, hfold]
    have : MPLP_NO_ORPHAN.testBit 12 = false := by decide
    simp [this]
  · exact hfold

theorem spec_effective_pair (mate : bam1_t → bam1_t → Bool) (p1 p2 : bam_pileup1_t)
    (hmate : mate p1.b p2.b = true ∧ mate p2.b p1.b = true)
    (hq : entry_qual p2 < entry_qual p1) :
    spec_effective mate true [p1, p2] = [p1] ∧ spec_effective mate true [p2, p1] = [p1] := by
  have h1 : ¬ entry_qual p1 < entry_qual p2 := by omega
  simp [spec_effective, List.filter, hmate.1, hmate.2, hq, h1]

/-- C21: overlap reconciliation is on in the flag word `bam_mpileup` starts
from; after any options the bit `MPLP_SMART_OVERLAPS` is set exactly when `-x`
is not among them, and `mpileup` starts the engine with overlap handling
(`bam_mplp_init_overlaps`) exactly in that case. For two mates that cover a
position, the second of lower base quality, the column counts both with the
switch off and only the one of higher quality with it on (the engine's side,
as the specification words it). -/
theorem mpileup_overlaps_switch (opts : List Opt) (st : Storage) (eng : Engine)
    (smpl : List (String × Option String) → bam_sample_t) (conf : mplp_conf_t)
    (fn : List String) (s : Prologue) (mate : bam1_t → bam1_t → Bool) (p1 p2 : bam_pileup1_t)
    (hflag : conf.flag = bam_mpileup_flag opts)
    (hs : mpileup_prologue st conf fn = .ok s)
    (hmate : mate p1.b p2.b = true ∧ mate p2.b p1.b = true)
    (hq : entry_qual p2 < entry_qual p1) :
    (bam_mpileup_flag [] &&& MPLP_SMART_OVERLAPS != 0) = true ∧
    (bam_mpileup_flag opts &&& MPLP_SMART_OVERLAPS != 0) = !opts.contains Opt.x ∧
    mpileup_engine eng smpl fn s =
      eng.run (s.data.map mplp_aux_t.no_cache)
        (mpileup_max_depth s.conf (mpileup_sm smpl fn s).n) (!opts.contains Opt.x) ∧
    (spec_effective mate false [p1, p2]).length = 2 ∧
    (spec_effective mate false [p2, p1]).length = 2 ∧
    spec_effective mate true [p1, p2] = [p1] ∧
    spec_effective mate true [p2, p1] = [p1] := by
  refine ⟨by decide, bam_mpileup_flag_overlaps opts, ?_, rfl, rfl,
    (spec_effective_pair mate p1 p2 hmate hq).1, (spec_effective_pair mate p1 p2 hmate hq).2⟩
  have hkeep := (mpileup_prologue_keeps st conf fn).1
  rw [hs] at hkeep
  simp only [Prologue.final] at hkeep
  have hf : s.conf.flag = conf.flag := by
    have := congrArg mplp_conf_t.flag hkeep
    simpa [mplp_conf_t.no_cache] using this
  unfold mpileup_engine
  rw [hf, hflag, bam_mpileup_flag_overlaps]

/-- C21 (witness): with `-x` the engine is started without overlap handling,
without options it is started with it; `R1` (quality 30) and its mate `R2`
(quality 10) at position 100 give depth 2 with the switch off and depth 1, `R1`
alone, with it on. -/
theorem mpileup_overlaps_switch_witness :
    (mpileup_engine eng_switch smpl0 ["a.bam"]
      (Prologue.final (mpileup_prologue st0 { conf0 with flag := bam_mpileup_flag [Opt.x] }
        ["a.bam"]))).2 = 0 ∧
    (mpileup_engine eng_switch smpl0 ["a.bam"]
      (Prologue.final (mpileup_prologue st0 { conf0 with flag := bam_mpileup_flag [] }
        ["a.bam"]))).2 = 1 ∧
    (spec_effective mate_R false [entry_R1, entry_R2]).length = 2 ∧
    spec_effective mate_R true [entry_R1, entry_R2] = [entry_R1] := by
  have hx := mpileup_overlaps_switch [Opt.x] st0 eng_switch smpl0
    { conf0 with flag := bam_mpileup_flag [Opt.x] } ["a.bam"]
    (Prologue.final (mpileup_prologue st0 { conf0 with flag := bam_mpileup_flag [Opt.x] }
      ["a.bam"])) mate_R entry_R1 entry_R2 rfl rfl (by decide) (by decide)
  have h0 := mpileup_overlaps_switch [] st0 eng_switch smpl0
    { conf0 with flag := bam_mpileup_flag [] } ["a.bam"]
    (Prologue.final (mpileup_prologue st0 { conf0 with flag := bam_mpileup_flag [] }
      ["a.bam"])) mate_R entry_R1 entry_R2 rfl rfl (by decide) (by decide)
  refine ⟨?_, ?_, hx.2.2.2.1, hx.2.2.2.2.2.1⟩
  · rw [hx.2.2.1]; rfl
  · rw [h0.2.2.1]; rfl

/-! ## Theorems: the capacity of the buckets -/

theorem cap_legal_grow (c : Nat) (h : cap_legal c) :
    cap_legal (if c != 0 then c <<< 1 else 8) ∧ c < (if c != 0 then c <<< 1 else 8) := by
  rcases h with h | ⟨k, hk⟩
  · subst h
    exact ⟨Or.inr ⟨0, by simp⟩, by simp⟩
  · have hpos : 0 < 2 ^ k := by positivity
    have hne : (c != 0) = true := by
      simp only [bne_iff_ne, ne_eq]
      omega
    rw [if_pos hne, Nat.shiftLeft_eq]
    refine ⟨Or.inr ⟨k + 1, ?_⟩, by omega⟩
    rw [hk, pow_succ]
    ring

theorem group_smpl_push_caps (m : mplp_pileup_t) (id : Nat) (p : bam_pileup1_t)
    (h : caps_ok m) :
    caps_ok (group_smpl_push m id p) ∧ ∀ s, m.m_plp s ≤ (group_smpl_push m id p).m_plp s := by
  have hg := cap_legal_grow (m.m_plp id) (h id).2
  constructor
  · intro s
    by_cases hs : s = id
    · subst hs
      simp only [group_smpl_push, Function.update_same]
      by_cases hfull : m.n_plp s = m.m_plp s
      · rw [if_pos hfull]
        exact ⟨by omega, hg.1⟩
      · rw [if_neg hfull]
        have := (h s).1
        exact ⟨by omega, (h s).2⟩
    · simp only [group_smpl_push, Function.update_noteq hs]
      exact h s
  · intro s
    by_cases hs : s = id
    · subst hs
      simp only [group_smpl_push, Function.update_same]
      by_cases hfull : m.n_plp s = m.m_plp s
      · rw [if_pos hfull]; omega
      · rw [if_neg hfull]
    · simp only [group_smpl_push, Function.update_noteq hs]
      exact le_refl _

theorem group_smpl_col_caps (sm : bam_sample_t) (ignore_rg : Bool) (fn : String)
    (col : List bam_pileup1_t) (m m1 : mplp_pileup_t) (h : caps_ok m)
    (hr : group_smpl_col sm ignore_rg fn m col = some m1) :
    caps_ok m1 ∧ ∀ s, m.m_plp s ≤ m1.m_plp s := by
  induction col generalizing m with
  | nil =>
    simp only [group_smpl_col, Option.some.injEq] at hr
    subst hr
    exact ⟨h, fun _ => le_refl _⟩
  | cons p ps ih =>
    simp only [group_smpl_col] at hr
    split at hr
    · exact absurd hr (by simp)
    · have hp := group_smpl_push_caps m (group_smpl_id sm ignore_rg fn p).toNat p h
      have := ih _ hp.1 hr
      exact ⟨this.1, fun s => le_trans (hp.2 s) (this.2 s)⟩

theorem group_smpl_files_caps (sm : bam_sample_t) (ignore_rg : Bool)
    (cols : List (String × List bam_pileup1_t)) (m m1 : mplp_pileup_t) (h : caps_ok m)
    (hr : group_smpl_files sm ignore_rg m cols = some m1) :
    caps_ok m1 ∧ ∀ s, m.m_plp s ≤ m1.m_plp s := by
  induction cols generalizing m with
  | nil =>
    simp only [group_smpl_files, Option.some.injEq] at hr
    subst hr
    exact ⟨h, fun _ => le_refl _⟩
  | cons c cs ih =>
    simp only [group_smpl_files] at hr
    cases hc : group_smpl_col sm ignore_rg c.1 m c.2 with
    | none => rw [hc] at hr; exact absurd hr (by simp)
    | some m2 =>
      rw [hc] at hr
      have h2 := group_smpl_col_caps sm ignore_rg c.1 c.2 m m2 h hc
      have := ih m2 h2.1 hr
      exact ⟨this.1, fun s => le_trans (h2.2 s) (this.2 s)⟩

theorem group_smpl_caps (sm : bam_sample_t) (ignore_rg : Bool)
    (cols : List (String × List bam_pileup1_t)) (m m1 : mplp_pileup_t) (h : caps_ok m)
    (hr : group_smpl m sm cols ignore_rg = some m1) :
    caps_ok m1 ∧ ∀ s, m.m_plp s ≤ m1.m_plp s := by
  have hclear : caps_ok (group_smpl_clear m) := by
    intro s
    simp only [group_smpl_clear]
    split
    · exact ⟨Nat.zero_le _, (h s).2⟩
    · exact h s
  exact group_smpl_files_caps sm ignore_rg cols (group_smpl_clear m) m1 hclear hr

theorem group_smpl_calls_caps (sm : bam_sample_t) (ignore_rg : Bool)
    (calls : List (List (String × List bam_pileup1_t))) (m m1 : mplp_pileup_t) (h : caps_ok m)
    (hr : group_smpl_calls sm ignore_rg m calls = some m1) : caps_ok m1 := by
  induction calls generalizing m with
  | nil =>
    simp only [group_smpl_calls, Option.some.injEq] at hr
    subst hr
    exact h
  | cons c cs ih =>
    simp only [group_smpl_calls] at hr
    cases hc : group_smpl m sm c ignore_rg with
    | none => rw [hc] at hr; exact absurd hr (by simp)
    | some m2 =>
      rw [hc] at hr
      exact ih m2 (group_smpl_caps sm ignore_rg c m m2 h hc).1 hr

/-- C22: starting from the all-zero buckets of `mpileup`, after any number of
returning calls of `group_smpl` (state `m`) one more returning call leaves every
fill count `n_plp[s]` within its capacity `m_plp[s]`, every capacity `0` or `8`
times a power of two, and no capacity smaller than before the call. -/
theorem group_smpl_capacity (sm : bam_sample_t) (ignore_rg : Bool) (n : Nat)
    (filler : bam_pileup1_t) (calls : List (List (String × List bam_pileup1_t)))
    (cols : List (String × List bam_pileup1_t)) (m m1 : mplp_pileup_t)
    (hm : group_smpl_calls sm ignore_rg (gplp_init n filler) calls = some m)
    (h1 : group_smpl m sm cols ignore_rg = some m1) :
    (∀ s, m1.n_plp s ≤ m1.m_plp s) ∧
    (∀ s, m1.m_plp s = 0 ∨ ∃ k : Nat, m1.m_plp s = 8 * 2 ^ k) ∧
    (∀ s, m.m_plp s ≤ m1.m_plp s) := by
  have h0 : caps_ok (gplp_init n filler) := fun _ => ⟨le_refl _, Or.inl rfl⟩
  have hmok := group_smpl_calls_caps sm ignore_rg calls _ m h0 hm
  have := group_smpl_caps sm ignore_rg cols m m1 hmok h1
  exact ⟨fun s => (this.1 s).1, fun s => (this.1 s).2, this.2⟩

/-- C22 (witness): one sample; after positions with 9 and 0 entries the bucket
is empty with capacity 16, and a position with 17 entries leaves it with 17
entries in a capacity of 32. -/
theorem group_smpl_capacity_witness :
    (gplp_9_0.n_plp 0, gplp_9_0.m_plp 0) = (0, 16) ∧
    (gplp_17.n_plp 0, gplp_17.m_plp 0) = (17, 32) ∧
    (∀ s, gplp_17.n_plp s ≤ gplp_17.m_plp s) ∧
    (∀ s, gplp_17.m_plp s = 0 ∨ ∃ k : Nat, gplp_17.m_plp s = 8 * 2 ^ k) ∧
    (∀ s, gplp_9_0.m_plp s ≤ gplp_17.m_plp s) :=
  ⟨by decide, by decide,
    group_smpl_capacity sm_default false 1 zero_entry (calls_9_0_17.take 2)
      [("a.bam", List.replicate 17 (entry0 none 0))] gplp_9_0 gplp_17 rfl rfl⟩

/-! ## Theorems: the output tags -/

theorem tag_flag_spec (k : B2B) (t : List Nat) : tag_flag k t = spec_tag_flag k t := by
  have h1 : (cstr "DP").map tolower = cstr "dp" := by decide
  have h2 : (cstr "DV").map tolower = cstr "dv" := by decide
  have h3 : (cstr "SP").map tolower = cstr "sp" := by decide
  have h4 : (cstr "DP4").map tolower = cstr "dp4" := by decide
  have h5 : (cstr "DPR").map tolower = cstr "dpr" := by decide
  have h6 : (cstr "INFO/DPR").map tolower = cstr "info/dpr" := by decide
  simp only [tag_flag, spec_tag_flag, strcasecmp_eq, h1, h2, h3, h4, h5, h6, List.lookup]
  generalize t.map tolower = u
  cases u == cstr "dp" <;> cases u == cstr "dv" <;> cases u == cstr "sp" <;>
    cases u == cstr "dp4" <;> cases u == cstr "dpr" <;> cases u == cstr "info/dpr" <;> rfl

theorem spec_tag_flag_isSome (k : B2B) (t : List Nat) :
    (spec_tag_flag k t).isSome =
      [cstr "dp", cstr "dv", cstr "sp", cstr "dp4", cstr "dpr", cstr "info/dpr"].contains
        (t.map tolower) := by
  simp only [spec_tag_flag, List.lookup, List.contains, List.elem]
  generalize t.map tolower = u
  cases u == cstr "dp" <;> cases u == cstr "dv" <;> cases u == cstr "sp" <;>
    cases u == cstr "dp4" <;> cases u == cstr "dpr" <;> cases u == cstr "info/dpr" <;> rfl

theorem spec_tag_flag_names (k : B2B) (t : List Nat) :
    spec_tag_flag k t ≠ none ↔
      t.map tolower ∈ [cstr "dp", cstr "dv", cstr "sp", cstr "dp4", cstr "dpr", cstr "info/dpr"] := by
  rw [Option.ne_none_iff_isSome, spec_tag_flag_isSome]
  exact List.elem_iff

theorem parse_format_loop_bad (k : B2B) (tags : List (List Nat)) (flag : Nat) :
    parse_format_loop k flag tags = none ↔ ∃ t ∈ tags, spec_tag_flag k t = none := by
  induction tags generalizing flag with
  | nil => simp [parse_format_loop]
  | cons t ts ih =>
    simp only [parse_format_loop, tag_flag_spec, List.mem_cons, exists_eq_or_imp]
    cases ht : spec_tag_flag k t with
    | none => simp
    | some f => simp [ih]

theorem parse_format_loop_ok (k : B2B) (tags : List (List Nat)) (flag : Nat)
    (h : ∀ t ∈ tags, spec_tag_flag k t ≠ none) :
    parse_format_loop k flag tags = some (flag ||| spec_tags_or k tags) := by
  induction tags generalizing flag with
  | nil => simp [parse_format_loop, spec_tags_or]
  | cons t ts ih =>
    simp only [parse_format_loop, tag_flag_spec]
    cases ht : spec_tag_flag k t with
    | none => exact absurd ht (h t (List.mem_cons_self _ _))
    | some f =>
      simp only []
      rw [ih _ (fun u hu => h u (List.mem_cons_of_mem _ hu))]
      simp only [spec_tags_or, List.map_cons, List.foldr_cons, ht, Option.getD_some,
        Nat.or_assoc]

theorem foldr_or_testBit (l : List Nat) (i : Nat) :
    (l.foldr (fun a b => a ||| b) 0).testBit i = l.any (fun a => a.testBit i) := by
  induction l with
  | nil => simp
  | cons a as ih => simp [Nat.testBit_or, ih]

theorem spec_tags_or_set (k : B2B) (tags tags2 : List (List Nat))
    (h : ∀ t, t ∈ tags ↔ t ∈ tags2) : spec_tags_or k tags = spec_tags_or k tags2 := by
  apply Nat.eq_of_testBit_eq
  intro i
  simp only [spec_tags_or, foldr_or_testBit]
  rw [Bool.eq_iff_iff]
  simp only [List.any_eq_true, List.mem_map]
  constructor
  · rintro ⟨x, ⟨t, ht, rfl⟩, hx⟩
    exact ⟨_, ⟨t, (h t).1 ht, rfl⟩, hx⟩
  · rintro ⟨x, ⟨t, ht, rfl⟩, hx⟩
    exact ⟨_, ⟨t, (h t).2 ht, rfl⟩, hx⟩

/-- C23: for every list of output tags, `parse_format_flag` gives each tag the
flag of the name it matches without regard to case among `DP`, `DV`, `SP`,
`DP4`, `DPR` and `INFO/DPR`; it ends the run exactly when some tag matches none
of the six names, and otherwise returns the bitwise OR of the flags of the
tags, a value that depends only on which tags occur, not on their order or
repetition. -/
theorem parse_format_flag_or (k : B2B) (tags : List (List Nat)) :
    (∀ t, tag_flag k t = spec_tag_flag k t) ∧
    (∀ t, spec_tag_flag k t ≠ none ↔ t.map tolower ∈
      [cstr "dp", cstr "dv", cstr "sp", cstr "dp4", cstr "dpr", cstr "info/dpr"]) ∧
    (parse_format_flag k tags = none ↔ ∃ t ∈ tags, spec_tag_flag k t = none) ∧
    ((∀ t ∈ tags, spec_tag_flag k t ≠ none) →
      parse_format_flag k tags = some (spec_tags_or k tags)) ∧
    (∀ tags2 : List (List Nat), (∀ t, t ∈ tags ↔ t ∈ tags2) →
      parse_format_flag k tags = parse_format_flag k tags2) := by
  refine ⟨tag_flag_spec k, spec_tag_flag_names k, parse_format_loop_bad k tags 0, ?_, ?_⟩
  · intro h
    have := parse_format_loop_ok k tags 0 h
    simpa [parse_format_flag] using this
  · intro tags2 hset
    by_cases hall : ∀ t ∈ tags, spec_tag_flag k t ≠ none
    · have hall2 : ∀ t ∈ tags2, spec_tag_flag k t ≠ none := fun t ht => hall t ((hset t).2 ht)
      have e1 := parse_format_loop_ok k tags 0 hall
      have e2 := parse_format_loop_ok k tags2 0 hall2
      unfold parse_format_flag
      rw [e1, e2, spec_tags_or_set k tags tags2 hset]
    · have hbad : ∃ t ∈ tags, spec_tag_flag k t = none := by
        by_contra hc
        apply hall
        intro t ht hn
        exact hc ⟨t, ht, hn⟩
      have hbad2 : ∃ t ∈ tags2, spec_tag_flag k t = none := by
        obtain ⟨t, ht, hn⟩ := hbad
        exact ⟨t, (hset t).1 ht, hn⟩
      unfold parse_format_flag
      rw [(parse_format_loop_bad k tags 0).2 hbad, (parse_format_loop_bad k tags2 0).2 hbad2]

/-- C23 (witness): `dp,INFO/dpr,DP` and `Info/DPR,Dp` give the same flag, `33`
with the values of `bam2bcf.h`, and the list `DP,XX` ends the run. -/
theorem parse_format_flag_or_witness :
    parse_format_flag b2b [cstr "dp", cstr "INFO/dpr", cstr "DP"] = some 33 ∧
    parse_format_flag b2b [cstr "dp", cstr "INFO/dpr", cstr "dp"] =
      parse_format_flag b2b [cstr "INFO/dpr", cstr "dp"] ∧
    parse_format_flag b2b [cstr "DP", cstr "XX"] = none := by
  refine ⟨?_, ?_, ?_⟩
  · rw [(parse_format_flag_or b2b [cstr "dp", cstr "INFO/dpr", cstr "DP"]).2.2.2.1 (by decide)]
    decide
  · exact (parse_format_flag_or b2b [cstr "dp", cstr "INFO/dpr", cstr "dp"]).2.2.2.2
      [cstr "INFO/dpr", cstr "dp"]
      (by intro t; simp only [List.mem_cons, List.mem_singleton, List.not_mem_nil, or_false]; tauto)
  · exact (parse_format_flag_or b2b [cstr "DP", cstr "XX"]).2.2.1.2 ⟨cstr "XX", by decide, by decide⟩


/-! ## Theorems: `printw` -/

theorem printw_digits_nat (room : Nat) (x : Nat) (buf : List Nat)
    (h : (Nat.digits 10 x).length ≤ room) :
    printw_digits room (x : Int) buf = some (buf ++ (Nat.digits 10 x).map (fun d => d + 48)) := by
  induction room generalizing x buf with
  | zero =>
    have hx : x = 0 := by
      by_contra hne
      have := Nat.digits_def' (by norm_num : 1 < 10) (Nat.pos_of_ne_zero hne)
      rw [this] at h
      simp at h
    subst hx
    simp [printw_digits]
  | succ r ih =>
    by_cases hx : x = 0
    · subst hx
      simp [printw_digits]
    · have hpos : 0 < x := Nat.pos_of_ne_zero hx
      have hd := Nat.digits_def' (by norm_num : 1 < 10) hpos
      have hlen : (Nat.digits 10 (x / 10)).length ≤ r := by
        rw [hd] at h
        simpa using h
      have hgt : (x : Int) > 0 := by exact_mod_cast hpos
      have hdiv : Int.tdiv (x : Int) 10 = ((x / 10 : Nat) : Int) := (Int.ofNat_tdiv x 10).symm
      have hmod : (Int.tmod (x : Int) 10).toNat = x % 10 := by
        have : Int.tmod (x : Int) 10 = ((x % 10 : Nat) : Int) := (Int.ofNat_tmod x 10).symm
        rw [this, Int.toNat_natCast]
      simp only [printw_digits, hgt, if_true, hdiv, hmod]
      rw [ih (x / 10) _ hlen, hd]
      simp

theorem digits_length_int32 (x : Nat) (h : x < 2 ^ 31) : (Nat.digits 10 x).length ≤ 10 := by
  by_cases hx : x = 0
  · subst hx; simp
  · have h1 := Nat.base_pow_length_digits_le 10 x (by norm_num) hx
    have h2 : 10 ^ (Nat.digits 10 x).length < 10 ^ 11 := by
      have : 10 * x < 10 ^ 11 := by norm_num at h ⊢; omega
      omega
    have := (Nat.pow_lt_pow_iff_right (by norm_num : 1 < 10)).1 h2
    omega

theorem printw_swap_reverse (buf : List Nat) (h : buf.length ≤ 11) :
    printw_swap buf = buf.reverse := by
  match buf, h with
  | [], _ => simp [printw_swap]
  | [_], _ => simp [printw_swap]
  | [_, _], _ => simp [printw_swap, List.range_succ]
  | [_, _, _], _ => simp [printw_swap, List.range_succ]
  | [_, _, _, _], _ => simp [printw_swap, List.range_succ]
  | [_, _, _, _, _], _ => simp [printw_swap, List.range_succ]
  | [_, _, _, _, _, _], _ => simp [printw_swap, List.range_succ]
  | [_, _, _, _, _, _, _], _ => simp [printw_swap, List.range_succ]
  | [_, _, _, _, _, _, _, _], _ => simp [printw_swap, List.range_succ]
  | [_, _, _, _, _, _, _, _, _], _ => simp [printw_swap, List.range_succ]
  | [_, _, _, _, _, _, _, _, _, _], _ => simp [printw_swap, List.range_succ]
  | [_, _, _, _, _, _, _, _, _, _, _], _ => simp [printw_swap, List.range_succ]
  | _ :: _ :: _ :: _ :: _ :: _ :: _ :: _ :: _ :: _ :: _ :: _ :: _, h =>
    simp only [List.length_cons] at h
    omega

/-- For every C `int` other than the smallest one, `printw` writes the decimal
representation, in at most 11 bytes. -/
theorem printw_decimal (c : Int) (hlo : -2 ^ 31 < c) (hhi : c < 2 ^ 31) :
    printw c = some (spec_decimal c) ∧ (spec_decimal c).length ≤ 11 := by
  by_cases h0 : c = 0
  · subst h0
    exact ⟨rfl, by decide⟩
  have habs : c.natAbs < 2 ^ 31 := by omega
  have hlen := digits_length_int32 c.natAbs habs
  have hd := printw_digits_nat 16 c.natAbs [] (by omega)
  have hx : (if c < 0 then wrap32 (-c) else c) = (c.natAbs : Int) := by
    unfold wrap32
    split <;> omega
  have hspec : spec_decimal c = (if c < 0 then [45] else []) ++
      (Nat.digits 10 c.natAbs).reverse.map (fun d => d + 48) := by
    simp only [spec_decimal, if_neg h0]
  have hpw : printw c =
      if (if c < 0 then List.map (fun d => d + 48) (Nat.digits 10 c.natAbs) ++ [45]
          else List.map (fun d => d + 48) (Nat.digits 10 c.natAbs)).length < 16 then
        some (printw_swap (if c < 0 then List.map (fun d => d + 48) (Nat.digits 10 c.natAbs) ++ [45]
          else List.map (fun d => d + 48) (Nat.digits 10 c.natAbs)))
      else none := by
    simp only [printw, if_neg h0, hx, hd, List.nil_append]
  rw [hspec, hpw]
  generalize Nat.digits 10 c.natAbs = ds at hlen
  by_cases hneg : c < 0
  · have hl : (List.map (fun d => d + 48) ds ++ [45]).length ≤ 11 := by
      rw [List.length_append, List.length_map, List.length_singleton]
      omega
    simp only [if_pos hneg]
    rw [if_pos (by omega), printw_swap_reverse _ hl]
    constructor
    · simp [List.map_reverse]
    · simp only [List.length_append, List.length_map, List.length_reverse,
        List.length_singleton]
      omega
  · have hl : (List.map (fun d => d + 48) ds).length ≤ 11 := by
      rw [List.length_map]
      omega
    simp only [if_neg hneg]
    rw [if_pos (by omega), printw_swap_reverse _ hl]
    constructor
    · simp [List.map_reverse]
    · simp only [List.length_append, List.length_map, List.length_reverse, List.length_nil]
      omega

/-- The indel length that `pileup_seq` writes for a deletion of `k` bases is the
decimal representation of `-k`, followed by the `k` deleted bases. -/
theorem pileup_indel_deletion (sq : Seq) (p : bam_pileup1_t) (pos : Int)
    (ref : Option (List Nat)) (k : Nat) (hk : 0 < k) (hk32 : k < 2 ^ 31)
    (hp : p.indel = -(k : Int)) :
    ∃ bases : List Nat, bases.length = k ∧
      pileup_indel sq p pos ref = some (45 :: (Nat.digits 10 k).reverse.map (fun d => d + 48)
        ++ bases) := by
  have hpw := (printw_decimal (-(k : Int)) (by omega) (by omega)).1
  have hneg : -(k : Int) < 0 := by omega
  have hne : -(k : Int) ≠ 0 := by omega
  have hnot : ¬ (-(k : Int) > 0) := by omega
  refine ⟨(List.range k).map (fun j : Nat =>
        strand_case p.b (match ref with
          | some r => ref_at r (pos + (j + 1))
          | none => 78)), by simp, ?_⟩
  simp only [pileup_indel, hp, hnot, hneg, if_false, if_true, hpw, Option.map_some',
    spec_decimal, hne, Int.natAbs_neg, Int.natAbs_ofNat, neg_neg, Int.toNat_natCast]
  simp

/-- C27 (evaluation at the failing input): for the smallest C `int` the negation
`-c` wraps to `c` itself, the digit loop writes nothing and `printw` writes the
single byte `-`, not the decimal representation `-2147483648`; for the
neighbouring value it writes all eleven bytes. -/
theorem printw_int_min :
    wrap32 (-(-2147483648)) = -2147483648 ∧
    printw (-2147483648) = some (cstr "-") ∧
    spec_decimal (-2147483648) = cstr "-2147483648" ∧
    printw (-2147483647) = some (cstr "-2147483647") := by
  refine ⟨by decide, by decide, ?_, by decide⟩
  simp [spec_decimal, cstr]

/-! ## Theorems: the depth cap and the buffer of the text formatter -/

theorem qualc_fill_in_range (conf : mplp_conf_t) (sq : Seq) (col : List bam_pileup1_t)
    (j : Nat) (qualc : Nat → Int) (cnt : Int) (h : j + col.length ≤ 20000) :
    (qualc_fill conf sq j qualc cnt col).isSome = true := by
  induction col generalizing j qualc cnt with
  | nil => rfl
  | cons p ps ih =>
    simp only [List.length_cons] at h
    have hj : j < 20000 := by omega
    simp only [qualc_fill, if_pos hj]
    exact ih _ _ _ (by omega)

/-- C24: for `n ≥ 1` samples and no overflow of `max_depth * n`, the cap that
`mpileup` installs is `max_depth` when `max_depth * n ≥ 8000` and `8000 / n`
(rounded down) otherwise; it is at least `max_depth` and at most
`max (max_depth, 8000)`; and when `max_depth ≤ 20000`, for a column no longer
than the cap the loop that fills `qualc[20000]` writes no index past the end of
the array. -/
theorem mpileup_cap_qualc (conf : mplp_conf_t) (sq : Seq) (n : Int)
    (hn : 1 ≤ n) (_hov : -2 ^ 31 ≤ conf.max_depth * n ∧ conf.max_depth * n < 2 ^ 31) :
    (8000 ≤ conf.max_depth * n → mpileup_max_depth conf n = conf.max_depth) ∧
    (conf.max_depth * n < 8000 → mpileup_max_depth conf n = 8000 / n) ∧
    conf.max_depth ≤ mpileup_max_depth conf n ∧
    mpileup_max_depth conf n ≤ max conf.max_depth 8000 ∧
    (conf.max_depth ≤ 20000 → ∀ (qualc : Nat → Int) (col : List bam_pileup1_t),
      (col.length : Int) ≤ mpileup_max_depth conf n →
      (∀ j : Nat, j < col.length → j < 20000) ∧
      (qualc_fill conf sq 0 qualc 0 col).isSome = true) := by
  have hdiv : Int.tdiv 8000 n = 8000 / n := Int.tdiv_eq_ediv (by omega) (by omega)
  have hle8000 : (8000 : Int) / n ≤ 8000 := Int.ediv_le_self n (by omega)
  have hlow : conf.max_depth * n < 8000 → conf.max_depth ≤ 8000 / n := by
    intro h
    rw [Int.le_ediv_iff_mul_le (by omega)]
    omega
  have hcap : mpileup_max_depth conf n =
      if conf.max_depth * n < 8000 then 8000 / n else conf.max_depth := by
    unfold mpileup_max_depth
    rw [hdiv]
  have hup : mpileup_max_depth conf n ≤ max conf.max_depth 8000 := by
    rw [hcap]
    split
    · exact le_trans hle8000 (le_max_right _ _)
    · exact le_max_left _ _
  refine ⟨?_, ?_, ?_, hup, ?_⟩
  · intro h
    rw [hcap, if_neg (by omega)]
  · intro h
    rw [hcap, if_pos h]
  · rw [hcap]
    split
    · rename_i h; exact hlow h
    · exact le_refl _
  · intro hd qualc col hcol
    have hmax : max conf.max_depth 8000 ≤ 20000 := max_le hd (by norm_num)
    have hlen : col.length ≤ 20000 := by omega
    exact ⟨fun j hj => by omega, qualc_fill_in_range conf sq col 0 qualc 0 (by omega)⟩

/-- C24 (witness): the default `max_depth = 250` with one sample gives the cap
`8000`, and a column of 3 entries fills `qualc` within its bounds. -/
theorem mpileup_cap_qualc_witness :
    mpileup_max_depth conf_default 1 = 8000 / 1 ∧
    mpileup_max_depth conf_default 1 ≤ max conf_default.max_depth 8000 ∧
    (qualc_fill conf_default seq0 0 qualc0 0
      [entry_q 30 20 0, entry_q 5 20 0, entry_q 40 200 0]).isSome = true :=
  ⟨(mpileup_cap_qualc conf_default seq0 1 (by decide) (by decide)).2.1 (by decide),
   (mpileup_cap_qualc conf_default seq0 1 (by decide) (by decide)).2.2.2.1,
   ((mpileup_cap_qualc conf_default seq0 1 (by decide) (by decide)).2.2.2.2 (by decide) qualc0
      [entry_q 30 20 0, entry_q 5 20 0, entry_q 40 200 0] (by decide)).2⟩

/-! ## Theorems: the columns of the text formatter -/

theorem shown_cons (conf : mplp_conf_t) (sq : Seq) (p : bam_pileup1_t)
    (ps : List bam_pileup1_t) :
    shown conf sq (p :: ps) =
      (if (text_baseQ sq p : Int) ≥ conf.min_baseQ then 1 else 0) + shown conf sq ps := by
  simp only [shown, List.filter_cons]
  by_cases h : (text_baseQ sq p : Int) ≥ conf.min_baseQ
  · simp only [h, decide_True, if_true, List.length_cons]
    omega
  · simp only [h, decide_False, if_false]
    simp

theorem qualc_fill_spec (conf : mplp_conf_t) (sq : Seq) (col : List bam_pileup1_t) (j : Nat)
    (qualc : Nat → Int) (cnt : Int) (qc : Nat → Int) (cnt1 : Int)
    (h : qualc_fill conf sq j qualc cnt col = some (qc, cnt1)) :
    cnt1 = cnt + shown conf sq col ∧
    (∀ i p, col[i]? = some p → qc (j + i) = (text_baseQ sq p : Int)) ∧
    (∀ i, i < j → qc i = qualc i) := by
  induction col generalizing j qualc cnt with
  | nil =>
    simp only [qualc_fill, Option.some.injEq, Prod.mk.injEq] at h
    obtain ⟨rfl, rfl⟩ := h
    refine ⟨by simp [shown], ?_, fun _ _ => rfl⟩
    intro i p hp
    simp at hp
  | cons p ps ih =>
    simp only [qualc_fill] at h
    split at h
    · obtain ⟨hc, hq, hf⟩ := ih _ _ _ h
      refine ⟨?_, ?_, ?_⟩
      · rw [hc, shown_cons]
        split <;> simp only [Nat.cast_add, Nat.cast_one, Nat.cast_zero] <;> omega
      · intro i q hq1
        cases i with
        | zero =>
          simp only [List.getElem?_cons_zero, Option.some.injEq] at hq1
          subst hq1
          rw [Nat.add_zero, hf j (by omega), Function.update_same]
        | succ i =>
          simp only [List.getElem?_cons_succ] at hq1
          have := hq i q hq1
          rw [← this]
          congr 1
          omega
      · intro i hi
        rw [hf i (by omega), Function.update_noteq (by omega)]
    · exact absurd h (by simp)

theorem text_seqs_length (conf : mplp_conf_t) (sq : Seq) (pos : Int) (ref : Option (List Nat))
    (qc : Nat → Int) (col : List bam_pileup1_t) (j : Nat) (seqs : List (List Nat))
    (hq : ∀ i p, col[i]? = some p → qc (j + i) = (text_baseQ sq p : Int))
    (h : text_seqs conf sq pos ref qc j col = some seqs) :
    seqs.length = shown conf sq col := by
  induction col generalizing j seqs with
  | nil =>
    simp only [text_seqs, Option.some.injEq] at h
    subst h
    simp [shown]
  | cons p ps ih =>
    have h0 : qc j = (text_baseQ sq p : Int) := by
      have := hq 0 p (by simp)
      simpa using this
    have hq1 : ∀ i q, ps[i]? = some q → qc (j + 1 + i) = (text_baseQ sq q : Int) := by
      intro i q hi
      have := hq (i + 1) q (by simpa using hi)
      rw [← this]
      congr 1
      omega
    simp only [text_seqs, h0] at h
    rw [shown_cons]
    split at h
    · rename_i hge
      rw [if_pos hge]
      cases hp : pileup_seq sq p pos ref with
      | none => rw [hp] at h; exact absurd h (by simp)
      | some t =>
        rw [hp] at h
        simp only [Option.map_eq_some'] at h
        obtain ⟨ts, hts, rfl⟩ := h
        rw [List.length_cons, ih (j + 1) ts hq1 hts]
        omega
    · rename_i hlt
      rw [if_neg hlt, ih (j + 1) seqs hq1 h]
      omega

theorem text_quals_length (conf : mplp_conf_t) (sq : Seq) (col : List bam_pileup1_t) :
    (text_quals conf sq col).length = shown conf sq col := by
  induction col with
  | nil => rfl
  | cons p ps ih =>
    rw [shown_cons, ← ih]
    simp only [text_quals, List.filterMap_cons]
    split <;> rename_i hc <;> split at hc <;> rename_i hge
    · exact absurd hc (by simp)
    · rw [if_neg hge]; omega
    · rw [if_pos hge, List.length_cons]; omega
    · exact absurd hc (by simp)

theorem text_mapq_length (conf : mplp_conf_t) (sq : Seq) (col : List bam_pileup1_t)
    (hin : ∀ p ∈ col, p.qpos < p.b.core.l_qseq) :
    (text_mapq conf sq col).length = shown conf sq col := by
  induction col with
  | nil => rfl
  | cons p ps ih =>
    have hp : p.qpos < p.b.core.l_qseq := hin p (List.mem_cons_self _ _)
    have hb : text_baseQ sq p = bam_get_qual_at sq p.b p.qpos := by
      simp only [text_baseQ, if_pos hp]
    rw [shown_cons, ← ih (fun q hq => hin q (List.mem_cons_of_mem _ hq)), hb]
    simp only [text_mapq, List.filterMap_cons]
    split <;> rename_i hc <;> split at hc <;> rename_i hlt
    · rw [if_neg (by omega)]; omega
    · exact absurd hc (by simp)
    · exact absurd hc (by simp)
    · rw [if_pos (by omega), List.length_cons]; omega

/-- In the text of a non-empty column the printed depth, the number of
`pileup_seq` calls and the number of characters of the base-quality column all
equal the number of entries whose guarded base quality is at least `min_baseQ`;
so does the number of characters of the mapping-quality column when every query
offset lies within its read. -/
theorem text_col_consistent (conf : mplp_conf_t) (sq : Seq) (pos : Int)
    (ref : Option (List Nat)) (qualc : Nat → Int) (col : List bam_pileup1_t) (r : TextCol)
    (qc : Nat → Int) (h : text_col conf sq pos ref qualc col = some (r, qc))
    (hne : col ≠ []) :
    r.cnt = shown conf sq col ∧ r.seqs.length = shown conf sq col ∧
    r.quals.length = shown conf sq col ∧
    ((∀ p ∈ col, p.qpos < p.b.core.l_qseq) → ∀ m, r.mapq = some m →
      m.length = shown conf sq col) := by
  have hlen : ¬ col.length = 0 := by
    intro h0
    exact hne (List.length_eq_zero.1 h0)
  unfold text_col at h
  cases hf : qualc_fill conf sq 0 qualc 0 col with
  | none => rw [hf] at h; exact absurd h (by simp)
  | some v =>
    obtain ⟨qc1, cnt⟩ := v
    rw [hf] at h
    simp only [if_neg hlen] at h
    obtain ⟨hc, hq, _⟩ := qualc_fill_spec conf sq col 0 qualc 0 qc1 cnt hf
    cases hs : text_seqs conf sq pos ref qc1 0 col with
    | none => rw [hs] at h; exact absurd h (by simp)
    | some seqs =>
      rw [hs] at h
      simp only [Option.some.injEq, Prod.mk.injEq] at h
      obtain ⟨rfl, _⟩ := h
      refine ⟨by simpa using hc, text_seqs_length conf sq pos ref qc1 col 0 seqs hq hs,
        text_quals_length conf sq col, ?_⟩
      intro hin m hm
      simp only [] at hm
      split at hm
      · simp only [Option.some.injEq] at hm
        subst hm
        exact text_mapq_length conf sq col hin
      · exact absurd hm (by simp)

/-- C25 (evaluation at the failing input): under `-s` with the default
`min_baseQ = 13`, a column whose only entry belongs to a record stored without
sequence (`l_qseq = 0`) is printed with depth 0 and with empty base and
base-quality columns, the guarded quality being 0; but the mapping-quality loop
reads `bam_get_qual(b)[0]` without the guard, finds the byte 82 that follows
the empty quality array, and writes one character (`?`, mapping quality 30). -/
theorem text_mapq_unguarded :
    shown conf_s seq0 [entry_noseq] = 0 ∧
    text_baseQ seq0 entry_noseq = 0 ∧
    bam_get_qual_at seq0 entry_noseq.b entry_noseq.qpos = 82 ∧
    (text_col conf_s seq0 100 none qualc0 [entry_noseq]).map Prod.fst =
      some { cnt := 0, seqs := [], bases := [], quals := [], mapq := some [63] } := by
  decide

/-! ## Theorems: the quality characters -/

theorem quality_char_min (q : Nat) :
    head_qual_char q = min q 93 + 33 ∧ base_qual_char q = min q 93 + 33 ∧
    mapq_char q = min q 93 + 33 ∧ 33 ≤ min q 93 + 33 ∧ min q 93 + 33 ≤ 126 := by
  unfold head_qual_char base_qual_char mapq_char
  refine ⟨?_, ?_, ?_, by omega, by omega⟩ <;> split <;> omega

theorem text_quals_chars (conf : mplp_conf_t) (sq : Seq) (col : List bam_pileup1_t) :
    ∀ c ∈ text_quals conf sq col, ∃ p ∈ col, c = min (text_baseQ sq p) 93 + 33 := by
  intro c hc
  simp only [text_quals, List.mem_filterMap] at hc
  obtain ⟨p, hp, hpc⟩ := hc
  split at hpc
  · simp only [Option.some.injEq] at hpc
    exact ⟨p, hp, by rw [← hpc, (quality_char_min _).2.1]⟩
  · exact absurd hpc (by simp)

theorem text_mapq_chars (conf : mplp_conf_t) (sq : Seq) (col : List bam_pileup1_t) :
    ∀ c ∈ text_mapq conf sq col, ∃ p ∈ col, c = min p.b.core.qual 93 + 33 := by
  intro c hc
  simp only [text_mapq, List.mem_filterMap] at hc
  obtain ⟨p, hp, hpc⟩ := hc
  split at hpc
  · exact absurd hpc (by simp)
  · simp only [Option.some.injEq] at hpc
    exact ⟨p, hp, by rw [← hpc, (quality_char_min _).2.2.1]⟩

/-- C26: for every quality `q` the character after `^` at a read start, the
character of the base-quality column and the character of the mapping-quality
column are all `min (q, 93) + 33`, which lies in `33..126`; in the text of
any column every character of the base-quality and of the mapping-quality
column lies in `33..126`, being that character of an entry or the `*` of an
empty column; and the text `pileup_seq` writes for a read start begins with `^`
and that character of the mapping quality. -/
theorem text_quality_chars (conf : mplp_conf_t) (sq : Seq) (pos : Int)
    (ref : Option (List Nat)) (qualc : Nat → Int) (col : List bam_pileup1_t) (r : TextCol)
    (qc : Nat → Int) (h : text_col conf sq pos ref qualc col = some (r, qc)) :
    (∀ q : Nat, head_qual_char q = min q 93 + 33 ∧ base_qual_char q = min q 93 + 33 ∧
      mapq_char q = min q 93 + 33 ∧ 33 ≤ min q 93 + 33 ∧ min q 93 + 33 ≤ 126) ∧
    (∀ c ∈ r.quals, 33 ≤ c ∧ c ≤ 126 ∧
      (col ≠ [] → ∃ p ∈ col, c = min (text_baseQ sq p) 93 + 33)) ∧
    (∀ m, r.mapq = some m → ∀ c ∈ m, 33 ≤ c ∧ c ≤ 126 ∧
      (col ≠ [] → ∃ p ∈ col, c = min p.b.core.qual 93 + 33)) ∧
    (∀ (p : bam_pileup1_t) (t : List Nat), pileup_seq sq p pos ref = some t →
      p.is_head = true → ∃ rest, t = 94 :: (min p.b.core.qual 93 + 33) :: rest) := by
  refine ⟨quality_char_min, ?_, ?_, ?_⟩
  · unfold text_col at h
    cases hf : qualc_fill conf sq 0 qualc 0 col with
    | none => rw [hf] at h; exact absurd h (by simp)
    | some v =>
      rw [hf] at h
      simp only [] at h
      split at h
      · rename_i h0
        simp only [Option.some.injEq, Prod.mk.injEq] at h
        obtain ⟨rfl, _⟩ := h
        intro c hc
        simp only [List.mem_singleton] at hc
        subst hc
        exact ⟨by omega, by omega, fun hne => absurd (List.length_eq_zero.1 h0) hne⟩
      · cases hs : text_seqs conf sq pos ref v.1 0 col with
        | none => rw [hs] at h; exact absurd h (by simp)
        | some seqs =>
          rw [hs] at h
          simp only [Option.some.injEq, Prod.mk.injEq] at h
          obtain ⟨rfl, _⟩ := h
          intro c hc
          obtain ⟨p, hp, rfl⟩ := text_quals_chars conf sq col c hc
          exact ⟨by omega, by omega, fun _ => ⟨p, hp, rfl⟩⟩
  · unfold text_col at h
    cases hf : qualc_fill conf sq 0 qualc 0 col with
    | none => rw [hf] at h; exact absurd h (by simp)
    | some v =>
      rw [hf] at h
      simp only [] at h
      split at h
      · rename_i h0
        simp only [Option.some.injEq, Prod.mk.injEq] at h
        obtain ⟨rfl, _⟩ := h
        intro m hm c hc
        simp only [] at hm
        split at hm
        · simp only [Option.some.injEq] at hm
          subst hm
          simp only [List.mem_singleton] at hc
          subst hc
          exact ⟨by omega, by omega, fun hne => absurd (List.length_eq_zero.1 h0) hne⟩
        · exact absurd hm (by simp)
      · cases hs : text_seqs conf sq pos ref v.1 0 col with
        | none => rw [hs] at h; exact absurd h (by simp)
        | some seqs =>
          rw [hs] at h
          simp only [Option.some.injEq, Prod.mk.injEq] at h
          obtain ⟨rfl, _⟩ := h
          intro m hm c hc
          simp only [] at hm
          split at hm
          · simp only [Option.some.injEq] at hm
            subst hm
            obtain ⟨p, hp, rfl⟩ := text_mapq_chars conf sq col c hc
            exact ⟨by omega, by omega, fun _ => ⟨p, hp, rfl⟩⟩
          · exact absurd hm (by simp)
  · intro p t ht hhead
    simp only [pileup_seq, hhead, if_true, Option.map_eq_some'] at ht
    obtain ⟨ind, _, rfl⟩ := ht
    rw [(quality_char_min p.b.core.qual).1]
    exact ⟨_, rfl⟩

/-- C26 (witness): base qualities 30, 5 and 40 with mapping qualities 20, 20 and
200 under `-s`: the quality column is `?I`, the mapping-quality column `5~`
(`~` is 126, the character of every quality from 93 on), all within
`33..126`. -/
theorem text_quality_chars_witness :
    (text_col conf_s seq0 100 none qualc0
      [entry_q 30 20 0, entry_q 5 20 0, entry_q 40 200 0]).map Prod.fst =
      some { cnt := 2, seqs := [[65], [65]], bases := [65, 65], quals := [63, 73],
             mapq := some [53, 126] } ∧
    (∀ c ∈ [63, 73], 33 ≤ c ∧ c ≤ 126 ∧
      ([entry_q 30 20 0, entry_q 5 20 0, entry_q 40 200 0] ≠ [] →
        ∃ p ∈ [entry_q 30 20 0, entry_q 5 20 0, entry_q 40 200 0],
          c = min (text_baseQ seq0 p) 93 + 33)) ∧
    mapq_char 200 = min 200 93 + 33 :=
  ⟨by decide,
   (text_quality_chars conf_s seq0 100 none qualc0
      [entry_q 30 20 0, entry_q 5 20 0, entry_q 40 200 0]
      { cnt := 2, seqs := [[65], [65]], bases := [65, 65], quals := [63, 73],
        mapq := some [53, 126] }
      (Function.update (Function.update (Function.update qualc0 0 30) 1 5) 2 40) rfl).2.1,
   ((text_quality_chars conf_s seq0 100 none qualc0
      [entry_q 30 20 0, entry_q 5 20 0, entry_q 40 200 0]
      { cnt := 2, seqs := [[65], [65]], bases := [65, 65], quals := [63, 73],
        mapq := some [53, 126] }
      (Function.update (Function.update (Function.update qualc0 0 30) 1 5) 2 40) rfl).1 200).2.2.1⟩

end Mpileup
